import Mathlib

/-!
# A pointer-level model of the hw8 binary search tree

The C++ program keeps its nodes on the heap and links them by raw pointers
(`left`, `right`, `parent`), with one extra node, `endNode`, that stands for the
position after the largest element.  The embedding keeps exactly that
structure: a heap maps addresses to node records, a pointer is an
`Option Nat` (`none` is `nullptr`), and every member function becomes a
function on the heap.  Dereferencing a null pointer or a freed cell is a
`Fault`; loops and recursions carry a step budget.
-/

namespace Hw8

/-- Ways in which a run of the program can fail to produce a result. -/
inductive Fault
  | nullDeref
  | dangling
  | outOfFuel
  deriving DecidableEq, Repr

/-- Outcome of running a piece of the program. -/
inductive Res (α : Type)
  | ok (a : α)
  | fault (f : Fault)
  deriving DecidableEq, Repr

/-- Sequencing of two program fragments; a fault aborts the run. -/
def Res.bind {α β : Type} : Res α → (α → Res β) → Res β
  | .ok a, f => f a
  | .fault e, _ => .fault e

instance : Monad Res where
  pure := Res.ok
  bind := Res.bind

/-- The record `TreeNode<T,CMP>` of `TreeNode.h`: the payload and the three links.
The comparator object and the back reference `myBst` are passed to the member
functions as arguments. -/
structure TreeNode (T : Type) where
  data : T
  left : Option Nat
  right : Option Nat
  parent : Option Nat
  deriving DecidableEq, Repr

/-- The free store: `cells a = none` for an address that was never allocated or
has been deleted; `next` is the address the next `new` returns. -/
structure Heap (T : Type) where
  cells : Nat → Option (TreeNode T)
  next : Nat

/-- The data members of `BinarySearchTree<T,CMP>`: `root` and `endNode`. -/
structure BinarySearchTree where
  root : Option Nat
  endNode : Option Nat
  deriving DecidableEq, Repr

variable {T : Type}

/-- The heap before any allocation. -/
def Heap.empty : Heap T := ⟨fun _ => none, 0⟩

/-- Reading through a pointer (`p->...`). -/
def Heap.load (h : Heap T) : Option Nat → Res (TreeNode T)
  | none => .fault .nullDeref
  | some a =>
    match h.cells a with
    | none => .fault .dangling
    | some c => .ok c

/-- Overwriting the cell at address `a`. -/
def Heap.store (h : Heap T) (a : Nat) (c : TreeNode T) : Heap T :=
  ⟨fun x => if x = a then some c else h.cells x, h.next⟩

/-- Assigning to fields through a pointer (`p->field = ...`). -/
def Heap.modify (h : Heap T) (p : Option Nat) (f : TreeNode T → TreeNode T) : Res (Heap T) :=
  match p with
  | none => .fault .nullDeref
  | some a =>
    match h.cells a with
    | none => .fault .dangling
    | some c => .ok (h.store a (f c))

/-- Allocation (`new TreeNode`): the fresh address and the extended heap. -/
def Heap.alloc (h : Heap T) (c : TreeNode T) : Nat × Heap T :=
  (h.next, ⟨fun x => if x = h.next then some c else h.cells x, h.next + 1⟩)

/-- Deallocation (`delete p`); deleting a null pointer does nothing. -/
def Heap.free (h : Heap T) : Option Nat → Res (Heap T)
  | none => .ok h
  | some a =>
    match h.cells a with
    | none => .fault .dangling
    | some _ => .ok ⟨fun x => if x = a then none else h.cells x, h.next⟩

/-- Step budget given to every loop and recursion that runs on heap `h`. -/
def Heap.fuel (h : Heap T) : Nat := h.next + 1

/-! ## TreeNode.h -/

/-- `TreeNode::insert_node`, called on `this` with argument `new_node`; `endNode`
is the value of `myBst.endNode`. -/
def insert_node (isless : T → T → Bool) (endNode : Option Nat) :
    Nat → Heap T → Option Nat → Option Nat → Res (Heap T)
  | 0, _, _, _ => .fault .outOfFuel
  | fuel + 1, h, this, new_node => do
    let c ← h.load this
    let n ← h.load new_node
    if isless n.data c.data then
      if c.left = none then
        let h ← h.modify new_node (fun m => { m with parent := this })
        h.modify this (fun m => { m with left := new_node })
      else insert_node isless endNode fuel h c.left new_node
    else if isless c.data n.data then
      if c.right = endNode then
        let h ← h.modify new_node (fun m => { m with parent := this })
        let h ← h.modify this (fun m => { m with right := new_node })
        let h ← h.modify new_node (fun m => { m with right := endNode })
        let n ← h.load new_node
        let h ← h.modify endNode (fun m => { m with data := n.data })
        h.modify endNode (fun m => { m with parent := new_node })
      else insert_node isless endNode fuel h c.right new_node
    else pure h

/-- `TreeNode::find`, called on `this`. -/
def find (isless : T → T → Bool) (value : T) : Nat → Heap T → Option Nat → Res Bool
  | 0, _, _ => .fault .outOfFuel
  | fuel + 1, h, this => do
    let c ← h.load this
    if isless value c.data then
      if c.left = none then pure false
      else find isless value fuel h c.left
    else if isless c.data value then
      if c.right = none then pure false
      else find isless value fuel h c.right
    else pure true

/-! ## TreeIterator.h -/

/-- The loop `while (cur->left != nullptr) cur = cur->left;`. -/
def leftmost : Nat → Heap T → Option Nat → Res (Option Nat)
  | 0, _, _ => .fault .outOfFuel
  | fuel + 1, h, cur => do
    let c ← h.load cur
    if c.left = none then pure cur else leftmost fuel h c.left

/-- The loop `while (cur->right != nullptr) cur = cur->right;`. -/
def rightmost : Nat → Heap T → Option Nat → Res (Option Nat)
  | 0, _, _ => .fault .outOfFuel
  | fuel + 1, h, cur => do
    let c ← h.load cur
    if c.right = none then pure cur else rightmost fuel h c.right

/-- The loop of `operator++`:
`while (parent2 != nullptr && cur == parent2->right) { cur = parent2; parent2 = parent2->parent; }`,
returning the final `parent2`. -/
def climb_right : Nat → Heap T → Option Nat → Option Nat → Res (Option Nat)
  | 0, _, _, _ => .fault .outOfFuel
  | fuel + 1, h, cur, parent2 =>
    match parent2 with
    | none => .ok none
    | some q => do
      let c ← h.load (some q)
      if cur = c.right then climb_right fuel h (some q) c.parent
      else pure (some q)

/-- The loop of `operator--`:
`while (parent2 != nullptr && cur == parent2->left) { cur = parent2; parent2 = parent2->parent; }`,
returning the final `parent2`. -/
def climb_left : Nat → Heap T → Option Nat → Option Nat → Res (Option Nat)
  | 0, _, _, _ => .fault .outOfFuel
  | fuel + 1, h, cur, parent2 =>
    match parent2 with
    | none => .ok none
    | some q => do
      let c ← h.load (some q)
      if cur = c.left then climb_left fuel h (some q) c.parent
      else pure (some q)

/-- `TreeIterator::operator++` (prefix): the new value of the iterator's `node`. -/
def increment (h : Heap T) (node : Option Nat) : Res (Option Nat) := do
  let c ← h.load node
  if c.right = none then climb_right h.fuel h node c.parent
  else leftmost h.fuel h c.right

/-- `TreeIterator::operator--` (prefix): the new value of the iterator's `node`.
As in the source, the walk to the right starts at `cur = node`. -/
def decrement (h : Heap T) (node : Option Nat) : Res (Option Nat) := do
  let c ← h.load node
  if c.left ≠ none then rightmost h.fuel h node
  else climb_left h.fuel h node c.parent

/-- `TreeIterator::operator*`. -/
def deref (h : Heap T) (node : Option Nat) : Res T := do
  let c ← h.load node
  pure c.data

/-! ## BinarySearchTree.h -/

/-- The default constructor. -/
def BinarySearchTree.empty : BinarySearchTree := ⟨none, none⟩

/-- `BinarySearchTree::insert`.  The `parent` field of a fresh node is left
unset by the source until the node is linked; the model stores `none` there. -/
def insert (isless : T → T → Bool) (h : Heap T) (t : BinarySearchTree) (data : T) :
    Res (Heap T × BinarySearchTree) :=
  let (new_node, h) := h.alloc ⟨data, none, none, none⟩
  if t.root = none then do
    let h ← h.modify (some new_node) (fun m => { m with parent := none })
    let (e, h) := h.alloc ⟨data, none, none, none⟩
    let h ← h.modify (some new_node) (fun m => { m with right := some e })
    let h ← h.modify (some e) (fun m => { m with parent := some new_node })
    let h ← h.modify (some e) (fun m => { m with right := none })
    let h ← h.modify (some e) (fun m => { m with left := none })
    pure (h, ⟨some new_node, some e⟩)
  else do
    let h ← insert_node isless t.endNode h.fuel h t.root (some new_node)
    pure (h, t)

/-- The search loop of `BinarySearchTree::erase`; it compares with `operator<`
of the element type (`lt`).  The result is the final `to_be_removed` (null when
`found` is false) and `parent2`. -/
def erase_find (lt : T → T → Bool) (data : T) :
    Nat → Heap T → Option Nat → Option Nat → Res (Option Nat × Option Nat)
  | 0, _, _, _ => .fault .outOfFuel
  | fuel + 1, h, to_be_removed, parent2 =>
    match to_be_removed with
    | none => .ok (none, parent2)
    | some a => do
      let c ← h.load (some a)
      if lt c.data data then erase_find lt data fuel h c.right (some a)
      else if lt data c.data then erase_find lt data fuel h c.left (some a)
      else pure (some a, parent2)

/-- The loop `while (largest->right != nullptr) { largest_parent = largest; largest = largest->right; }`
of `BinarySearchTree::erase`, returning `(largest_parent, largest)`. -/
def erase_largest : Nat → Heap T → Option Nat → Option Nat → Res (Option Nat × Option Nat)
  | 0, _, _, _ => .fault .outOfFuel
  | fuel + 1, h, largest_parent, largest => do
    let c ← h.load largest
    if c.right = none then pure (largest_parent, largest)
    else erase_largest fuel h largest c.right

/-- The part of `BinarySearchTree::erase` after the node has been found. -/
def erase_found (h : Heap T) (t : BinarySearchTree) (to_be_removed parent2 : Option Nat) :
    Res (Heap T × BinarySearchTree) := do
  let c ← h.load to_be_removed
  if c.left = none ∨ c.right = none then
    let new_child := if c.left = none then c.right else c.left
    match parent2 with
    | none => do
      let h ← h.modify new_child (fun m => { m with parent := none })
      let h ← h.free to_be_removed
      pure (h, { t with root := new_child })
    | some q => do
      let cq ← h.load (some q)
      if cq.left = to_be_removed then
        let h ← h.modify (some q) (fun m => { m with left := new_child })
        let h ← if new_child ≠ none then
            h.modify new_child (fun m => { m with parent := some q })
          else pure h
        let h ← h.free to_be_removed
        pure (h, t)
      else
        let h ← h.modify (some q) (fun m => { m with right := new_child })
        let h ← if new_child ≠ none then
            h.modify new_child (fun m => { m with parent := some q })
          else pure h
        let h ← h.free to_be_removed
        pure (h, t)
  else do
    let (largest_parent, largest) ← erase_largest h.fuel h to_be_removed c.left
    let lg ← h.load largest
    let h ← h.modify to_be_removed (fun m => { m with data := lg.data })
    if largest_parent = to_be_removed then
      let lg ← h.load largest
      let h ← h.modify largest_parent (fun m => { m with left := lg.left })
      let lp ← h.load largest_parent
      let h ← if lp.left ≠ none then
          h.modify lp.left (fun m => { m with parent := largest_parent })
        else pure h
      let h ← h.free largest
      pure (h, t)
    else
      let lg ← h.load largest
      let h ← h.modify largest_parent (fun m => { m with right := lg.left })
      let lp ← h.load largest_parent
      let h ← if lp.right ≠ none then
          h.modify lp.right (fun m => { m with parent := largest_parent })
        else pure h
      let h ← h.free largest
      pure (h, t)

/-- `BinarySearchTree::erase`. -/
def erase (lt : T → T → Bool) (h : Heap T) (t : BinarySearchTree) (data : T) :
    Res (Heap T × BinarySearchTree) := do
  let (to_be_removed, parent2) ← erase_find lt data h.fuel h t.root none
  if to_be_removed = none then pure (h, t)
  else erase_found h t to_be_removed parent2

/-- `BinarySearchTree::smallest`. -/
def smallest (h : Heap T) (t : BinarySearchTree) : Res T := do
  let cur ← leftmost h.fuel h t.root
  deref h cur

/-- `BinarySearchTree::largest`. -/
def largest (h : Heap T) (t : BinarySearchTree) : Res T := do
  let cur ← rightmost h.fuel h t.root
  deref h cur

/-- `BinarySearchTree::begin`: the `node` of the returned iterator. -/
def begin (h : Heap T) (t : BinarySearchTree) : Res (Option Nat) :=
  leftmost h.fuel h t.root

/-- `BinarySearchTree::end`: the `node` of the returned iterator. -/
def end_ (t : BinarySearchTree) : Option Nat := t.endNode

/-- The body of a range-based `for` over the tree, started at iterator `it`:
`for (; it != last; ++it) visit(*it);`, collecting the visited values. -/
def walk : Nat → Heap T → Option Nat → Option Nat → Res (List T)
  | 0, _, _, _ => .fault .outOfFuel
  | fuel + 1, h, it, last =>
    if it = last then .ok []
    else do
      let x ← deref h it
      let it ← increment h it
      let rest ← walk fuel h it last
      pure (x :: rest)

/-- The range-based loop `for (auto x : bst)` of `main.cpp`: the values visited
from `begin()` up to `end()`. -/
def traverse (h : Heap T) (t : BinarySearchTree) : Res (List T) := do
  let it ← begin h t
  walk h.fuel h it (end_ t)

/-- A run of `insert` calls on one tree, in the order of the list. -/
def insertAll (isless : T → T → Bool) :
    Heap T → BinarySearchTree → List T → Res (Heap T × BinarySearchTree)
  | h, t, [] => .ok (h, t)
  | h, t, v :: vs => do
    let (h, t) ← insert isless h t v
    insertAll isless h t vs

/-- The ordering `std::less<int>` and `operator<` on `int`. -/
def intLess (a b : Int) : Bool := decide (a < b)

/-! ## Point2D.h and comparators.h -/

/-- The class `Point2D`. -/
structure Point2D where
  x : Int
  y : Int
  deriving DecidableEq, Repr

/-- `Point2D::getx`. -/
def Point2D.getx (p : Point2D) : Int := p.x

/-- `Point2D::gety`. -/
def Point2D.gety (p : Point2D) : Int := p.y

/-- `PointOrderx::operator()`. -/
def PointOrderx (a b : Point2D) : Bool := decide (a.getx < b.getx)

/-- `PointOrdery::operator()`. -/
def PointOrdery (a b : Point2D) : Bool := decide (a.gety < b.gety)

/-- The ordering `std::greater<std::string>`: `a > b`, where strings compare
lexicographically, character by character. -/
def stringGreater (a b : String) : Bool := decide (b.toList < a.toList)

/-- The ordering `operator<` of `std::string`. -/
def stringLess (a b : String) : Bool := decide (a.toList < b.toList)

/-- The heap and tree object after the inserts `vs` into a fresh tree on an
empty heap (the empty tree again if one of them faults). -/
def built (isless : T → T → Bool) (vs : List T) : Heap T × BinarySearchTree :=
  match insertAll isless Heap.empty BinarySearchTree.empty vs with
  | .ok p => p
  | .fault _ => (Heap.empty, BinarySearchTree.empty)

/-- A call of one of the two mutating member functions. -/
inductive Op (T : Type)
  | ins (v : T)
  | del (v : T)

/-- A run of `insert` and `erase` calls on one tree, in the order of the list. -/
def runOps (isless lt : T → T → Bool) :
    Heap T → BinarySearchTree → List (Op T) → Res (Heap T × BinarySearchTree)
  | h, t, [] => .ok (h, t)
  | h, t, .ins v :: ops => do
    let (h, t) ← insert isless h t v
    runOps isless lt h t ops
  | h, t, .del v :: ops => do
    let (h, t) ← erase lt h t v
    runOps isless lt h t ops

/-- The heap and tree object after the calls `ops` on a fresh tree on an empty
heap (the empty tree again if one of them faults). -/
def reached (isless lt : T → T → Bool) (ops : List (Op T)) : Heap T × BinarySearchTree :=
  match runOps isless lt Heap.empty BinarySearchTree.empty ops with
  | .ok p => p
  | .fault _ => (Heap.empty, BinarySearchTree.empty)

/-! ## Enumeration, copying, moving and tear-down -/

/-- `TreeNode::print_nodes`, called on `this`: the values written to the output,
in the order written. -/
def print_nodes : Nat → Heap T → Option Nat → Res (List T)
  | 0, _, _ => .fault .outOfFuel
  | fuel + 1, h, this => do
    let c ← h.load this
    let before ← if c.left ≠ none then print_nodes fuel h c.left else pure []
    let after ← if c.right ≠ none then print_nodes fuel h c.right else pure []
    pure (before ++ c.data :: after)

/-- `BinarySearchTree::print`: the values written to the output. -/
def print (h : Heap T) (t : BinarySearchTree) : Res (List T) :=
  if t.root ≠ t.endNode then print_nodes h.fuel h t.root else pure []

/-- `BinarySearchTree::destroy`, called on `N`: the heap afterwards and the
addresses given to `delete`, in the order of the calls. -/
def destroy : Nat → Heap T → Option Nat → Res (Heap T × List Nat)
  | 0, _, _ => .fault .outOfFuel
  | fuel + 1, h, N =>
    if N ≠ none then do
      let c ← h.load N
      let (h, deleted_left) ← destroy fuel h c.left
      let h ← h.modify N (fun m => { m with left := none })
      let c ← h.load N
      let (h, deleted_right) ← destroy fuel h c.right
      let h ← h.modify N (fun m => { m with right := none })
      let h ← h.free N
      pure (h, deleted_left ++ deleted_right ++ N.toList)
    else pure (h, [])

/-- The destructor `BinarySearchTree::~BinarySearchTree`. -/
def destruct (h : Heap T) (t : BinarySearchTree) : Res (Heap T × List Nat) :=
  destroy h.fuel h t.root

/-- `BinarySearchTree::copy_helper`, called on the tree object `t` with the node
`N` of the tree that is copied. -/
def copy_helper (isless : T → T → Bool) :
    Nat → Heap T → BinarySearchTree → Option Nat → Res (Heap T × BinarySearchTree)
  | 0, _, _, _ => .fault .outOfFuel
  | fuel + 1, h, t, N =>
    if N ≠ none then do
      let c ← h.load N
      let (h, t) ← insert isless h t c.data
      let c ← h.load N
      let (h, t) ← copy_helper isless fuel h t c.left
      let c ← h.load N
      copy_helper isless fuel h t c.right
    else pure (h, t)

/-- The copy constructor `BinarySearchTree(const BinarySearchTree&)`: the new
tree object.  The constructor assigns `root` only; `junk` is the indeterminate
value its member `endNode` has before the first `insert`. -/
def copy_construct (isless : T → T → Bool) (junk : Option Nat) (h : Heap T)
    (copy : BinarySearchTree) : Res (Heap T × BinarySearchTree) :=
  copy_helper isless h.fuel h ⟨none, junk⟩ copy.root

/-- The move constructor `BinarySearchTree(BinarySearchTree&&)`: the new tree
object and the moved-from one.  The constructor assigns the two `root` members
only; `junk` is the indeterminate value of the new object's member `endNode`. -/
def move_construct (junk : Option Nat) (copy : BinarySearchTree) :
    BinarySearchTree × BinarySearchTree :=
  (⟨copy.root, junk⟩, ⟨none, copy.endNode⟩)

/-- The copy assignment `a = b` through `operator=(BinarySearchTree assign)`: the
parameter `assign` is copy-constructed from `b`, the two `root` members are
swapped, and `assign` is destroyed when the call returns.  The result is the
heap and the object `a`. -/
def copy_assign (isless : T → T → Bool) (junk : Option Nat) (h : Heap T)
    (a b : BinarySearchTree) : Res (Heap T × BinarySearchTree) := do
  let (h, assign) ← copy_construct isless junk h b
  let a' : BinarySearchTree := { a with root := assign.root }
  let assign' : BinarySearchTree := { assign with root := a.root }
  let (h, _) ← destruct h assign'
  pure (h, a')

/-! ## Abstraction: the tree a pointer graph represents -/

/-- A binary tree of heap addresses with the value stored at each address. -/
inductive Shape (T : Type)
  | nil
  | node (l : Shape T) (a : Nat) (x : T) (r : Shape T)

/-- The pointer that refers to the tree: null for the empty tree. -/
def Shape.ptr : Shape T → Option Nat
  | .nil => none
  | .node _ a _ _ => some a

/-- The nodes in in-order, each with its value. -/
def Shape.nodes : Shape T → List (Nat × T)
  | .nil => []
  | .node l a x r => l.nodes ++ (a, x) :: r.nodes

/-- The addresses in in-order. -/
def Shape.addrs (s : Shape T) : List Nat := s.nodes.map Prod.fst

/-- The values in in-order. -/
def Shape.vals (s : Shape T) : List T := s.nodes.map Prod.snd

/-- The address of the leftmost node. -/
def Shape.first : Shape T → Option Nat
  | .nil => none
  | .node .nil a _ _ => some a
  | .node l _ _ _ => l.first

/-- Number of right links below the root on the right spine. -/
def Shape.rlen : Shape T → Nat
  | .nil => 0
  | .node _ _ _ .nil => 0
  | .node _ _ _ r => r.rlen + 1

/-- The in-order successor of address `a` inside the tree, `none` when `a` is
its last node. -/
def Shape.succ : Shape T → Nat → Option Nat
  | .nil, _ => none
  | .node l c _ r, a =>
    if a ∈ l.addrs then
      match l.succ a with
      | some b => some b
      | none => some c
    else if a = c then r.first
    else r.succ a

/-- The heap holds the tree `s`, whose root has parent pointer `par`. -/
def Rep (h : Heap T) : Shape T → Option Nat → Prop
  | .nil, _ => True
  | .node l a x r, par =>
    h.cells a = some ⟨x, l.ptr, r.ptr, par⟩ ∧ Rep h l (some a) ∧ Rep h r (some a)

/-- The element that follows the first occurrence of `a` in a list. -/
def nextIn : List Nat → Nat → Option Nat
  | [], _ => none
  | x :: xs, a => if x = a then xs.head? else nextIn xs a

/-- The tree object `t` on heap `h` is the tree `s`: `root` points to it, the
parent of the root is null, no address occurs twice, every address has been
allocated, and `endNode` is the last node in in-order. -/
def Wf (h : Heap T) (t : BinarySearchTree) (s : Shape T) : Prop :=
  t.root = s.ptr ∧ Rep h s none ∧ s.addrs.Nodup ∧ (∀ a ∈ s.addrs, a < h.next) ∧
    t.endNode = s.addrs.getLast?

/-- The effect of `insert_node` on the tree below `this`: the same comparisons
and the same tests of the links, on the tree instead of the heap.  `endNode` is
the pointer the right link is compared with, `n` the address of the new node
and `v` its value. -/
def Shape.ins (isless : T → T → Bool) (endNode : Option Nat) (n : Nat) (v : T) :
    Shape T → Res (Shape T)
  | .nil => .fault .nullDeref
  | .node l a x r =>
    if isless v x then
      if l.ptr = none then .ok (.node (.node .nil n v .nil) a x r)
      else
        match l.ins isless endNode n v with
        | .ok l' => .ok (.node l' a x r)
        | .fault f => .fault f
    else if isless x v then
      if r.ptr = endNode then
        match r with
        | .nil => .fault .nullDeref
        | .node rl ra _ rr => .ok (.node l a x (.node .nil n v (.node rl ra v rr)))
      else
        match r.ins isless endNode n v with
        | .ok r' => .ok (.node l a x r')
        | .fault f => .fault f
    else .ok (.node l a x r)

/-- Insertion into a binary search tree in the textbook sense: the new node
goes where the search for `v` falls off the tree, and nothing changes when an
equivalent value is met. -/
def Shape.bins (isless : T → T → Bool) (n : Nat) (v : T) : Shape T → Shape T
  | .nil => .node .nil n v .nil
  | .node l a x r =>
    if isless v x then .node (l.bins isless n v) a x r
    else if isless x v then .node l a x (r.bins isless n v)
    else .node l a x r

/-- The tree of stored elements `bt` with the end node (address `e`, cached
value `m`) hung below its rightmost node. -/
def Shape.attach (e : Nat) (m : T) : Shape T → Shape T
  | .nil => .node .nil e m .nil
  | .node l a x r => .node l a x (r.attach e m)

/-- The search-tree ordering: everything on the left orders before the node,
everything on the right after it. -/
def Ordered (isless : T → T → Bool) : Shape T → Prop
  | .nil => True
  | .node l _ x r =>
    (∀ y ∈ l.vals, isless y x = true) ∧ (∀ y ∈ r.vals, isless x y = true) ∧
      Ordered isless l ∧ Ordered isless r

/-- The tree object `t` on heap `h` stores the elements of `bt`: either both
are empty, or the pointer graph is `bt` followed by the end node. -/
def Model (h : Heap T) (t : BinarySearchTree) (bt : Shape T) : Prop :=
  (bt = .nil ∧ t.root = none) ∨
    (bt ≠ .nil ∧ ∃ e m, Wf h t (bt.attach e m))

/-- The comparator contract: a strict weak ordering (irreflexive, transitive,
with a transitive incomparability relation). -/
structure StrictWeakOrder (isless : T → T → Bool) : Prop where
  irrefl : ∀ a, isless a a = false
  trans : ∀ a b c, isless a b = true → isless b c = true → isless a c = true
  incomp_trans : ∀ a b c, isless a b = false → isless b a = false → isless b c = false →
    isless c b = false → isless a c = false ∧ isless c a = false

/-- The value of the rightmost node (`d` for the empty tree). -/
def Shape.maxVal (d : T) : Shape T → T
  | .nil => d
  | .node _ _ x r => r.maxVal x

/-- The address of the rightmost node (`d` for the empty tree). -/
def Shape.lastAddr (d : Nat) : Shape T → Nat
  | .nil => d
  | .node _ a _ r => r.lastAddr a

/-- The address of the parent of the rightmost node, where `q` is the parent of
the root. -/
def Shape.lastParent (q : Nat) : Shape T → Nat
  | .nil => q
  | .node _ a _ r => if r.ptr = none then q else r.lastParent a

/-- The left subtree of the rightmost node. -/
def Shape.maxLeft : Shape T → Shape T
  | .nil => .nil
  | .node l _ _ r => if r.ptr = none then l else r.maxLeft

/-- The tree without its rightmost node, whose left subtree takes its place. -/
def Shape.removeMax : Shape T → Shape T
  | .nil => .nil
  | .node l a x r => if r.ptr = none then l else .node l a x r.removeMax

/-- The effect of `erase` on the subtree whose root is the node found: with a
null left or right link the other child takes the node's place, otherwise the
node takes the value of the rightmost node of its left subtree, and that node
is removed. -/
def Shape.eraseAt : Shape T → Shape T
  | .nil => .nil
  | .node l a x r =>
    if l.ptr = none ∨ r.ptr = none then (if l.ptr = none then r else l)
    else .node l.removeMax a (l.maxVal x) r

/-- The effect of `erase` on a tree: the search of `erase_find`, then `eraseAt`
at the node found. -/
def Shape.erase (lt : T → T → Bool) (v : T) : Shape T → Shape T
  | .nil => .nil
  | .node l a x r =>
    if lt x v then .node l a x (r.erase lt v)
    else if lt v x then .node (l.erase lt v) a x r
    else (Shape.node l a x r).eraseAt

/-- The addresses in post-order: left subtree, right subtree, then the node. -/
def Shape.postorder : Shape T → List Nat
  | .nil => []
  | .node l a _ r => l.postorder ++ r.postorder ++ [a]

/-- The values in pre-order: the node, its left subtree, its right subtree. -/
def Shape.preorder : Shape T → List T
  | .nil => []
  | .node l _ x r => x :: (l.preorder ++ r.preorder)

/-- The tree with the addresses forgotten: what is left is the value at every position of
the left/right link structure. -/
def Shape.forget : Shape T → Shape T
  | .nil => .nil
  | .node l _ x r => .node l.forget 0 x r.forget

/-- A tree in which no node has a right child. -/
def Chain : Shape T → Prop
  | .nil => True
  | .node l _ _ r => r = .nil ∧ Chain l

/-- A tree in which only the nodes of the right spine have a right child. -/
def Comb : Shape T → Prop
  | .nil => True
  | .node l _ _ r => Chain l ∧ Comb r

/-- A run of `insert_node` calls at the root of a tree, the new nodes taking the addresses
`k`, `k + 1`, and so on. -/
def Shape.insAll (isless : T → T → Bool) (e : Option Nat) : Nat → List T → Shape T → Res (Shape T)
  | _, [], s => .ok s
  | k, v :: vs, s =>
    match s.ins isless e k v with
    | .ok s' => Shape.insAll isless e (k + 1) vs s'
    | .fault f => .fault f

/-- The tree object `t` on heap `h` is a copy under construction: all its nodes have
addresses from `N0` on, as has every node allocated later. -/
def Target (N0 : Nat) (h : Heap T) (t : BinarySearchTree) : Prop :=
  N0 ≤ h.next ∧ (t.root = none ∨
    ∃ (bt : Shape T) (e : Nat) (m : T), bt ≠ .nil ∧ Wf h t (bt.attach e m) ∧
      ∀ a ∈ (bt.attach e m).addrs, N0 ≤ a)

/-- The search loop of `erase` on a tree: the node found (null when the search falls off
the tree) and the last node passed before it, `p2` at the root. -/
def Shape.locate (lt : T → T → Bool) (v : T) : Shape T → Option Nat → Option Nat × Option Nat
  | .nil, p2 => (none, p2)
  | .node l a x r, p2 =>
    if lt x v then r.locate lt v (some a)
    else if lt v x then l.locate lt v (some a)
    else (some a, p2)

/-- The subtree whose root is the node the search loop of `erase` finds, empty when the
search falls off the tree. -/
def Shape.subAt (lt : T → T → Bool) (v : T) : Shape T → Shape T
  | .nil => .nil
  | .node l a x r =>
    if lt x v then r.subAt lt v
    else if lt v x then l.subAt lt v
    else .node l a x r

/-- No cell that is free in `h` and was allocated before is in use in `h'`, and nothing
was given back to the allocator: what has been deleted stays deleted. -/
def Heap.Keeps (h h' : Heap T) : Prop :=
  h.next ≤ h'.next ∧ ∀ b, b < h.next → h.cells b = none → h'.cells b = none

/-- The same without any allocation in between: `h'` has the allocation counter of `h` and
no cell that is free in `h` is in use in `h'`. -/
def Heap.Shrinks (h h' : Heap T) : Prop :=
  h'.next = h.next ∧ ∀ b, h.cells b = none → h'.cells b = none

/-- The states a tree object goes through under `insert` and `erase`: freshly constructed;
or the stored elements `bt`, ordered, with the end node below the rightmost one; or the end
node as root with the stored elements `sl`, ordered and all ordering before its cached
value, as its left subtree; or `root` set and the end node deleted. -/
def TreeInv (lt : T → T → Bool) (h : Heap T) (t : BinarySearchTree) : Prop :=
  t.root = none ∨
    (∃ (bt : Shape T) (e : Nat) (m : T), bt ≠ .nil ∧ Wf h t (bt.attach e m) ∧ Ordered lt bt) ∨
    (∃ (sl : Shape T) (e : Nat) (m : T), Wf h t (.node sl e m .nil) ∧
      Ordered lt (.node sl e m .nil)) ∨
    (t.root ≠ none ∧ ∃ e, t.endNode = some e ∧ e < h.next ∧ h.cells e = none)

/-! ## Basic facts -/

@[simp] theorem Res.ok_bind {α β : Type} (a : α) (f : α → Res β) : (Res.ok a >>= f) = f a := rfl

@[simp] theorem Res.fault_bind {α β : Type} (e : Fault) (f : α → Res β) :
    (Res.fault e >>= f) = Res.fault e := rfl

@[simp] theorem Res.pure_eq {α : Type} (a : α) : (pure a : Res α) = Res.ok a := rfl

@[simp] theorem Shape.addrs_nil : (Shape.nil : Shape T).addrs = [] := rfl

@[simp] theorem Shape.addrs_node (l r : Shape T) (a : Nat) (x : T) :
    (Shape.node l a x r).addrs = l.addrs ++ a :: r.addrs := by
  simp [Shape.addrs, Shape.nodes]

@[simp] theorem Shape.vals_nil : (Shape.nil : Shape T).vals = [] := rfl

@[simp] theorem Shape.vals_node (l r : Shape T) (a : Nat) (x : T) :
    (Shape.node l a x r).vals = l.vals ++ x :: r.vals := by
  simp [Shape.vals, Shape.nodes]

@[simp] theorem Shape.ptr_nil : (Shape.nil : Shape T).ptr = none := rfl

@[simp] theorem Shape.ptr_node (l r : Shape T) (a : Nat) (x : T) :
    (Shape.node l a x r).ptr = some a := rfl

theorem Shape.ptr_eq_none {s : Shape T} : s.ptr = none ↔ s = .nil := by
  cases s <;> simp [Shape.ptr]

theorem Shape.addrs_eq_nil {s : Shape T} : s.addrs = [] ↔ s = .nil := by
  cases s <;> simp

theorem Shape.ptr_mem {s : Shape T} {a : Nat} (hp : s.ptr = some a) : a ∈ s.addrs := by
  cases s with
  | nil => simp [Shape.ptr] at hp
  | node l c x r =>
    simp only [Shape.ptr, Option.some.injEq] at hp
    simp [hp]

theorem Shape.first_eq_head (s : Shape T) : s.first = s.addrs.head? := by
  induction s with
  | nil => rfl
  | node l a x r ihl _ =>
    cases l with
    | nil => simp [Shape.first]
    | node ll la lx lr =>
      rw [Shape.first, ihl]
      · simp [List.head?_append]
      · simp

theorem Shape.rlen_lt_length (s : Shape T) (hs : s ≠ .nil) : s.rlen < s.addrs.length := by
  induction s with
  | nil => exact absurd rfl hs
  | node l a x r _ ihr =>
    cases r with
    | nil => simp [Shape.rlen]
    | node rl ra rx rr =>
      have := ihr (by simp)
      simp only [Shape.rlen, Shape.addrs_node, List.length_append, List.length_cons] at this ⊢
      omega

theorem Rep.frame {h h' : Heap T} {s : Shape T} {par : Option Nat}
    (hr : Rep h s par) (hf : ∀ a ∈ s.addrs, h'.cells a = h.cells a) : Rep h' s par := by
  induction s generalizing par with
  | nil => trivial
  | node l a x r ihl ihr =>
    obtain ⟨hc, hl, hrr⟩ := hr
    refine ⟨?_, ihl hl ?_, ihr hrr ?_⟩
    · rw [hf a (by simp)]; exact hc
    · intro b hb; exact hf b (by simp [hb])
    · intro b hb; exact hf b (by simp [hb])

/-- Every node of a represented tree is a live cell holding its value. -/
theorem Rep.cell {h : Heap T} {s : Shape T} {par : Option Nat} (hr : Rep h s par)
    {a : Nat} {x : T} (hm : (a, x) ∈ s.nodes) :
    ∃ c, h.cells a = some c ∧ c.data = x := by
  induction s generalizing par with
  | nil => simp [Shape.nodes] at hm
  | node l c z r ihl ihr =>
    obtain ⟨hc, hl, hrr⟩ := hr
    simp only [Shape.nodes, List.mem_append, List.mem_cons, Prod.mk.injEq] at hm
    rcases hm with hm | ⟨rfl, rfl⟩ | hm
    · exact ihl hl hm
    · exact ⟨_, hc, rfl⟩
    · exact ihr hrr hm

theorem nextIn_append_of_mem {L : List Nat} (R : List Nat) {a : Nat} (ha : a ∈ L) :
    nextIn (L ++ R) a = match nextIn L a with
      | some b => some b
      | none => R.head? := by
  induction L with
  | nil => simp at ha
  | cons x xs ih =>
    by_cases hx : x = a
    · cases xs <;> simp [nextIn, hx]
    · have : a ∈ xs := by
        rcases List.mem_cons.1 ha with h | h
        · exact absurd h.symm hx
        · exact h
      simp [nextIn, hx, ih this]

theorem nextIn_append_of_not_mem {L : List Nat} (R : List Nat) {a : Nat} (ha : a ∉ L) :
    nextIn (L ++ R) a = nextIn R a := by
  induction L with
  | nil => rfl
  | cons x xs ih =>
    have hx : x ≠ a := fun h => ha (by simp [h])
    have : a ∉ xs := fun h => ha (by simp [h])
    simp [nextIn, hx, ih this]

theorem Shape.succ_eq_nextIn (s : Shape T) (a : Nat) : s.succ a = nextIn s.addrs a := by
  induction s with
  | nil => rfl
  | node l c x r ihl ihr =>
    simp only [Shape.succ, Shape.addrs_node]
    by_cases hl : a ∈ l.addrs
    · rw [if_pos hl, nextIn_append_of_mem _ hl, ihl]
      cases nextIn l.addrs a <;> simp
    · rw [if_neg hl, nextIn_append_of_not_mem _ hl]
      by_cases hc : a = c
      · simp [nextIn, hc, Shape.first_eq_head]
      · have hc' : c ≠ a := fun h => hc h.symm
        simp [nextIn, hc, hc', ihr]

/-! ## The iterator on a represented tree -/

theorem leftmost_rep {h : Heap T} {s : Shape T} {par : Option Nat} (hr : Rep h s par)
    (hs : s ≠ .nil) (fuel : Nat) (hf : s.addrs.length ≤ fuel) :
    leftmost fuel h s.ptr = .ok s.first := by
  induction s generalizing par fuel with
  | nil => exact absurd rfl hs
  | node l a x r ihl _ =>
    obtain ⟨hc, hl, _⟩ := hr
    cases fuel with
    | zero => simp at hf
    | succ fuel =>
      cases l with
      | nil => simp [leftmost, Heap.load, Shape.ptr, hc, Shape.first]
      | node ll la lx lr =>
        have := ihl hl (by simp) fuel (by simp at hf ⊢; omega)
        simpa [leftmost, Heap.load, Shape.ptr, hc, Shape.first] using this

theorem climb_right_root {h : Heap T} (fuel : Nat) (cur : Option Nat) :
    climb_right (fuel + 1) h cur none = .ok none := rfl

theorem increment_rep {h : Heap T} {s : Shape T} {par : Option Nat} (hr : Rep h s par)
    (hnd : s.addrs.Nodup) (hlen : s.addrs.length ≤ h.next) {a : Nat} (ha : a ∈ s.addrs) :
    increment h (some a) = match s.succ a with
      | some b => .ok (some b)
      | none => climb_right (h.fuel - s.rlen) h s.ptr par := by
  induction s generalizing par with
  | nil => simp at ha
  | node l c x r ihl ihr =>
    obtain ⟨hc, hl, hrr⟩ := hr
    simp only [Shape.addrs_node] at hnd hlen ha
    have hndl : l.addrs.Nodup := (List.nodup_append.1 hnd).1
    have hndr : r.addrs.Nodup := ((List.nodup_cons.1 (List.nodup_append.1 hnd).2.1)).2
    have hcr : c ∉ r.addrs := ((List.nodup_cons.1 (List.nodup_append.1 hnd).2.1)).1
    have hdisj := (List.nodup_append.1 hnd).2.2
    simp only [List.length_append, List.length_cons] at hlen
    by_cases hal : a ∈ l.addrs
    · have hlnil : l ≠ .nil := by rintro rfl; simp at hal
      rw [ihl hl hndl (by omega) hal]
      simp only [Shape.succ, if_pos hal]
      cases hsucc : l.succ a with
      | some b => rfl
      | none =>
        have hrl := Shape.rlen_lt_length l hlnil
        obtain ⟨k, hk⟩ : ∃ k, h.fuel - l.rlen = k + 1 := ⟨h.fuel - l.rlen - 1, by
          simp only [Heap.fuel]; omega⟩
        obtain ⟨la, hla⟩ : ∃ la, l.ptr = some la := by
          cases l with
          | nil => exact absurd rfl hlnil
          | node ll la lx lr => exact ⟨la, rfl⟩
        have hne : ¬ (some la = r.ptr) := by
          intro he
          have h1 := Shape.ptr_mem hla
          have h2 := Shape.ptr_mem he.symm
          exact hdisj h1 (List.mem_cons_of_mem _ h2)
        simp [hk, climb_right, Heap.load, hc, hla, hne]
    · by_cases hac : a = c
      · subst hac
        simp only [Shape.succ, if_neg hal, if_true]
        cases r with
        | nil =>
          simp [increment, Heap.load, hc, Shape.ptr, Shape.first, Shape.rlen]
        | node rl ra rx rr =>
          have := leftmost_rep hrr (by simp) h.fuel (by simp only [Heap.fuel]; omega)
          simp only [Shape.ptr] at this
          simp only [increment, Heap.load, hc, Shape.ptr, Res.ok_bind]
          simp only [this, reduceCtorEq, if_false]
          cases hf : (Shape.node rl ra rx rr).first with
          | none =>
            rw [Shape.first_eq_head] at hf
            simp at hf
          | some b => rfl
      · have har : a ∈ r.addrs := by
          rcases List.mem_append.1 ha with h1 | h1
          · exact absurd h1 hal
          · rcases List.mem_cons.1 h1 with h2 | h2
            · exact absurd h2 hac
            · exact h2
        have hrnil : r ≠ .nil := by rintro rfl; simp at har
        rw [ihr hrr hndr (by omega) har]
        simp only [Shape.succ, if_neg hal, if_neg hac]
        cases hsucc : r.succ a with
        | some b => rfl
        | none =>
          have hrl := Shape.rlen_lt_length r hrnil
          obtain ⟨k, hk⟩ : ∃ k, h.fuel - r.rlen = k + 1 := ⟨h.fuel - r.rlen - 1, by
            simp only [Heap.fuel]; omega⟩
          have hrlen : (Shape.node l c x r).rlen = r.rlen + 1 := by
            cases r with
            | nil => exact absurd rfl hrnil
            | node rl ra rx rr => rfl
          have hk' : h.fuel - (r.rlen + 1) = k := by omega
          simp [hk, hrlen, hk', climb_right, Heap.load, hc, Shape.ptr]

/-- On a whole tree (root parent null) `operator++` yields the in-order successor. -/
theorem increment_root {h : Heap T} {s : Shape T} (hr : Rep h s none)
    (hnd : s.addrs.Nodup) (hlen : s.addrs.length ≤ h.next) {a : Nat} (ha : a ∈ s.addrs) :
    increment h (some a) = .ok (nextIn s.addrs a) := by
  rw [increment_rep hr hnd hlen ha, ← Shape.succ_eq_nextIn]
  cases hsucc : s.succ a with
  | some b => rfl
  | none =>
    have hs : s ≠ .nil := by rintro rfl; simp at ha
    have hrl := Shape.rlen_lt_length s hs
    obtain ⟨k, hk⟩ : ∃ k, h.fuel - s.rlen = k + 1 := ⟨h.fuel - s.rlen - 1, by
      simp only [Heap.fuel]; omega⟩
    simp [hk, climb_right]

/-! ## The range-based loop on a represented tree -/

theorem length_le_of_nodup_of_lt {l : List Nat} {n : Nat} (hnd : l.Nodup)
    (hlt : ∀ a ∈ l, a < n) : l.length ≤ n := by
  have hsub : l ⊆ List.range n := fun a ha => List.mem_range.2 (hlt a ha)
  simpa using (List.subperm_of_subset hnd hsub).length_le

theorem walk_rep {h : Heap T} {s : Shape T} (hr : Rep h s none) (hnd : s.addrs.Nodup)
    (hlen : s.addrs.length ≤ h.next) (e : Nat) (m : T) :
    ∀ (L pre : List (Nat × T)) (fuel : Nat), s.nodes = pre ++ (L ++ [(e, m)]) →
      L.length < fuel →
      walk fuel h ((L ++ [(e, m)]).head?.map Prod.fst) (some e) = .ok (L.map Prod.snd) := by
  intro L
  induction L with
  | nil =>
    intro pre fuel _ hf
    cases fuel with
    | zero => simp at hf
    | succ fuel => simp [walk]
  | cons p L ih =>
    obtain ⟨a, x⟩ := p
    intro pre fuel hs hf
    cases fuel with
    | zero => simp at hf
    | succ fuel =>
      have haddrs : s.addrs = pre.map Prod.fst ++ a :: (L.map Prod.fst ++ [e]) := by
        simp [Shape.addrs, hs]
      have hnd' := hnd
      rw [haddrs] at hnd'
      have hapre : a ∉ pre.map Prod.fst := fun hm =>
        (List.nodup_append.1 hnd').2.2 hm (List.mem_cons_self _ _)
      have hae : a ≠ e := by
        have := (List.nodup_cons.1 (List.nodup_append.1 hnd').2.1).1
        intro he
        exact this (by simp [he])
      have hmem : (a, x) ∈ s.nodes := by simp [hs]
      obtain ⟨c, hc, hcx⟩ := hr.cell hmem
      have hinc : increment h (some a) = .ok ((L ++ [(e, m)]).head?.map Prod.fst) := by
        rw [increment_root hr hnd hlen (by simp [haddrs]), haddrs,
          nextIn_append_of_not_mem _ hapre]
        cases L <;> simp [nextIn]
      have hrec := ih (pre ++ [(a, x)]) fuel (by simp [hs]) (by simpa using hf)
      simp only [walk, List.cons_append, List.head?_cons, Option.map_some', Option.some.injEq,
        hae, if_false, deref, Heap.load, hc, hcx, Res.ok_bind, Res.pure_eq, hinc, hrec,
        List.map_cons]

theorem Wf.length_le {h : Heap T} {t : BinarySearchTree} {s : Shape T} (hw : Wf h t s) :
    s.addrs.length ≤ h.next :=
  length_le_of_nodup_of_lt hw.2.2.1 hw.2.2.2.1

/-- The range-based loop over a well-formed non-empty tree visits the values of
all nodes but the last one (the end node), in in-order. -/
theorem traverse_wf {h : Heap T} {t : BinarySearchTree} {s : Shape T} (hw : Wf h t s)
    (hs : s ≠ .nil) : traverse h t = .ok s.vals.dropLast := by
  obtain ⟨hroot, hr, hnd, hlt, hend⟩ := hw
  have hlen := length_le_of_nodup_of_lt hnd hlt
  have hne : s.nodes ≠ [] := by
    intro h0
    exact hs (Shape.addrs_eq_nil.1 (by simp [Shape.addrs, h0]))
  rcases hlast : s.nodes.getLast hne with ⟨e, m⟩
  have hsplit : s.nodes = [] ++ (s.nodes.dropLast ++ [(e, m)]) := by
    rw [← hlast]; simp [List.dropLast_append_getLast]
  have hende : t.endNode = some e := by
    rw [hend, Shape.addrs, List.getLast?_eq_getLast _ (by simpa using hne)]
    simp [List.getLast_map, hlast]
  have hbegin : begin h t = .ok ((s.nodes.dropLast ++ [(e, m)]).head?.map Prod.fst) := by
    rw [begin, hroot, leftmost_rep hr hs h.fuel (by simp only [Heap.fuel]; omega),
      Shape.first_eq_head, Shape.addrs, ← List.nil_append (s.nodes.dropLast ++ [(e, m)]), ← hsplit]
    simp
  have hw := walk_rep hr hnd hlen e m s.nodes.dropLast [] h.fuel hsplit (by
    have : s.nodes.length = s.addrs.length := by simp [Shape.addrs]
    simp only [List.length_dropLast, Heap.fuel]; omega)
  simp only [traverse, hbegin, end_, hende, Res.ok_bind, hw, Shape.vals, List.map_dropLast]

/-! ## `insert_node` on a represented tree -/

theorem Shape.ins_node (isless : T → T → Bool) (e : Option Nat) (n : Nat) (v : T)
    (l r : Shape T) (a : Nat) (x : T) :
    (Shape.node l a x r).ins isless e n v =
      if isless v x then
        if l.ptr = none then .ok (.node (.node .nil n v .nil) a x r)
        else
          match l.ins isless e n v with
          | .ok l' => .ok (.node l' a x r)
          | .fault f => .fault f
      else if isless x v then
        if r.ptr = e then
          match r with
          | .nil => .fault .nullDeref
          | .node rl ra _ rr => .ok (.node l a x (.node .nil n v (.node rl ra v rr)))
        else
          match r.ins isless e n v with
          | .ok r' => .ok (.node l a x r')
          | .fault f => .fault f
      else .ok (.node l a x r) := rfl

theorem insert_node_rep (isless : T → T → Bool) (e : Option Nat) (n : Nat) (v : T)
    {h : Heap T} (pn : Option Nat) (hn : h.cells n = some ⟨v, none, none, pn⟩) :
    ∀ (s : Shape T) (par : Option Nat) (fuel : Nat), Rep h s par → s.addrs.Nodup →
      n ∉ s.addrs → s.addrs.length < fuel →
      match s.ins isless e n v with
      | .fault f => insert_node isless e fuel h s.ptr (some n) = .fault f
      | .ok s' => ∃ h', insert_node isless e fuel h s.ptr (some n) = .ok h' ∧ Rep h' s' par ∧
          s'.ptr = s.ptr ∧ h'.next = h.next ∧
          (∀ b, b ∉ s.addrs → b ≠ n → h'.cells b = h.cells b) ∧ (s' = s → h' = h) := by
  intro s
  induction s with
  | nil =>
    intro par fuel _ _ _ hf
    cases fuel with
    | zero => simp at hf
    | succ fuel => simp [Shape.ins, insert_node, Heap.load]
  | node l a x r ihl ihr =>
    intro par fuel hr hnd hnn hf
    obtain ⟨hc, hl, hrr⟩ := hr
    simp only [Shape.addrs_node] at hnd hnn hf
    have hndl : l.addrs.Nodup := (List.nodup_append.1 hnd).1
    have hndr : r.addrs.Nodup := ((List.nodup_cons.1 (List.nodup_append.1 hnd).2.1)).2
    have har : a ∉ r.addrs := ((List.nodup_cons.1 (List.nodup_append.1 hnd).2.1)).1
    have hal : a ∉ l.addrs := fun hm =>
      (List.nodup_append.1 hnd).2.2 hm (List.mem_cons_self _ _)
    have hnl : n ∉ l.addrs := fun hm => hnn (by simp [hm])
    have hnr : n ∉ r.addrs := fun hm => hnn (by simp [hm])
    have hna : n ≠ a := fun he => hnn (by simp [he])
    have han : a ≠ n := fun he => hna he.symm
    simp only [List.length_append, List.length_cons] at hf
    cases fuel with
    | zero => simp at hf
    | succ fuel =>
      rw [Shape.ins_node]
      by_cases h1 : isless v x = true
      · rw [if_pos h1]
        by_cases hlp : l.ptr = none
        · rw [if_pos hlp]
          have hlnil := Shape.ptr_eq_none.1 hlp
          subst hlnil
          refine ⟨(h.store n ⟨v, none, none, some a⟩).store a ⟨x, some n, r.ptr, par⟩, ?_, ?_, rfl,
            rfl, ?_, fun he => by simp at he⟩
          · simp [insert_node, Heap.load, Heap.modify, Heap.store, hc, hn, h1, han]
          · refine ⟨by simp [Heap.store], ⟨by simp [Heap.store, hna], trivial,
              trivial⟩, hrr.frame ?_⟩
            intro b hb
            have h1 : b ≠ a := fun he => har (he ▸ hb)
            have h2 : b ≠ n := fun he => hnr (he ▸ hb)
            simp [Heap.store, h1, h2]
          · intro b hb hbn
            have h1 : b ≠ a := fun he => hb (by simp [he])
            simp [Heap.store, h1, hbn]
        · rw [if_neg hlp]
          have ih := ihl (some a) fuel hl hndl hnl (by omega)
          have hstep : insert_node isless e (fuel + 1) h (Shape.node l a x r).ptr (some n) =
              insert_node isless e fuel h l.ptr (some n) := by
            simp [insert_node, Heap.load, hc, hn, h1, hlp]
          rw [hstep]
          cases hins : l.ins isless e n v with
          | fault f =>
            rw [hins] at ih
            exact ih
          | ok l' =>
            rw [hins] at ih
            obtain ⟨h', hrun, hrep, hptr, hnext, hframe, hsame⟩ := ih
            refine ⟨h', hrun, ?_, rfl, hnext, ?_, fun he => hsame (by
              simp only [Shape.node.injEq] at he; exact he.1)⟩
            · refine ⟨?_, hrep, hrr.frame ?_⟩
              · rw [hframe a hal han, hc, hptr]
              · intro b hb
                have hb1 : b ∉ l.addrs := fun hm =>
                  (List.nodup_append.1 hnd).2.2 hm (List.mem_cons_of_mem _ hb)
                exact hframe b hb1 (fun he => hnr (he ▸ hb))
            · intro b hb hbn
              exact hframe b (fun hm => hb (by rw [Shape.addrs_node]; exact List.mem_append.2 (Or.inl hm))) hbn
      · rw [if_neg h1]
        by_cases h2 : isless x v = true
        · rw [if_pos h2]
          by_cases h3 : r.ptr = e
          · rw [if_pos h3]
            cases r with
            | nil =>
              simp only [Shape.ptr_nil, Shape.ptr_node] at h3
              simp [insert_node, Heap.load, Heap.modify, Heap.store, hc, hn, h1, h2, Shape.ptr,
                ← h3, han, hna]
            | node rl ra rx rr =>
              simp only [Shape.ptr_nil, Shape.ptr_node] at h3
              obtain ⟨hcr, hrl, hrrr⟩ := hrr
              simp only [Shape.addrs_node, List.mem_append, List.mem_cons, not_or] at har hnr
              have hndr' := hndr
              simp only [Shape.addrs_node] at hndr'
              have hra_l : ra ∉ rl.addrs := fun hm =>
                (List.nodup_append.1 hndr').2.2 hm (List.mem_cons_self _ _)
              have hra_r : ra ∉ rr.addrs :=
                ((List.nodup_cons.1 (List.nodup_append.1 hndr').2.1)).1
              have hara : a ≠ ra := har.2.1
              have hnra : n ≠ ra := hnr.2.1
              refine ⟨((h.store n ⟨v, none, some ra, some a⟩).store a ⟨x, l.ptr, some n, par⟩).store
                ra ⟨v, rl.ptr, rr.ptr, some n⟩, ?_, ?_, rfl, rfl, ?_, fun he => by
                  simp only [Shape.node.injEq] at he
                  exact absurd he.2.2.2.2.1 hnra⟩
              · simp [insert_node, Heap.load, Heap.modify, Heap.store, hc, hn, h1, h2,
                  ← h3, han, hna, hcr, hara, hnra, Ne.symm hara, Ne.symm hnra]
                funext b
                split_ifs <;> first | rfl | simp_all
              · refine ⟨by simp [Heap.store, hara], ?_, ⟨by simp [Heap.store, hna, hnra], trivial,
                  by simp [Heap.store], hrl.frame ?_, hrrr.frame ?_⟩⟩
                · refine hl.frame ?_
                  intro b hb
                  have hb1 : b ≠ a := fun he => hal (he ▸ hb)
                  have hb2 : b ≠ n := fun he => hnl (he ▸ hb)
                  have hb3 : b ≠ ra := fun he =>
                    (List.nodup_append.1 hnd).2.2 hb (by simp [he])
                  simp [Heap.store, hb1, hb2, hb3]
                · intro b hb
                  have hb1 : b ≠ a := fun he => har.1 (he ▸ hb)
                  have hb2 : b ≠ n := fun he => hnr.1 (he ▸ hb)
                  have hb3 : b ≠ ra := fun he => hra_l (he ▸ hb)
                  simp [Heap.store, hb1, hb2, hb3]
                · intro b hb
                  have hb1 : b ≠ a := fun he => har.2.2 (he ▸ hb)
                  have hb2 : b ≠ n := fun he => hnr.2.2 (he ▸ hb)
                  have hb3 : b ≠ ra := fun he => hra_r (he ▸ hb)
                  simp [Heap.store, hb1, hb2, hb3]
              · intro b hb hbn
                simp only [Shape.addrs_node, List.mem_append, List.mem_cons, not_or] at hb
                simp [Heap.store, hb.2.1, hb.2.2.2.1, hbn]
          · rw [if_neg h3]
            have ih := ihr (some a) fuel hrr hndr hnr (by omega)
            have hstep : insert_node isless e (fuel + 1) h (Shape.node l a x r).ptr (some n) =
                insert_node isless e fuel h r.ptr (some n) := by
              simp [insert_node, Heap.load, hc, hn, h1, h2, h3]
            rw [hstep]
            cases hins : r.ins isless e n v with
            | fault f =>
              rw [hins] at ih
              exact ih
            | ok r' =>
              rw [hins] at ih
              obtain ⟨h', hrun, hrep, hptr, hnext, hframe, hsame⟩ := ih
              refine ⟨h', hrun, ?_, rfl, hnext, ?_, fun he => hsame (by
                simp only [Shape.node.injEq] at he; exact he.2.2.2)⟩
              · refine ⟨?_, hl.frame ?_, hrep⟩
                · rw [hframe a har han, hc, hptr]
                · intro b hb
                  have hb1 : b ∉ r.addrs := fun hm =>
                    (List.nodup_append.1 hnd).2.2 hb (List.mem_cons_of_mem _ hm)
                  exact hframe b hb1 (fun he => hnl (he ▸ hb))
              · intro b hb hbn
                exact hframe b (fun hm => hb (by
                  rw [Shape.addrs_node]
                  exact List.mem_append.2 (Or.inr (List.mem_cons_of_mem _ hm)))) hbn
        · rw [if_neg h2]
          refine ⟨h, ?_, ⟨hc, hl, hrr⟩, rfl, rfl, fun _ _ _ => rfl, fun _ => rfl⟩
          simp [insert_node, Heap.load, hc, hn, h1, h2]

/-! ## Insertion on trees -/

@[simp] theorem Shape.nodes_attach (e : Nat) (m : T) (bt : Shape T) :
    (bt.attach e m).nodes = bt.nodes ++ [(e, m)] := by
  induction bt with
  | nil => rfl
  | node l a x r _ ihr => simp [Shape.attach, Shape.nodes, ihr]

@[simp] theorem Shape.addrs_attach (e : Nat) (m : T) (bt : Shape T) :
    (bt.attach e m).addrs = bt.addrs ++ [e] := by
  simp [Shape.addrs]

@[simp] theorem Shape.vals_attach (e : Nat) (m : T) (bt : Shape T) :
    (bt.attach e m).vals = bt.vals ++ [m] := by
  simp [Shape.vals]

theorem Shape.attach_ne_nil (e : Nat) (m : T) (bt : Shape T) : bt.attach e m ≠ .nil := by
  cases bt <;> simp [Shape.attach]

theorem Shape.ptr_attach (e : Nat) (m : T) {bt : Shape T} (hbt : bt ≠ .nil) :
    (bt.attach e m).ptr = bt.ptr := by
  cases bt with
  | nil => exact absurd rfl hbt
  | node l a x r => rfl

theorem Shape.ptr_ne_of_not_mem {s : Shape T} {e : Nat} (he : e ∉ s.addrs) :
    s.ptr ≠ some e := fun hp => he (Shape.ptr_mem hp)

theorem Shape.bins_ne_nil (isless : T → T → Bool) (n : Nat) (v : T) (bt : Shape T) :
    bt.bins isless n v ≠ .nil := by
  cases bt with
  | nil => simp [Shape.bins]
  | node l a x r =>
    simp only [Shape.bins]
    split_ifs <;> simp

/-- Off the right spine `insert_node`, when it returns, has performed a textbook insertion. -/
theorem Shape.ins_plain (isless : T → T → Bool) (e n : Nat) (v : T) :
    ∀ (bt s' : Shape T), e ∉ bt.addrs → bt.ins isless (some e) n v = .ok s' →
      s' = bt.bins isless n v := by
  intro bt
  induction bt with
  | nil => intro s' _ h; simp [Shape.ins] at h
  | node l a x r ihl ihr =>
    intro s' he h
    simp only [Shape.addrs_node, List.mem_append, List.mem_cons, not_or] at he
    rw [Shape.ins_node] at h
    simp only [Shape.bins]
    by_cases h1 : isless v x = true
    · rw [if_pos h1] at h
      rw [if_pos h1]
      by_cases hlp : l.ptr = none
      · rw [if_pos hlp] at h
        have := Shape.ptr_eq_none.1 hlp
        subst this
        simp only [Res.ok.injEq] at h
        simp [← h, Shape.bins]
      · rw [if_neg hlp] at h
        cases hl : l.ins isless (some e) n v with
        | fault f => simp [hl] at h
        | ok l' =>
          simp only [hl, Res.ok.injEq] at h
          rw [← h, ihl l' he.1 hl]
    · rw [if_neg h1] at h
      rw [if_neg h1]
      by_cases h2 : isless x v = true
      · rw [if_pos h2] at h
        rw [if_pos h2]
        rw [if_neg (Shape.ptr_ne_of_not_mem he.2.2)] at h
        cases hr : r.ins isless (some e) n v with
        | fault f => simp [hr] at h
        | ok r' =>
          simp only [hr, Res.ok.injEq] at h
          rw [← h, ihr r' he.2.2 hr]
      · rw [if_neg h2] at h
        rw [if_neg h2]
        simp only [Res.ok.injEq] at h
        exact h.symm

/-- On the right spine, with the end node below the rightmost element, `insert_node`,
when it returns, has performed a textbook insertion and kept the end node last. -/
theorem Shape.ins_attach (isless : T → T → Bool) (e n : Nat) (v : T) :
    ∀ (bt s' : Shape T) (m : T), bt ≠ .nil → e ∉ bt.addrs →
      (bt.attach e m).ins isless (some e) n v = .ok s' →
      ∃ m', s' = (bt.bins isless n v).attach e m' := by
  intro bt
  induction bt with
  | nil => intro s' m hbt; exact absurd rfl hbt
  | node l a x r _ ihr =>
    intro s' m _ he h
    simp only [Shape.addrs_node, List.mem_append, List.mem_cons, not_or] at he
    simp only [Shape.attach] at h
    rw [Shape.ins_node] at h
    simp only [Shape.bins]
    by_cases h1 : isless v x = true
    · rw [if_pos h1] at h
      rw [if_pos h1]
      refine ⟨m, ?_⟩
      by_cases hlp : l.ptr = none
      · rw [if_pos hlp] at h
        have := Shape.ptr_eq_none.1 hlp
        subst this
        simp only [Res.ok.injEq] at h
        simp [← h, Shape.bins, Shape.attach]
      · rw [if_neg hlp] at h
        cases hl : l.ins isless (some e) n v with
        | fault f => simp [hl] at h
        | ok l' =>
          simp only [hl, Res.ok.injEq] at h
          rw [← h, Shape.ins_plain isless e n v l l' he.1 hl]
          rfl
    · rw [if_neg h1] at h
      rw [if_neg h1]
      by_cases h2 : isless x v = true
      · rw [if_pos h2] at h
        rw [if_pos h2]
        cases r with
        | nil =>
          simp only [Shape.attach, Shape.ptr_node, if_true, Res.ok.injEq] at h
          exact ⟨v, by simp [← h, Shape.bins, Shape.attach]⟩
        | node rl ra rx rr =>
          have hne : ((Shape.node rl ra rx rr).attach e m).ptr ≠ some e := by
            rw [Shape.ptr_attach e m (by simp)]
            exact Shape.ptr_ne_of_not_mem he.2.2
          rw [if_neg hne] at h
          cases hr : ((Shape.node rl ra rx rr).attach e m).ins isless (some e) n v with
          | fault f => simp [hr] at h
          | ok r' =>
            simp only [hr, Res.ok.injEq] at h
            obtain ⟨m', hm'⟩ := ihr r' m (by simp) he.2.2 hr
            exact ⟨m', by rw [← h, hm']; rfl⟩
      · rw [if_neg h2] at h
        rw [if_neg h2]
        simp only [Res.ok.injEq] at h
        exact ⟨m, by rw [← h]; rfl⟩

theorem Shape.mem_addrs_bins (isless : T → T → Bool) (n : Nat) (v : T) (bt : Shape T) {b : Nat}
    (hb : b ∈ (bt.bins isless n v).addrs) : b = n ∨ b ∈ bt.addrs := by
  induction bt with
  | nil => simpa [Shape.bins] using hb
  | node l a x r ihl ihr =>
    simp only [Shape.bins] at hb
    split_ifs at hb
    · simp only [Shape.addrs_node, List.mem_append, List.mem_cons] at hb ⊢
      rcases hb with hb | hb | hb
      · rcases ihl hb with h | h
        · exact Or.inl h
        · exact Or.inr (Or.inl h)
      · exact Or.inr (Or.inr (Or.inl hb))
      · exact Or.inr (Or.inr (Or.inr hb))
    · simp only [Shape.addrs_node, List.mem_append, List.mem_cons] at hb ⊢
      rcases hb with hb | hb | hb
      · exact Or.inr (Or.inl hb)
      · exact Or.inr (Or.inr (Or.inl hb))
      · rcases ihr hb with h | h
        · exact Or.inl h
        · exact Or.inr (Or.inr (Or.inr h))
    · exact Or.inr hb

theorem Shape.nodup_bins (isless : T → T → Bool) (n : Nat) (v : T) (bt : Shape T)
    (hnd : bt.addrs.Nodup) (hn : n ∉ bt.addrs) : (bt.bins isless n v).addrs.Nodup := by
  induction bt with
  | nil => simp [Shape.bins]
  | node l a x r ihl ihr =>
    simp only [Shape.addrs_node, List.mem_append, List.mem_cons, not_or] at hn
    simp only [Shape.addrs_node] at hnd
    have hndl : l.addrs.Nodup := (List.nodup_append.1 hnd).1
    have hndr : r.addrs.Nodup := ((List.nodup_cons.1 (List.nodup_append.1 hnd).2.1)).2
    have har : a ∉ r.addrs := ((List.nodup_cons.1 (List.nodup_append.1 hnd).2.1)).1
    have hdisj := (List.nodup_append.1 hnd).2.2
    simp only [Shape.bins]
    split_ifs
    · simp only [Shape.addrs_node]
      refine List.nodup_append.2 ⟨ihl hndl hn.1, (List.nodup_append.1 hnd).2.1, ?_⟩
      intro b hb1 hb2
      rcases Shape.mem_addrs_bins isless n v l hb1 with h | h
      · subst h
        rcases List.mem_cons.1 hb2 with h | h
        · exact hn.2.1 h
        · exact hn.2.2 h
      · exact hdisj h hb2
    · simp only [Shape.addrs_node]
      refine List.nodup_append.2 ⟨hndl, List.nodup_cons.2 ⟨?_, ihr hndr hn.2.2⟩, ?_⟩
      · intro hm
        rcases Shape.mem_addrs_bins isless n v r hm with h | h
        · exact hn.2.1 h.symm
        · exact har h
      · intro b hb1 hb2
        rcases List.mem_cons.1 hb2 with h | h
        · exact hdisj hb1 (by simp [h])
        · rcases Shape.mem_addrs_bins isless n v r h with h' | h'
          · exact hn.1 (h' ▸ hb1)
          · exact hdisj hb1 (List.mem_cons_of_mem _ h')
    · simpa using hnd

theorem Shape.mem_vals_bins (isless : T → T → Bool) (n : Nat) (v : T) (bt : Shape T) {y : T}
    (hy : y ∈ (bt.bins isless n v).vals) : y = v ∨ y ∈ bt.vals := by
  induction bt with
  | nil => simpa [Shape.bins] using hy
  | node l a x r ihl ihr =>
    simp only [Shape.bins] at hy
    split_ifs at hy
    · simp only [Shape.vals_node, List.mem_append, List.mem_cons] at hy ⊢
      rcases hy with hy | hy | hy
      · rcases ihl hy with h | h
        · exact Or.inl h
        · exact Or.inr (Or.inl h)
      · exact Or.inr (Or.inr (Or.inl hy))
      · exact Or.inr (Or.inr (Or.inr hy))
    · simp only [Shape.vals_node, List.mem_append, List.mem_cons] at hy ⊢
      rcases hy with hy | hy | hy
      · exact Or.inr (Or.inl hy)
      · exact Or.inr (Or.inr (Or.inl hy))
      · rcases ihr hy with h | h
        · exact Or.inl h
        · exact Or.inr (Or.inr (Or.inr h))
    · exact Or.inr hy

theorem Shape.vals_subset_bins (isless : T → T → Bool) (n : Nat) (v : T) (bt : Shape T) {y : T}
    (hy : y ∈ bt.vals) : y ∈ (bt.bins isless n v).vals := by
  induction bt with
  | nil => simp at hy
  | node l a x r ihl ihr =>
    simp only [Shape.bins]
    simp only [Shape.vals_node, List.mem_append, List.mem_cons] at hy
    split_ifs
    · simp only [Shape.vals_node, List.mem_append, List.mem_cons]
      rcases hy with hy | hy | hy
      · exact Or.inl (ihl hy)
      · exact Or.inr (Or.inl hy)
      · exact Or.inr (Or.inr hy)
    · simp only [Shape.vals_node, List.mem_append, List.mem_cons]
      rcases hy with hy | hy | hy
      · exact Or.inl hy
      · exact Or.inr (Or.inl hy)
      · exact Or.inr (Or.inr (ihr hy))
    · simpa using hy

/-- After a textbook insertion of `v` the tree holds an element equivalent to `v`. -/
theorem Shape.exists_equiv_bins (isless : T → T → Bool) (hirr : ∀ a, isless a a = false)
    (n : Nat) (v : T) (bt : Shape T) :
    ∃ y ∈ (bt.bins isless n v).vals, isless y v = false ∧ isless v y = false := by
  induction bt with
  | nil => exact ⟨v, by simp [Shape.bins], hirr v, hirr v⟩
  | node l a x r ihl ihr =>
    simp only [Shape.bins]
    split_ifs with h1 h2
    · obtain ⟨y, hy, h⟩ := ihl
      exact ⟨y, by simp [hy], h⟩
    · obtain ⟨y, hy, h⟩ := ihr
      exact ⟨y, by simp [hy], h⟩
    · exact ⟨x, by simp, by simpa using h2, by simpa using h1⟩

theorem Ordered.bins {isless : T → T → Bool} (n : Nat) (v : T) {bt : Shape T}
    (ho : Ordered isless bt) : Ordered isless (bt.bins isless n v) := by
  induction bt with
  | nil => simp [Shape.bins, Ordered]
  | node l a x r ihl ihr =>
    obtain ⟨h1, h2, hl, hr⟩ := ho
    simp only [Shape.bins]
    split_ifs with c1 c2
    · refine ⟨?_, h2, ihl hl, hr⟩
      intro y hy
      rcases Shape.mem_vals_bins isless n v l hy with h | h
      · rw [h]; exact c1
      · exact h1 y h
    · refine ⟨h1, ?_, hl, ihr hr⟩
      intro y hy
      rcases Shape.mem_vals_bins isless n v r hy with h | h
      · rw [h]; exact c2
      · exact h2 y h
    · exact ⟨h1, h2, hl, hr⟩

/-- The in-order values of an ordered tree increase strictly. -/
theorem Ordered.pairwise {isless : T → T → Bool}
    (htr : ∀ a b c, isless a b = true → isless b c = true → isless a c = true)
    {bt : Shape T} (ho : Ordered isless bt) :
    bt.vals.Pairwise (fun a b => isless a b = true) := by
  induction bt with
  | nil => simp
  | node l a x r ihl ihr =>
    obtain ⟨h1, h2, hl, hr⟩ := ho
    simp only [Shape.vals_node]
    refine List.pairwise_append.2 ⟨ihl hl, List.pairwise_cons.2 ⟨h2, ihr hr⟩, ?_⟩
    intro y hy z hz
    rcases List.mem_cons.1 hz with h | h
    · rw [h]; exact h1 y hy
    · exact htr y x z (h1 y hy) (h2 z h)

/-! ## `insert` on a modelled tree -/

theorem Wf.end_not_mem {h : Heap T} {t : BinarySearchTree} {bt : Shape T} {e : Nat} {m : T}
    (hw : Wf h t (bt.attach e m)) : e ∉ bt.addrs := by
  have hnd := hw.2.2.1
  rw [Shape.addrs_attach] at hnd
  intro hm
  exact (List.nodup_append.1 hnd).2.2 hm (List.mem_singleton_self e)

theorem Wf.endNode_eq {h : Heap T} {t : BinarySearchTree} {bt : Shape T} {e : Nat} {m : T}
    (hw : Wf h t (bt.attach e m)) : t.endNode = some e := by
  rw [hw.2.2.2.2]; simp

/-- The range-based loop over a modelled non-empty tree yields its in-order values. -/
theorem traverse_model {h : Heap T} {t : BinarySearchTree} {bt : Shape T}
    (hm : Model h t bt) (hbt : bt ≠ .nil) : traverse h t = .ok bt.vals := by
  rcases hm with ⟨h0, _⟩ | ⟨_, e, m, hw⟩
  · exact absurd h0 hbt
  · rw [traverse_wf hw (Shape.attach_ne_nil e m bt)]
    simp

/-- One `insert` that returns performs a textbook insertion on the modelled tree. -/
theorem insert_model (isless : T → T → Bool) {h h' : Heap T} {t t' : BinarySearchTree}
    {bt : Shape T} (v : T) (hm : Model h t bt) (hrun : insert isless h t v = .ok (h', t')) :
    Model h' t' (bt.bins isless h.next v) := by
  rcases hm with ⟨hnil, hroot⟩ | ⟨hbt, e, m, hw⟩
  · subst hnil
    refine Or.inr ⟨Shape.bins_ne_nil _ _ _ _, h.next + 1, v, ?_⟩
    simp only [insert, Heap.alloc, hroot, if_true, Heap.modify, Heap.store, if_pos,
      Res.ok_bind, Res.pure_eq] at hrun
    simp at hrun
    obtain ⟨hh, ht⟩ := hrun
    subst hh ht
    refine ⟨rfl, ?_, ?_, ?_, ?_⟩ <;> simp [Shape.bins, Shape.attach, Rep]
    omega
  · have he := hw.end_not_mem
    have hend := hw.endNode_eq
    obtain ⟨hroot, hr, hnd, hlt, _⟩ := hw
    have hrootne : t.root ≠ none := by
      rw [hroot, Shape.ptr_attach e m hbt]
      exact fun hp => hbt (Shape.ptr_eq_none.1 hp)
    have hfresh : h.next ∉ (bt.attach e m).addrs := fun hm => Nat.lt_irrefl _ (hlt _ hm)
    let h1 : Heap T := (h.alloc ⟨v, none, none, none⟩).2
    have hr1 : Rep h1 (bt.attach e m) none := by
      refine hr.frame ?_
      intro a ha
      have : a ≠ h.next := fun he => hfresh (he ▸ ha)
      simp [h1, Heap.alloc, this]
    have hn1 : h1.cells h.next = some ⟨v, none, none, none⟩ := by simp [h1, Heap.alloc]
    have hlen := length_le_of_nodup_of_lt hnd hlt
    have hspec := insert_node_rep isless (some e) h.next v none hn1 (bt.attach e m) none h1.fuel
      hr1 hnd hfresh (by simp only [h1, Heap.alloc, Heap.fuel]; omega)
    have hrootne' : (bt.attach e m).ptr ≠ none := by rw [← hroot]; exact hrootne
    have hunf : insert isless h t v =
        (insert_node isless (some e) h1.fuel h1 (bt.attach e m).ptr (some h.next) >>=
          fun h2 => Res.ok (h2, t)) := by
      simp only [insert, Heap.alloc, hroot, hrootne', if_false, hend, h1]
      rfl
    have hrun' : ∃ h2, insert_node isless (some e) h1.fuel h1 (bt.attach e m).ptr (some h.next) =
        .ok h2 ∧ h' = h2 ∧ t' = t := by
      rw [hunf] at hrun
      cases hres : insert_node isless (some e) h1.fuel h1 (bt.attach e m).ptr (some h.next) with
      | fault f => simp [hres] at hrun
      | ok h2 =>
        simp only [hres, Res.ok_bind, Res.ok.injEq, Prod.mk.injEq] at hrun
        exact ⟨h2, rfl, hrun.1.symm, hrun.2.symm⟩
    obtain ⟨h2, hres, hh, ht⟩ := hrun'
    subst hh ht
    cases hins : (bt.attach e m).ins isless (some e) h.next v with
    | fault f =>
      rw [hins] at hspec
      simp only at hspec
      rw [hspec] at hres
      exact absurd hres (by simp)
    | ok s' =>
      rw [hins] at hspec
      obtain ⟨h3, hrun3, hrep, hptr, hnext, _, _⟩ := hspec
      rw [hrun3] at hres
      simp only [Res.ok.injEq] at hres
      subst hres
      obtain ⟨m', hs'⟩ := Shape.ins_attach isless e h.next v bt s' m hbt he hins
      subst hs'
      refine Or.inr ⟨Shape.bins_ne_nil _ _ _ _, e, m', ?_⟩
      have hfresh' : h.next ∉ bt.addrs := fun hm => hfresh (by simp [hm])
      have hen : e ≠ h.next := fun he' => hfresh (by simp [he'])
      refine ⟨by rw [hptr]; exact hroot, hrep, ?_, ?_, by rw [hend]; simp⟩
      · rw [Shape.addrs_attach]
        refine List.nodup_append.2 ⟨Shape.nodup_bins isless _ v bt
          (by rw [Shape.addrs_attach] at hnd; exact (List.nodup_append.1 hnd).1) hfresh',
          List.nodup_singleton e, ?_⟩
        intro b hb1 hb2
        rw [List.mem_singleton] at hb2
        subst hb2
        rcases Shape.mem_addrs_bins isless _ v bt hb1 with hb | hb
        · exact hen hb
        · exact he hb
      · intro a ha
        rw [hnext]
        simp only [h1, Heap.alloc]
        rw [Shape.addrs_attach, List.mem_append, List.mem_singleton] at ha
        rcases ha with ha | ha
        · rcases Shape.mem_addrs_bins isless _ v bt ha with hb | hb
          · omega
          · exact Nat.lt_succ_of_lt (hlt a (by simp [hb]))
        · exact Nat.lt_succ_of_lt (hlt a (by simp [ha]))

/-- A run of inserts that all return leaves a modelled tree that is ordered and
holds, up to equivalence, what was there before and what was inserted. -/
theorem insertAll_model (isless : T → T → Bool) (hirr : ∀ a, isless a a = false) :
    ∀ (vs : List T) (h h' : Heap T) (t t' : BinarySearchTree) (bt : Shape T),
      Model h t bt → insertAll isless h t vs = .ok (h', t') →
      ∃ bt', Model h' t' bt' ∧ (Ordered isless bt → Ordered isless bt') ∧
        (∀ y ∈ bt'.vals, y ∈ bt.vals ∨ y ∈ vs) ∧ (∀ y ∈ bt.vals, y ∈ bt'.vals) ∧
        (∀ y ∈ vs, ∃ z ∈ bt'.vals, isless z y = false ∧ isless y z = false) ∧
        (bt ≠ .nil ∨ vs ≠ [] → bt' ≠ .nil) := by
  intro vs
  induction vs with
  | nil =>
    intro h h' t t' bt hm hrun
    simp only [insertAll, Res.ok.injEq, Prod.mk.injEq] at hrun
    obtain ⟨rfl, rfl⟩ := hrun
    exact ⟨bt, hm, id, fun y hy => Or.inl hy, fun y hy => hy, by simp, by simp⟩
  | cons v vs ih =>
    intro h h' t t' bt hm hrun
    simp only [insertAll] at hrun
    cases hins : insert isless h t v with
    | fault f => simp [hins] at hrun
    | ok p =>
      obtain ⟨h1, t1⟩ := p
      simp only [hins, Res.ok_bind] at hrun
      have hm1 := insert_model isless v hm hins
      obtain ⟨bt', hm', hord, hsub, hsup, hall, hne⟩ := ih h1 h' t1 t' _ hm1 hrun
      refine ⟨bt', hm', fun ho => hord (ho.bins _ _), ?_, ?_, ?_, ?_⟩
      · intro y hy
        rcases hsub y hy with hy1 | hy1
        · rcases Shape.mem_vals_bins isless _ v bt hy1 with h2 | h2
          · exact Or.inr (by simp [h2])
          · exact Or.inl h2
        · exact Or.inr (List.mem_cons_of_mem _ hy1)
      · intro y hy
        exact hsup y (Shape.vals_subset_bins isless _ v bt hy)
      · intro y hy
        rcases List.mem_cons.1 hy with hy1 | hy1
        · obtain ⟨z, hz, hzz⟩ := Shape.exists_equiv_bins isless hirr h.next v bt
          exact ⟨z, hsup z hz, hy1 ▸ hzz⟩
        · exact hall y hy1
      · intro _
        exact hne (Or.inl (Shape.bins_ne_nil _ _ _ _))

theorem Model.empty (h : Heap T) : Model h BinarySearchTree.empty (.nil : Shape T) :=
  Or.inl ⟨rfl, rfl⟩

/-! ## Inserting an equivalent value -/

theorem insert_of_root_ne_none (isless : T → T → Bool) (h : Heap T) (t : BinarySearchTree)
    (v : T) (hroot : t.root ≠ none) :
    insert isless h t v =
      (insert_node isless t.endNode (h.alloc ⟨v, none, none, none⟩).2.fuel
        (h.alloc ⟨v, none, none, none⟩).2 t.root (some h.next) >>= fun h2 => Res.ok (h2, t)) := by
  simp only [insert, Heap.alloc, hroot, if_false]
  rfl

theorem traverse_of_root_none (h : Heap T) (t : BinarySearchTree) (hroot : t.root = none) :
    traverse h t = .fault .nullDeref := by
  simp [traverse, begin, hroot, Heap.fuel, leftmost, Heap.load]

theorem Shape.ins_dup_plain (isless : T → T → Bool)
    (htr : ∀ a b c, isless a b = true → isless b c = true → isless a c = true)
    (e n : Nat) (v : T) :
    ∀ bt : Shape T, Ordered isless bt → e ∉ bt.addrs →
      (∃ y ∈ bt.vals, isless y v = false ∧ isless v y = false) →
      bt.ins isless (some e) n v = .ok bt := by
  intro bt
  induction bt with
  | nil => rintro _ _ ⟨y, hy, _⟩; simp at hy
  | node l a x r ihl ihr =>
    rintro ⟨ho1, ho2, hol, hor⟩ he ⟨y, hy, hyv, hvy⟩
    simp only [Shape.addrs_node, List.mem_append, List.mem_cons, not_or] at he
    simp only [Shape.vals_node, List.mem_append, List.mem_cons] at hy
    rw [Shape.ins_node]
    by_cases h1 : isless v x = true
    · have hyl : y ∈ l.vals := by
        rcases hy with hy | hy | hy
        · exact hy
        · rw [hy, h1] at hvy; exact absurd hvy (by simp)
        · rw [htr v x y h1 (ho2 y hy)] at hvy; exact absurd hvy (by simp)
      have hlp : l.ptr ≠ none := by
        intro hp
        rw [Shape.ptr_eq_none.1 hp] at hyl
        simp at hyl
      rw [if_pos h1, if_neg hlp, ihl hol he.1 ⟨y, hyl, hyv, hvy⟩]
    · by_cases h2 : isless x v = true
      · have hyr : y ∈ r.vals := by
          rcases hy with hy | hy | hy
          · rw [htr y x v (ho1 y hy) h2] at hyv; exact absurd hyv (by simp)
          · rw [hy, h2] at hyv; exact absurd hyv (by simp)
          · exact hy
        rw [if_neg h1, if_pos h2, if_neg (Shape.ptr_ne_of_not_mem he.2.2),
          ihr hor he.2.2 ⟨y, hyr, hyv, hvy⟩]
      · rw [if_neg h1, if_neg h2]

theorem Shape.ins_dup_attach (isless : T → T → Bool)
    (htr : ∀ a b c, isless a b = true → isless b c = true → isless a c = true)
    (e n : Nat) (v : T) (m : T) :
    ∀ bt : Shape T, Ordered isless bt → e ∉ bt.addrs →
      (∃ y ∈ bt.vals, isless y v = false ∧ isless v y = false) →
      (bt.attach e m).ins isless (some e) n v = .ok (bt.attach e m) := by
  intro bt
  induction bt with
  | nil => rintro _ _ ⟨y, hy, _⟩; simp at hy
  | node l a x r _ ihr =>
    rintro ⟨ho1, ho2, hol, hor⟩ he ⟨y, hy, hyv, hvy⟩
    simp only [Shape.addrs_node, List.mem_append, List.mem_cons, not_or] at he
    simp only [Shape.vals_node, List.mem_append, List.mem_cons] at hy
    simp only [Shape.attach]
    rw [Shape.ins_node]
    by_cases h1 : isless v x = true
    · have hyl : y ∈ l.vals := by
        rcases hy with hy | hy | hy
        · exact hy
        · rw [hy, h1] at hvy; exact absurd hvy (by simp)
        · rw [htr v x y h1 (ho2 y hy)] at hvy; exact absurd hvy (by simp)
      have hlp : l.ptr ≠ none := by
        intro hp
        rw [Shape.ptr_eq_none.1 hp] at hyl
        simp at hyl
      rw [if_pos h1, if_neg hlp,
        Shape.ins_dup_plain isless htr e n v l hol he.1 ⟨y, hyl, hyv, hvy⟩]
    · by_cases h2 : isless x v = true
      · have hyr : y ∈ r.vals := by
          rcases hy with hy | hy | hy
          · rw [htr y x v (ho1 y hy) h2] at hyv; exact absurd hyv (by simp)
          · rw [hy, h2] at hyv; exact absurd hyv (by simp)
          · exact hy
        have hrn : r ≠ .nil := by
          rintro rfl
          simp at hyr
        have hne : (r.attach e m).ptr ≠ some e := by
          rw [Shape.ptr_attach e m hrn]
          exact Shape.ptr_ne_of_not_mem he.2.2
        rw [if_neg h1, if_pos h2, if_neg hne, ihr hor he.2.2 ⟨y, hyr, hyv, hvy⟩]
      · rw [if_neg h1, if_neg h2]

/-- On a modelled tree that holds an element equivalent to `v`, `insert(v)` returns the
heap with nothing but the unused new node added. -/
theorem insert_dup_model (isless : T → T → Bool)
    (htr : ∀ a b c, isless a b = true → isless b c = true → isless a c = true)
    {h : Heap T} {t : BinarySearchTree} {bt : Shape T} (v : T) (hm : Model h t bt)
    (ho : Ordered isless bt)
    (hdup : ∃ y ∈ bt.vals, isless y v = false ∧ isless v y = false) :
    insert isless h t v = .ok ((h.alloc ⟨v, none, none, none⟩).2, t) ∧
      Model (h.alloc ⟨v, none, none, none⟩).2 t bt := by
  rcases hm with ⟨hnil, _⟩ | ⟨hbt, e, m, hw⟩
  · obtain ⟨y, hy, _⟩ := hdup
    rw [hnil] at hy
    simp at hy
  · have he := hw.end_not_mem
    have hend := hw.endNode_eq
    obtain ⟨hroot, hr, hnd, hlt, hlast⟩ := hw
    have hrootne : t.root ≠ none := by
      rw [hroot, Shape.ptr_attach e m hbt]
      exact fun hp => hbt (Shape.ptr_eq_none.1 hp)
    have hfresh : h.next ∉ (bt.attach e m).addrs := fun hm => Nat.lt_irrefl _ (hlt _ hm)
    have hr1 : Rep (h.alloc ⟨v, none, none, none⟩).2 (bt.attach e m) none := by
      refine hr.frame ?_
      intro a ha
      have : a ≠ h.next := fun he => hfresh (he ▸ ha)
      simp [Heap.alloc, this]
    have hn1 : (h.alloc ⟨v, none, none, none⟩).2.cells h.next = some ⟨v, none, none, none⟩ := by
      simp [Heap.alloc]
    have hlen := length_le_of_nodup_of_lt hnd hlt
    have hspec := insert_node_rep isless (some e) h.next v none hn1 (bt.attach e m) none
      (h.alloc ⟨v, none, none, none⟩).2.fuel hr1 hnd hfresh
      (by simp only [Heap.alloc, Heap.fuel]; omega)
    rw [Shape.ins_dup_attach isless htr e h.next v m bt ho he hdup] at hspec
    obtain ⟨h2, hrun2, -, -, -, -, hsame⟩ := hspec
    have h2eq := hsame rfl
    subst h2eq
    refine ⟨?_, Or.inr ⟨hbt, e, m, hroot, hr1, hnd, ?_, hlast⟩⟩
    · rw [insert_of_root_ne_none isless h t v hrootne, hend, hroot, hrun2]
      rfl
    · intro a ha
      exact Nat.lt_succ_of_lt (hlt a ha)

/-! ## `erase` on a represented tree -/

theorem Shape.lastAddr_mem (d : Nat) {s : Shape T} (hs : s ≠ .nil) : s.lastAddr d ∈ s.addrs := by
  induction s generalizing d with
  | nil => exact absurd rfl hs
  | node l a x r _ ihr =>
    simp only [Shape.lastAddr, Shape.addrs_node, List.mem_append, List.mem_cons]
    cases r with
    | nil => simp [Shape.lastAddr]
    | node rl ra rx rr => exact Or.inr (Or.inr (ihr a (by simp)))

theorem Shape.lastParent_mem (q : Nat) (s : Shape T) : s.lastParent q ∈ q :: s.addrs := by
  induction s generalizing q with
  | nil => simp [Shape.lastParent]
  | node l a x r _ ihr =>
    simp only [Shape.lastParent, Shape.addrs_node]
    split_ifs
    · simp
    · have := ihr a
      simp only [List.mem_cons, List.mem_append] at this ⊢
      rcases this with h | h
      · exact Or.inr (Or.inr (Or.inl h))
      · exact Or.inr (Or.inr (Or.inr h))

theorem Shape.maxLeft_addrs_subset (s : Shape T) : ∀ b ∈ s.maxLeft.addrs, b ∈ s.addrs := by
  induction s with
  | nil => simp [Shape.maxLeft]
  | node l a x r _ ihr =>
    intro b hb
    simp only [Shape.maxLeft] at hb
    simp only [Shape.addrs_node, List.mem_append, List.mem_cons]
    split_ifs at hb
    · exact Or.inl hb
    · exact Or.inr (Or.inr (ihr b hb))

theorem Shape.lastAddr_not_mem_maxLeft (d : Nat) {s : Shape T} (hnd : s.addrs.Nodup) :
    s.lastAddr d ∉ s.maxLeft.addrs ∨ s = .nil := by
  induction s generalizing d with
  | nil => exact Or.inr rfl
  | node l a x r _ ihr =>
    left
    simp only [Shape.addrs_node] at hnd
    have hndr : r.addrs.Nodup := ((List.nodup_cons.1 (List.nodup_append.1 hnd).2.1)).2
    simp only [Shape.lastAddr, Shape.maxLeft]
    by_cases hr : r.ptr = none
    · have := Shape.ptr_eq_none.1 hr
      subst this
      simp only [Shape.lastAddr, Shape.ptr_nil, if_true]
      intro hm
      exact (List.nodup_append.1 hnd).2.2 hm (List.mem_cons_self _ _)
    · rw [if_neg hr]
      rcases ihr a hndr with h | h
      · exact h
      · rw [h] at hr
        exact absurd rfl hr

/-- The loop that looks for the rightmost node of a subtree. -/
theorem erase_largest_rep {h : Heap T} :
    ∀ (s : Shape T) (par : Option Nat) (q : Nat) (fuel : Nat), Rep h s par → s ≠ .nil →
      s.addrs.length ≤ fuel →
      erase_largest fuel h (some q) s.ptr = .ok (some (s.lastParent q), some (s.lastAddr q)) := by
  intro s
  induction s with
  | nil => intro par q fuel _ hs; exact absurd rfl hs
  | node l a x r _ ihr =>
    intro par q fuel hr _ hf
    obtain ⟨hc, -, hrr⟩ := hr
    simp only [Shape.addrs_node, List.length_append, List.length_cons] at hf
    cases fuel with
    | zero => omega
    | succ fuel =>
      by_cases hrp : r.ptr = none
      · have := Shape.ptr_eq_none.1 hrp
        subst this
        simp [erase_largest, Heap.load, hc, Shape.lastParent, Shape.lastAddr]
      · have hrn : r ≠ .nil := fun h0 => hrp (by rw [h0]; rfl)
        have := ihr (some a) a fuel hrr hrn (by omega)
        simp [erase_largest, Heap.load, hc, Shape.lastParent, Shape.lastAddr, hrp, this]

/-- The cell of the rightmost node of a represented subtree. -/
theorem Rep.last_cell {h : Heap T} :
    ∀ (s : Shape T) (q : Nat) (d : T), Rep h s (some q) → s ≠ .nil →
      h.cells (s.lastAddr q) =
        some ⟨s.maxVal d, s.maxLeft.ptr, none, some (s.lastParent q)⟩ := by
  intro s
  induction s with
  | nil => intro q d _ hs; exact absurd rfl hs
  | node l a x r _ ihr =>
    intro q d hr _
    obtain ⟨hc, -, hrr⟩ := hr
    by_cases hrp : r.ptr = none
    · have := Shape.ptr_eq_none.1 hrp
      subst this
      simpa [Shape.lastAddr, Shape.maxVal, Shape.maxLeft, Shape.lastParent] using hc
    · have hrn : r ≠ .nil := fun h0 => hrp (by rw [h0]; rfl)
      have := ihr a x hrr hrn
      simpa [Shape.lastAddr, Shape.maxVal, Shape.maxLeft, Shape.lastParent, hrp] using this

theorem Shape.removeMax_ptr {l rr : Shape T} {a : Nat} {x : T} (hrr : rr ≠ .nil) :
    (Shape.node l a x rr).removeMax = .node l a x rr.removeMax := by
  have : rr.ptr ≠ none := fun hp => hrr (Shape.ptr_eq_none.1 hp)
  simp [Shape.removeMax, this]

/-- Unlinking the rightmost node of the right subtree `r` of a node: if the new heap
differs from the old one only in the right link of the parent of that node, in the parent
link of its left child and in the node itself, it represents the tree without that node. -/
theorem removeMax_rep {h h' : Heap T} :
    ∀ (r l : Shape T) (a : Nat) (x : T) (q : Option Nat), r ≠ .nil →
      Rep h (.node l a x r) q → (Shape.node l a x r).addrs.Nodup →
      h'.cells (r.lastParent a) =
        (h.cells (r.lastParent a)).map (fun c => { c with right := r.maxLeft.ptr }) →
      (∀ b, r.maxLeft.ptr = some b →
        h'.cells b = (h.cells b).map (fun c => { c with parent := some (r.lastParent a) })) →
      (∀ b ∈ (Shape.node l a x r).addrs, b ≠ r.lastParent a → r.maxLeft.ptr ≠ some b →
        b ≠ r.lastAddr a → h'.cells b = h.cells b) →
      Rep h' (.node l a x r.removeMax) q := by
  intro r
  induction r with
  | nil => intro l a x q hr; exact absurd rfl hr
  | node rl ra rx rr _ ihrr =>
    intro l a x q _ hrep hnd H1 H2 H3
    obtain ⟨hca, hl, hcr, hrl, hrrr⟩ := hrep
    simp only [Shape.addrs_node] at hnd H3
    have hndl : l.addrs.Nodup := (List.nodup_append.1 hnd).1
    have hndr : (rl.addrs ++ ra :: rr.addrs).Nodup :=
      ((List.nodup_cons.1 (List.nodup_append.1 hnd).2.1)).2
    have har : a ∉ rl.addrs ++ ra :: rr.addrs :=
      ((List.nodup_cons.1 (List.nodup_append.1 hnd).2.1)).1
    have hdisj : ∀ b, b ∈ l.addrs → b ∉ a :: (rl.addrs ++ ra :: rr.addrs) :=
      fun b hb hb' => (List.nodup_append.1 hnd).2.2 hb hb'
    have hral : ra ∉ rl.addrs := fun hm =>
      (List.nodup_append.1 hndr).2.2 hm (List.mem_cons_self _ _)
    have hrar : ra ∉ rr.addrs := ((List.nodup_cons.1 (List.nodup_append.1 hndr).2.1)).1
    have hdisjr : ∀ b, b ∈ rl.addrs → b ∉ ra :: rr.addrs :=
      fun b hb hb' => (List.nodup_append.1 hndr).2.2 hb hb'
    have hndrl : rl.addrs.Nodup := (List.nodup_append.1 hndr).1
    have hara : a ≠ ra := fun he => har (by simp [he])
    by_cases hrrp : rr.ptr = none
    · have := Shape.ptr_eq_none.1 hrrp
      subst this
      simp only [Shape.lastParent, Shape.maxLeft, Shape.lastAddr, Shape.ptr_nil, Shape.ptr_node,
        if_true, reduceCtorEq, if_false] at H1 H2 H3
      have hrm : (Shape.node rl ra rx .nil).removeMax = rl := by simp [Shape.removeMax]
      rw [hrm]
      refine ⟨by rw [H1, hca]; rfl, hl.frame ?_, ?_⟩
      · intro b hb
        have hb' := hdisj b hb
        simp only [List.mem_cons, List.mem_append, not_or] at hb'
        refine H3 b (by simp [hb]) hb'.1 ?_ hb'.2.2.1
        intro hp
        exact hb'.2.1 (Shape.ptr_mem hp)
      · cases rl with
        | nil => trivial
        | node rll rla rlx rlr =>
          obtain ⟨hcl, hrll, hrlr⟩ := hrl
          simp only [Shape.addrs_node] at hndrl hral har hdisjr
          have hrla_l : rla ∉ rll.addrs := fun hm =>
            (List.nodup_append.1 hndrl).2.2 hm (List.mem_cons_self _ _)
          have hrla_r : rla ∉ rlr.addrs :=
            ((List.nodup_cons.1 (List.nodup_append.1 hndrl).2.1)).1
          refine ⟨by rw [H2 rla rfl, hcl]; rfl, hrll.frame ?_, hrlr.frame ?_⟩
          · intro b hb
            refine H3 b (by simp [hb]) ?_ ?_ ?_
            · rintro rfl; exact har (by simp [hb])
            · simp only [Shape.ptr_node, ne_eq, Option.some.injEq]
              rintro rfl; exact hrla_l hb
            · rintro rfl; exact hral (by simp [hb])
          · intro b hb
            refine H3 b (by simp [hb]) ?_ ?_ ?_
            · rintro rfl; exact har (by simp [hb])
            · simp only [Shape.ptr_node, ne_eq, Option.some.injEq]
              rintro rfl; exact hrla_r hb
            · rintro rfl; exact hral (by simp [hb])
    · have hrrn : rr ≠ .nil := fun h0 => hrrp (by rw [h0]; rfl)
      simp only [Shape.lastParent, Shape.maxLeft, Shape.lastAddr, Shape.ptr_node, hrrp,
        reduceCtorEq, if_false] at H1 H2 H3
      have hlp := Shape.lastParent_mem ra rr
      have hla := Shape.lastAddr_mem ra hrrn
      have hml := Shape.maxLeft_addrs_subset rr
      have ih := ihrr rl ra rx (some a) hrrn ⟨hcr, hrl, hrrr⟩
        (by simpa using hndr) H1 H2 (by
          intro b hb
          exact H3 b (by
            simp only [Shape.addrs_node] at hb
            simp only [List.mem_append, List.mem_cons] at hb ⊢
            tauto))
      rw [Shape.removeMax_ptr hrrn]
      refine ⟨?_, hl.frame ?_, ih⟩
      · rw [H3 a (by simp) ?_ ?_ ?_, hca]
        · rfl
        · rintro he; exact har (by
            rw [he]
            rcases List.mem_cons.1 hlp with h1 | h1
            · simp [h1]
            · simp [h1])
        · intro hp
          exact har (by simp [hml a (Shape.ptr_mem hp)])
        · rintro he; exact har (by rw [he]; simp [hla])
      · intro b hb
        have hb' := hdisj b hb
        simp only [List.mem_cons, List.mem_append, not_or] at hb'
        refine H3 b (by simp [hb]) ?_ ?_ ?_
        · rintro rfl
          rcases List.mem_cons.1 hlp with h1 | h1
          · exact hb'.2.2.1 h1
          · exact hb'.2.2.2 h1
        · intro hp
          exact hb'.2.2.2 (hml b (Shape.ptr_mem hp))
        · rintro rfl
          exact hb'.2.2.2 hla

theorem Rep.live {h : Heap T} {s : Shape T} {par : Option Nat} (hr : Rep h s par)
    {b : Nat} (hb : b ∈ s.addrs) : ∃ c, h.cells b = some c := by
  simp only [Shape.addrs, List.mem_map] at hb
  obtain ⟨⟨b', y⟩, hm, rfl⟩ := hb
  obtain ⟨c, hc, -⟩ := hr.cell hm
  exact ⟨c, hc⟩

theorem Shape.lastParent_not_mem_maxLeft {s : Shape T} (hnd : s.addrs.Nodup) {q : Nat}
    (hq : q ∉ s.addrs) : s.lastParent q ∉ s.maxLeft.addrs := by
  induction s generalizing q with
  | nil => simp [Shape.maxLeft]
  | node l a x r _ ihr =>
    simp only [Shape.addrs_node] at hnd hq
    have hndr : r.addrs.Nodup := ((List.nodup_cons.1 (List.nodup_append.1 hnd).2.1)).2
    have har : a ∉ r.addrs := ((List.nodup_cons.1 (List.nodup_append.1 hnd).2.1)).1
    simp only [Shape.lastParent, Shape.maxLeft]
    split_ifs
    · exact fun hm => hq (by simp [hm])
    · exact ihr hndr har

theorem Shape.lastAddr_ne_lastParent {s : Shape T} (hs : s ≠ .nil) (hnd : s.addrs.Nodup)
    {q : Nat} (hq : q ∉ s.addrs) (d : Nat) : s.lastAddr d ≠ s.lastParent q := by
  induction s generalizing q d with
  | nil => exact absurd rfl hs
  | node l a x r _ ihr =>
    simp only [Shape.addrs_node] at hnd hq
    have hndr : r.addrs.Nodup := ((List.nodup_cons.1 (List.nodup_append.1 hnd).2.1)).2
    have har : a ∉ r.addrs := ((List.nodup_cons.1 (List.nodup_append.1 hnd).2.1)).1
    simp only [Shape.lastParent, Shape.lastAddr]
    by_cases hrp : r.ptr = none
    · have := Shape.ptr_eq_none.1 hrp
      subst this
      simp only [Shape.lastAddr, Shape.ptr_nil, if_true]
      exact fun he => hq (by simp [he])
    · rw [if_neg hrp]
      exact ihr (fun h0 => hrp (by rw [h0]; rfl)) hndr har a

/-- `erase_found` on a node with two children: the node takes the value of the rightmost
node of its left subtree, which is unlinked and deleted. -/
theorem erase_found_two {h : Heap T} (t : BinarySearchTree) (p2 : Option Nat)
    {l r : Shape T} {a : Nat} {x : T} {par : Option Nat}
    (hrep : Rep h (.node l a x r) par) (hnd : (Shape.node l a x r).addrs.Nodup)
    (hlen : (Shape.node l a x r).addrs.length ≤ h.next) (hl : l ≠ .nil) (hr : r ≠ .nil) :
    ∃ h', erase_found h t (some a) p2 = .ok (h', t) ∧
      Rep h' (.node l.removeMax a (l.maxVal x) r) par ∧ h'.next = h.next ∧
      ∀ b, b ∉ (Shape.node l a x r).addrs → h'.cells b = h.cells b := by
  obtain ⟨hca, hrl, hrr⟩ := hrep
  simp only [Shape.addrs_node] at hnd hlen
  have hndl : l.addrs.Nodup := (List.nodup_append.1 hnd).1
  have har : a ∉ r.addrs := ((List.nodup_cons.1 (List.nodup_append.1 hnd).2.1)).1
  have hal : a ∉ l.addrs := fun hm =>
    (List.nodup_append.1 hnd).2.2 hm (List.mem_cons_self _ _)
  have hdisj : ∀ b, b ∈ l.addrs → b ∉ r.addrs := fun b hb hb' =>
    (List.nodup_append.1 hnd).2.2 hb (List.mem_cons_of_mem _ hb')
  have hlp : l.ptr ≠ none := fun hp => hl (Shape.ptr_eq_none.1 hp)
  have hrp : r.ptr ≠ none := fun hp => hr (Shape.ptr_eq_none.1 hp)
  simp only [List.length_append, List.length_cons] at hlen
  have hloop := erase_largest_rep l (some a) a h.fuel hrl hl (by simp only [Heap.fuel]; omega)
  have hlast := Rep.last_cell l a x hrl hl
  have hla_mem := Shape.lastAddr_mem a hl
  have hla_a : l.lastAddr a ≠ a := fun he => hal (he ▸ hla_mem)
  cases l with
  | nil => exact absurd rfl hl
  | node ll la lx lr =>
    obtain ⟨hcl, hrll, hrlr⟩ := hrl
    by_cases hlrp : lr.ptr = none
    · have := Shape.ptr_eq_none.1 hlrp
      subst this
      simp only [Shape.lastParent, Shape.lastAddr, Shape.maxVal, Shape.maxLeft, Shape.ptr_nil,
        Shape.ptr_node, if_true] at hloop hlast hla_a
      have hrm : (Shape.node ll la lx .nil).removeMax = ll := by simp [Shape.removeMax]
      simp only [hrm, Shape.maxVal]
      have hala : a ≠ la := fun he => hla_a he.symm
      have hlar : la ∉ r.addrs := hdisj la (by simp)
      cases ll with
      | nil =>
        refine ⟨⟨fun b => if b = la then none else if b = a then some ⟨lx, none, r.ptr, par⟩
          else h.cells b, h.next⟩, ?_, ⟨?_, trivial, hrr.frame ?_⟩, rfl, ?_⟩
        · simp [erase_found, Heap.load, Heap.modify, Heap.store, Heap.free, hca, hlp, hrp, hloop,
            hlast, hla_a, hala, hcl]
          funext b
          split_ifs <;> rfl
        · simp [hala]
        · intro b hb
          have h1 : b ≠ la := fun he => hlar (he ▸ hb)
          have h2 : b ≠ a := fun he => har (he ▸ hb)
          simp [h1, h2]
        · intro b hb
          simp only [Shape.addrs_node, List.mem_append, List.mem_cons, not_or] at hb
          simp [hb.1.2.1, hb.2.1]
      | node lll lla llx llr =>
        obtain ⟨hcll, hrlll, hrllr⟩ := hrll
        simp only [Shape.addrs_node] at hndl hal hdisj
        have hndll : (lll.addrs ++ lla :: llr.addrs).Nodup := (List.nodup_append.1 hndl).1
        have hla_ll : la ∉ lll.addrs ++ lla :: llr.addrs := fun hm =>
          (List.nodup_append.1 hndl).2.2 hm (List.mem_cons_self _ _)
        have hlla_l : lla ∉ lll.addrs := fun hm =>
          (List.nodup_append.1 hndll).2.2 hm (List.mem_cons_self _ _)
        have hlla_r : lla ∉ llr.addrs :=
          ((List.nodup_cons.1 (List.nodup_append.1 hndll).2.1)).1
        have hlla_la : lla ≠ la := fun he => hla_ll (by simp [← he])
        have hlla_a : lla ≠ a := fun he => hal (by simp [← he])
        have hllar : lla ∉ r.addrs := hdisj lla (by simp)
        refine ⟨⟨fun b => if b = la then none
          else if b = lla then some ⟨llx, lll.ptr, llr.ptr, some a⟩
          else if b = a then some ⟨lx, some lla, r.ptr, par⟩
          else h.cells b, h.next⟩, ?_, ⟨?_, ⟨?_, hrlll.frame ?_, hrllr.frame ?_⟩, hrr.frame ?_⟩,
          rfl, ?_⟩
        · simp [erase_found, Heap.load, Heap.modify, Heap.store, Heap.free, hca, hlp, hrp, hloop,
            hlast, hla_a, hala, hcl, hcll, hlla_la, hlla_a, Ne.symm hlla_la, Ne.symm hlla_a]
          funext b
          split_ifs <;> simp_all
        · simp [hala, Ne.symm hlla_a]
        · simp [hlla_la]
        · intro b hb
          have h1 : b ≠ la := fun he => hla_ll (by simp [← he, hb])
          have h2 : b ≠ lla := fun he => hlla_l (he ▸ hb)
          have h3 : b ≠ a := fun he => hal (by simp [← he, hb])
          simp [h1, h2, h3]
        · intro b hb
          have h1 : b ≠ la := fun he => hla_ll (by simp [← he, hb])
          have h2 : b ≠ lla := fun he => hlla_r (he ▸ hb)
          have h3 : b ≠ a := fun he => hal (by simp [← he, hb])
          simp [h1, h2, h3]
        · intro b hb
          have h1 : b ≠ la := fun he => hlar (he ▸ hb)
          have h2 : b ≠ lla := fun he => hllar (he ▸ hb)
          have h3 : b ≠ a := fun he => har (he ▸ hb)
          simp [h1, h2, h3]
        · intro b hb
          simp only [Shape.addrs_node, List.mem_append, List.mem_cons, not_or] at hb
          simp [hb.1.2.1, hb.2.1, hb.1.1.2.1]
    · have hlrn : lr ≠ .nil := fun h0 => hlrp (by rw [h0]; rfl)
      simp only [Shape.lastParent, Shape.lastAddr, Shape.maxVal, Shape.maxLeft, Shape.ptr_node,
        hlrp, if_false] at hloop hlast hla_a hla_mem
      rw [Shape.removeMax_ptr hlrn]
      simp only [Shape.maxVal]
      simp only [Shape.addrs_node] at hndl hal hdisj hla_mem
      have hndlr : lr.addrs.Nodup := ((List.nodup_cons.1 (List.nodup_append.1 hndl).2.1)).2
      have hla_lr : la ∉ lr.addrs := ((List.nodup_cons.1 (List.nodup_append.1 hndl).2.1)).1
      have hm_mem : lr.lastAddr la ∈ lr.addrs := Shape.lastAddr_mem la hlrn
      have hlp_mem : lr.lastParent la ∈ la :: lr.addrs := Shape.lastParent_mem la lr
      have hlp_l : lr.lastParent la ∈ ll.addrs ++ la :: lr.addrs :=
        List.mem_append.2 (Or.inr hlp_mem)
      have hml_sub := Shape.maxLeft_addrs_subset lr
      have hm_lp : lr.lastAddr la ≠ lr.lastParent la :=
        Shape.lastAddr_ne_lastParent hlrn hndlr hla_lr la
      have hlp_ml : lr.lastParent la ∉ lr.maxLeft.addrs :=
        Shape.lastParent_not_mem_maxLeft hndlr hla_lr
      have hm_ml : lr.lastAddr la ∉ lr.maxLeft.addrs := by
        rcases Shape.lastAddr_not_mem_maxLeft la hndlr with h1 | h1
        · exact h1
        · exact absurd h1 hlrn
      have hlp_a : lr.lastParent la ≠ a := fun he => hal (he ▸ hlp_l)
      have hml_l : ∀ b ∈ lr.maxLeft.addrs, b ∈ ll.addrs ++ la :: lr.addrs := fun b hb =>
        List.mem_append.2 (Or.inr (List.mem_cons_of_mem _ (hml_sub b hb)))
      have hrepl : Rep h (.node ll la lx lr) (some a) := ⟨hcl, hrll, hrlr⟩
      have hlp_l' : lr.lastParent la ∈ (Shape.node ll la lx lr).addrs := by simpa using hlp_l
      obtain ⟨clp, hclp⟩ := hrepl.live hlp_l'
      refine ⟨⟨fun b => if b = lr.lastAddr la then none
          else if lr.maxLeft.ptr = some b then
            (h.cells b).map (fun c => { c with parent := some (lr.lastParent la) })
          else if b = lr.lastParent la then
            (h.cells b).map (fun c => { c with right := lr.maxLeft.ptr })
          else if b = a then some ⟨lr.maxVal lx, some la, r.ptr, par⟩
          else h.cells b, h.next⟩, ?_, ⟨?_, ?_, hrr.frame ?_⟩, rfl, ?_⟩
      · cases hml : lr.maxLeft with
        | nil =>
          simp [erase_found, Heap.load, Heap.modify, Heap.store, Heap.free, hca, hlp, hrp, hloop,
            hlast, hla_a, hlp_a, hclp, hm_lp, hml]
          funext b
          by_cases hb1 : b = lr.lastAddr la
          · simp [hb1]
          · by_cases hb3 : b = lr.lastParent la
            · subst hb3
              simp [hb1, hclp]
            · by_cases hb4 : b = a
              · subst hb4
                simp [hb1, hb3]
              · simp [hb1, hb3, hb4]
        | node mll mla mlx mlr =>
          have hmla : mla ∈ lr.maxLeft.addrs := by rw [hml]; simp
          have hmla' : mla ∈ (Shape.node ll la lx lr).addrs := by simpa using hml_l mla hmla
          obtain ⟨cmla, hcmla⟩ := hrepl.live hmla'
          have h1 : mla ≠ lr.lastParent la := fun he => hlp_ml (he ▸ hmla)
          have h2 : mla ≠ a := fun he => hal (he ▸ hml_l mla hmla)
          have h3 : lr.lastAddr la ≠ mla := fun he => hm_ml (he ▸ hmla)
          simp [erase_found, Heap.load, Heap.modify, Heap.store, Heap.free, hca, hlp, hrp, hloop,
            hlast, hla_a, hlp_a, hclp, hm_lp, hml, hcmla, h1, h2, h3]
          funext b
          by_cases hb1 : b = lr.lastAddr la
          · simp [hb1]
          · by_cases hb2 : b = mla
            · subst hb2
              simp [hb1, hcmla]
            · have hb2' : ¬ mla = b := fun he => hb2 he.symm
              by_cases hb3 : b = lr.lastParent la
              · subst hb3
                simp [hb1, hb2, hb2', hclp]
              · by_cases hb4 : b = a
                · subst hb4
                  simp [hb1, hb2, hb2', hb3]
                · simp [hb1, hb2, hb2', hb3, hb4]
      · have h1 : a ≠ lr.lastAddr la := fun he => hla_a he.symm
        have h2 : lr.maxLeft.ptr ≠ some a := fun hp => hal (hml_l a (Shape.ptr_mem hp))
        simp [h1, h2, Ne.symm hlp_a]
      · refine removeMax_rep lr ll la lx (some a) hlrn hrepl (by simpa using hndl) ?_ ?_ ?_
        · have h2 : lr.maxLeft.ptr ≠ some (lr.lastParent la) := fun hp =>
            hlp_ml (Shape.ptr_mem hp)
          simp [Ne.symm hm_lp, h2]
        · intro b hb
          have h1 : b ≠ lr.lastAddr la := fun he => hm_ml (he ▸ Shape.ptr_mem hb)
          simp [h1, hb]
        · intro b hb h1 h2 h3
          have h4 : b ≠ a := fun he => hal (by simpa [← he] using hb)
          simp [h1, h2, h3, h4]
      · intro b hb
        have h1 : b ≠ lr.lastAddr la := fun he =>
          hdisj _ (List.mem_append.2 (Or.inr (List.mem_cons_of_mem _ hm_mem))) (he ▸ hb)
        have h2 : lr.maxLeft.ptr ≠ some b := fun hp =>
          hdisj _ (hml_l b (Shape.ptr_mem hp)) hb
        have h3 : b ≠ lr.lastParent la := fun he => hdisj _ hlp_l (he ▸ hb)
        have h4 : b ≠ a := fun he => har (he ▸ hb)
        simp [h1, h2, h3, h4]
      · intro b hb
        simp only [Shape.addrs_node, List.mem_append, List.mem_cons, not_or] at hb
        have hbl : b ∉ ll.addrs ++ la :: lr.addrs := by
          simp only [List.mem_append, List.mem_cons, not_or]
          exact ⟨hb.1.1, hb.1.2.1, hb.1.2.2⟩
        have h1 : b ≠ lr.lastAddr la := fun he =>
          hbl (List.mem_append.2 (Or.inr (List.mem_cons_of_mem _ (he ▸ hm_mem))))
        have h2 : lr.maxLeft.ptr ≠ some b := fun hp => hbl (hml_l b (Shape.ptr_mem hp))
        have h3 : b ≠ lr.lastParent la := fun he => hbl (he ▸ hlp_l)
        simp [h1, h2, h3, hb.2.1]

theorem Shape.eraseAt_one {l r : Shape T} (a : Nat) (x : T) (h1 : l = .nil ∨ r = .nil) :
    (Shape.node l a x r).eraseAt = if l.ptr = none then r else l := by
  have : l.ptr = none ∨ r.ptr = none := by
    rcases h1 with h | h
    · exact Or.inl (by rw [h]; rfl)
    · exact Or.inr (by rw [h]; rfl)
  simp only [Shape.eraseAt, this, if_true]

theorem Shape.eraseAt_two {l r : Shape T} (a : Nat) (x : T) (hl : l ≠ .nil) (hr : r ≠ .nil) :
    (Shape.node l a x r).eraseAt = .node l.removeMax a (l.maxVal x) r := by
  have h1 : ¬ l.ptr = none := fun hp => hl (Shape.ptr_eq_none.1 hp)
  have h2 : ¬ r.ptr = none := fun hp => hr (Shape.ptr_eq_none.1 hp)
  simp [Shape.eraseAt, h1, h2]

/-- `erase_found` on a node that is not the root and has a null left or right link. -/
theorem erase_found_one_sub {h : Heap T} (t : BinarySearchTree)
    {l r : Shape T} {a : Nat} {x : T} {q : Nat} {cq : TreeNode T}
    (hrep : Rep h (.node l a x r) (some q)) (hnd : (Shape.node l a x r).addrs.Nodup)
    (hq : q ∉ (Shape.node l a x r).addrs) (hcq : h.cells q = some cq)
    (hone : l = .nil ∨ r = .nil) :
    ∃ h', erase_found h t (some a) (some q) = .ok (h', t) ∧
      Rep h' (Shape.node l a x r).eraseAt (some q) ∧
      h'.cells q = some (if cq.left = some a
        then { cq with left := (Shape.node l a x r).eraseAt.ptr }
        else { cq with right := (Shape.node l a x r).eraseAt.ptr }) ∧
      h'.next = h.next ∧
      ∀ b, b ∉ (Shape.node l a x r).addrs → b ≠ q → h'.cells b = h.cells b := by
  rw [Shape.eraseAt_one a x hone]
  obtain ⟨hca, hrl, hrr⟩ := hrep
  have hnc : Rep h (if l.ptr = none then r else l) (some a) := by
    split_ifs
    · exact hrr
    · exact hrl
  have hncsub : ∀ b ∈ (if l.ptr = none then r else l).addrs, b ∈ l.addrs ++ a :: r.addrs := by
    intro b hb
    split_ifs at hb
    · exact List.mem_append.2 (Or.inr (List.mem_cons_of_mem _ hb))
    · exact List.mem_append.2 (Or.inl hb)
  have hnca : a ∉ (if l.ptr = none then r else l).addrs := by
    simp only [Shape.addrs_node] at hnd
    split_ifs
    · exact ((List.nodup_cons.1 (List.nodup_append.1 hnd).2.1)).1
    · exact fun hm => (List.nodup_append.1 hnd).2.2 hm (List.mem_cons_self _ _)
  have hncnd : (if l.ptr = none then r else l).addrs.Nodup := by
    simp only [Shape.addrs_node] at hnd
    split_ifs
    · exact ((List.nodup_cons.1 (List.nodup_append.1 hnd).2.1)).2
    · exact (List.nodup_append.1 hnd).1
  have hcond : l.ptr = none ∨ r.ptr = none := by
    rcases hone with h0 | h0
    · exact Or.inl (by rw [h0]; rfl)
    · exact Or.inr (by rw [h0]; rfl)
  have hnew : (if l.ptr = none then r.ptr else l.ptr) = (if l.ptr = none then r else l).ptr := by
    split_ifs <;> rfl
  simp only [Shape.addrs_node] at hq
  have hqa : q ≠ a := fun he => hq (by simp [he])
  have haq : a ≠ q := fun he => hqa he.symm
  generalize (if l.ptr = none then r else l) = nc at hnc hncsub hnca hncnd hnew ⊢
  have hqnc : q ∉ nc.addrs := fun hm => hq (hncsub q hm)
  refine ⟨⟨fun b => if b = a then none
      else if nc.ptr = some b then (h.cells b).map (fun c => { c with parent := some q })
      else if b = q then some (if cq.left = some a then { cq with left := nc.ptr }
        else { cq with right := nc.ptr })
      else h.cells b, h.next⟩, ?_, ?_, ?_, rfl, ?_⟩
  · cases nc with
    | nil =>
      simp only [Shape.ptr_nil] at hnew
      by_cases hside : cq.left = some a
      · simp [erase_found, Heap.load, Heap.modify, Heap.store, Heap.free, hca, hcond, hnew, hcq,
          hside, haq, hqa]
      · simp [erase_found, Heap.load, Heap.modify, Heap.store, Heap.free, hca, hcond, hnew, hcq,
          hside, haq, hqa]
    | node nl na nx nr =>
      simp only [Shape.ptr_node] at hnew
      obtain ⟨hcn, -, -⟩ := hnc
      have hnaq : na ≠ q := fun he => hqnc (by simp [← he])
      have hnaa : na ≠ a := fun he => hnca (by simp [← he])
      by_cases hside : cq.left = some a
      · simp [erase_found, Heap.load, Heap.modify, Heap.store, Heap.free, hca, hcond, hnew, hcq,
          hside, haq, hqa, hcn, hnaq, hnaa, Ne.symm hnaa]
        funext b
        by_cases hb1 : b = a
        · simp [hb1]
        · by_cases hb2 : b = na
          · subst hb2; simp [hb1, hcn]
          · have hb2' : ¬ na = b := fun he => hb2 he.symm
            by_cases hb3 : b = q
            · subst hb3; simp [hb1, hb2, hb2']
            · simp [hb1, hb2, hb2', hb3]
      · simp [erase_found, Heap.load, Heap.modify, Heap.store, Heap.free, hca, hcond, hnew, hcq,
          hside, haq, hqa, hcn, hnaq, hnaa, Ne.symm hnaa]
        funext b
        by_cases hb1 : b = a
        · simp [hb1]
        · by_cases hb2 : b = na
          · subst hb2; simp [hb1, hcn]
          · have hb2' : ¬ na = b := fun he => hb2 he.symm
            by_cases hb3 : b = q
            · subst hb3; simp [hb1, hb2, hb2']
            · simp [hb1, hb2, hb2', hb3]
  · cases nc with
    | nil => trivial
    | node nl na nx nr =>
      obtain ⟨hcn, hnl, hnr⟩ := hnc
      simp only [Shape.addrs_node] at hncnd hnca hqnc
      have hnaa : na ≠ a := fun he => hnca (by simp [← he])
      have hna_l : na ∉ nl.addrs := fun hm =>
        (List.nodup_append.1 hncnd).2.2 hm (List.mem_cons_self _ _)
      have hna_r : na ∉ nr.addrs := ((List.nodup_cons.1 (List.nodup_append.1 hncnd).2.1)).1
      refine ⟨by simp [hnaa, hcn], hnl.frame ?_, hnr.frame ?_⟩
      · intro b hb
        have h1 : b ≠ a := fun he => hnca (by simp [← he, hb])
        have h2 : ¬ na = b := fun he => hna_l (he ▸ hb)
        have h3 : b ≠ q := fun he => hqnc (by simp [← he, hb])
        simp [h1, h2, h3]
      · intro b hb
        have h1 : b ≠ a := fun he => hnca (by simp [← he, hb])
        have h2 : ¬ na = b := fun he => hna_r (he ▸ hb)
        have h3 : b ≠ q := fun he => hqnc (by simp [← he, hb])
        simp [h1, h2, h3]
  · have h2 : nc.ptr ≠ some q := fun hp => hqnc (Shape.ptr_mem hp)
    simp [hqa, h2]
  · intro b hb hbq
    simp only [Shape.addrs_node] at hb
    have h1 : b ≠ a := fun he => hb (by simp [he])
    have h2 : nc.ptr ≠ some b := fun hp => hb (hncsub b (Shape.ptr_mem hp))
    simp [h1, h2, hbq]

/-- `erase_found` on the root when it has a null left or right link and another child. -/
theorem erase_found_one_root {h : Heap T} (t : BinarySearchTree)
    {l r : Shape T} {a : Nat} {x : T}
    (hrep : Rep h (.node l a x r) none) (hnd : (Shape.node l a x r).addrs.Nodup)
    (hone : l = .nil ∨ r = .nil) (hne : (Shape.node l a x r).eraseAt ≠ .nil) :
    ∃ h', erase_found h t (some a) none =
        .ok (h', { t with root := (Shape.node l a x r).eraseAt.ptr }) ∧
      Rep h' (Shape.node l a x r).eraseAt none ∧ h'.next = h.next ∧
      ∀ b, b ∉ (Shape.node l a x r).addrs → h'.cells b = h.cells b := by
  rw [Shape.eraseAt_one a x hone] at hne ⊢
  obtain ⟨hca, hrl, hrr⟩ := hrep
  have hnc : Rep h (if l.ptr = none then r else l) (some a) := by
    split_ifs
    · exact hrr
    · exact hrl
  have hncsub : ∀ b ∈ (if l.ptr = none then r else l).addrs, b ∈ l.addrs ++ a :: r.addrs := by
    intro b hb
    split_ifs at hb
    · exact List.mem_append.2 (Or.inr (List.mem_cons_of_mem _ hb))
    · exact List.mem_append.2 (Or.inl hb)
  have hnca : a ∉ (if l.ptr = none then r else l).addrs := by
    simp only [Shape.addrs_node] at hnd
    split_ifs
    · exact ((List.nodup_cons.1 (List.nodup_append.1 hnd).2.1)).1
    · exact fun hm => (List.nodup_append.1 hnd).2.2 hm (List.mem_cons_self _ _)
  have hncnd : (if l.ptr = none then r else l).addrs.Nodup := by
    simp only [Shape.addrs_node] at hnd
    split_ifs
    · exact ((List.nodup_cons.1 (List.nodup_append.1 hnd).2.1)).2
    · exact (List.nodup_append.1 hnd).1
  have hcond : l.ptr = none ∨ r.ptr = none := by
    rcases hone with h0 | h0
    · exact Or.inl (by rw [h0]; rfl)
    · exact Or.inr (by rw [h0]; rfl)
  have hnew : (if l.ptr = none then r.ptr else l.ptr) = (if l.ptr = none then r else l).ptr := by
    split_ifs <;> rfl
  generalize (if l.ptr = none then r else l) = nc at hnc hncsub hnca hncnd hnew hne ⊢
  cases nc with
  | nil => exact absurd rfl hne
  | node nl na nx nr =>
    simp only [Shape.ptr_node] at hnew
    obtain ⟨hcn, hnl, hnr⟩ := hnc
    simp only [Shape.addrs_node] at hncnd hnca
    have hnaa : na ≠ a := fun he => hnca (by simp [← he])
    have hna_l : na ∉ nl.addrs := fun hm =>
      (List.nodup_append.1 hncnd).2.2 hm (List.mem_cons_self _ _)
    have hna_r : na ∉ nr.addrs := ((List.nodup_cons.1 (List.nodup_append.1 hncnd).2.1)).1
    refine ⟨⟨fun b => if b = a then none
        else if b = na then some ⟨nx, nl.ptr, nr.ptr, none⟩
        else h.cells b, h.next⟩, ?_, ⟨?_, hnl.frame ?_, hnr.frame ?_⟩, rfl, ?_⟩
    · simp [erase_found, Heap.load, Heap.modify, Heap.store, Heap.free, hca, hcond, hnew, hcn,
        hnaa, Ne.symm hnaa]
    · simp [hnaa]
    · intro b hb
      have h1 : b ≠ a := fun he => hnca (by simp [← he, hb])
      have h2 : b ≠ na := fun he => hna_l (he ▸ hb)
      simp [h1, h2]
    · intro b hb
      have h1 : b ≠ a := fun he => hnca (by simp [← he, hb])
      have h2 : b ≠ na := fun he => hna_r (he ▸ hb)
      simp [h1, h2]
    · intro b hb
      simp only [Shape.addrs_node] at hb
      have h1 : b ≠ a := fun he => hb (by simp [he])
      have h2 : b ≠ na := fun he => hb (hncsub b (by simp [he]))
      simp [h1, h2]

theorem TreeNode.relink_eq (cq : TreeNode T) (p : Option Nat)
    (hside : cq.left = p ∨ cq.right = p) :
    (if cq.left = p then { cq with left := p } else { cq with right := p }) = cq := by
  cases cq with
  | mk d l r par =>
    simp only at hside
    split_ifs with h1
    · simp [← h1]
    · rcases hside with h2 | h2
      · exact absurd h2 h1
      · simp [← h2]

/-- `erase_found` on a node that is not the root. -/
theorem erase_found_sub {h : Heap T} (t : BinarySearchTree)
    {l r : Shape T} {a : Nat} {x : T} {q : Nat} {cq : TreeNode T}
    (hrep : Rep h (.node l a x r) (some q)) (hnd : (Shape.node l a x r).addrs.Nodup)
    (hq : q ∉ (Shape.node l a x r).addrs) (hcq : h.cells q = some cq)
    (hside : cq.left = some a ∨ cq.right = some a)
    (hlen : (Shape.node l a x r).addrs.length ≤ h.next) :
    ∃ h', erase_found h t (some a) (some q) = .ok (h', t) ∧
      Rep h' (Shape.node l a x r).eraseAt (some q) ∧
      h'.cells q = some (if cq.left = some a
        then { cq with left := (Shape.node l a x r).eraseAt.ptr }
        else { cq with right := (Shape.node l a x r).eraseAt.ptr }) ∧
      h'.next = h.next ∧
      ∀ b, b ∉ (Shape.node l a x r).addrs → b ≠ q → h'.cells b = h.cells b := by
  by_cases hone : l = .nil ∨ r = .nil
  · exact erase_found_one_sub t hrep hnd hq hcq hone
  · simp only [not_or] at hone
    obtain ⟨h', hrun, hrep', hnext, hframe⟩ :=
      erase_found_two t (some q) hrep hnd hlen hone.1 hone.2
    rw [Shape.eraseAt_two a x hone.1 hone.2]
    refine ⟨h', hrun, hrep', ?_, hnext, fun b hb _ => hframe b hb⟩
    rw [hframe q hq, hcq, Shape.ptr_node, TreeNode.relink_eq cq (some a) hside]

theorem Shape.erase_node (lt : T → T → Bool) (v : T) (l r : Shape T) (a : Nat) (x : T) :
    (Shape.node l a x r).erase lt v =
      if lt x v then .node l a x (r.erase lt v)
      else if lt v x then .node (l.erase lt v) a x r
      else (Shape.node l a x r).eraseAt := rfl

theorem erase_eq_bind (lt : T → T → Bool) (h : Heap T) (t : BinarySearchTree) (v : T) :
    erase lt h t v = (erase_find lt v h.fuel h t.root none >>= fun p =>
      if p.1 = none then Res.ok (h, t) else erase_found h t p.1 p.2) := by
  rfl

theorem erase_find_succ (lt : T → T → Bool) (v : T) (fuel : Nat) (h : Heap T) (a : Nat)
    (p2 : Option Nat) (c : TreeNode T) (hc : h.cells a = some c) :
    erase_find lt v (fuel + 1) h (some a) p2 =
      if lt c.data v then erase_find lt v fuel h c.right (some a)
      else if lt v c.data then erase_find lt v fuel h c.left (some a)
      else .ok (some a, p2) := by
  simp [erase_find, Heap.load, hc]

/-- The search loop of `erase` below a node `q`, followed by the removal: the heap then
represents the subtree with the element erased, and `q` links to it. -/
theorem erase_sub (lt : T → T → Bool) (v : T) {h : Heap T} (t : BinarySearchTree) :
    ∀ (S : Shape T) (q : Nat) (cq : TreeNode T) (fuel : Nat),
      Rep h S (some q) → S.addrs.Nodup → q ∉ S.addrs → h.cells q = some cq →
      (cq.left = S.ptr ∨ cq.right = S.ptr) → S.addrs.length < fuel → S.addrs.length ≤ h.next →
      ∃ h', (erase_find lt v fuel h S.ptr (some q) >>= fun p =>
          if p.1 = none then Res.ok (h, t) else erase_found h t p.1 p.2) = .ok (h', t) ∧
        Rep h' (S.erase lt v) (some q) ∧
        h'.cells q = some (if cq.left = S.ptr then { cq with left := (S.erase lt v).ptr }
          else { cq with right := (S.erase lt v).ptr }) ∧
        h'.next = h.next ∧ ∀ b, b ∉ S.addrs → b ≠ q → h'.cells b = h.cells b := by
  intro S
  induction S with
  | nil =>
    intro q cq fuel _ _ _ hcq hside hf _
    cases fuel with
    | zero => simp at hf
    | succ fuel =>
      refine ⟨h, by simp [erase_find], trivial, ?_, rfl, fun _ _ _ => rfl⟩
      simp only [Shape.erase, Shape.ptr_nil] at hside ⊢
      rw [hcq, TreeNode.relink_eq cq none hside]
  | node l a x r ihl ihr =>
    intro q cq fuel hrep hnd hq hcq hside hf hlen
    have hrep0 := hrep
    obtain ⟨hca, hrl, hrr⟩ := hrep
    have hnd0 := hnd
    have hq0 := hq
    have hlen0 := hlen
    simp only [Shape.addrs_node] at hnd hq hf hlen
    have hndl : l.addrs.Nodup := (List.nodup_append.1 hnd).1
    have hndr : r.addrs.Nodup := ((List.nodup_cons.1 (List.nodup_append.1 hnd).2.1)).2
    have har : a ∉ r.addrs := ((List.nodup_cons.1 (List.nodup_append.1 hnd).2.1)).1
    have hal : a ∉ l.addrs := fun hm =>
      (List.nodup_append.1 hnd).2.2 hm (List.mem_cons_self _ _)
    have hdisj : ∀ b, b ∈ l.addrs → b ∉ r.addrs := fun b hb hb' =>
      (List.nodup_append.1 hnd).2.2 hb (List.mem_cons_of_mem _ hb')
    simp only [List.mem_append, List.mem_cons, not_or] at hq
    simp only [List.length_append, List.length_cons] at hf hlen
    simp only [Shape.ptr_node] at hside ⊢
    cases fuel with
    | zero => simp at hf
    | succ fuel =>
      rw [erase_find_succ lt v fuel h a (some q) _ hca, Shape.erase_node]
      simp only
      by_cases h1 : lt x v = true
      · rw [if_pos h1, if_pos h1]
        obtain ⟨h', hrun, hrep', hcell, hnext, hframe⟩ :=
          ihr a _ fuel hrr hndr har hca (Or.inr rfl) (by omega) (by omega)
        refine ⟨h', hrun, ⟨?_, hrl.frame ?_, hrep'⟩, ?_, hnext, ?_⟩
        · rw [hcell]
          by_cases hlr : l.ptr = r.ptr
          · have hln : l = .nil := by
              cases l with
              | nil => rfl
              | node ll la lx lr =>
                exact absurd (Shape.ptr_mem hlr.symm) (hdisj la (by simp))
            have hrn : r = .nil := by
              rw [hln] at hlr
              exact Shape.ptr_eq_none.1 hlr.symm
            subst hln hrn
            simp [Shape.erase]
          · simp [hlr]
        · intro b hb
          exact hframe b (hdisj b hb) (fun he => hal (he ▸ hb))
        · rw [hframe q hq.2.2 hq.2.1, hcq]
          simp only [Shape.ptr_node]
          rw [TreeNode.relink_eq cq (some a) hside]
        · intro b hb hbq
          simp only [Shape.addrs_node, List.mem_append, List.mem_cons, not_or] at hb
          exact hframe b hb.2.2 hb.2.1
      · rw [if_neg h1, if_neg h1]
        by_cases h2 : lt v x = true
        · rw [if_pos h2, if_pos h2]
          obtain ⟨h', hrun, hrep', hcell, hnext, hframe⟩ :=
            ihl a _ fuel hrl hndl hal hca (Or.inl rfl) (by omega) (by omega)
          refine ⟨h', hrun, ⟨?_, hrep', hrr.frame ?_⟩, ?_, hnext, ?_⟩
          · rw [hcell]
            simp
          · intro b hb
            exact hframe b (fun hm => hdisj b hm hb) (fun he => har (he ▸ hb))
          · rw [hframe q hq.1 hq.2.1, hcq]
            simp only [Shape.ptr_node]
            rw [TreeNode.relink_eq cq (some a) hside]
          · intro b hb hbq
            simp only [Shape.addrs_node, List.mem_append, List.mem_cons, not_or] at hb
            exact hframe b hb.1 hb.2.1
        · rw [if_neg h2, if_neg h2]
          simp only [Res.ok_bind, reduceCtorEq, if_false]
          exact erase_found_sub t hrep0 hnd0 hq0 hcq hside hlen0

/-- `erase` on a represented tree, when the result is not the empty tree. -/
theorem erase_rep (lt : T → T → Bool) (v : T) {h : Heap T} {t : BinarySearchTree}
    {S : Shape T} (hroot : t.root = S.ptr) (hrep : Rep h S none) (hnd : S.addrs.Nodup)
    (hlen : S.addrs.length ≤ h.next) (hne : S.erase lt v ≠ .nil) :
    ∃ h', erase lt h t v = .ok (h', { t with root := (S.erase lt v).ptr }) ∧
      Rep h' (S.erase lt v) none ∧ h'.next = h.next ∧
      ∀ b, b ∉ S.addrs → h'.cells b = h.cells b := by
  cases S with
  | nil => exact absurd rfl hne
  | node l a x r =>
    have hrep0 := hrep
    obtain ⟨hca, hrl, hrr⟩ := hrep
    have hnd0 := hnd
    have hlen0 := hlen
    simp only [Shape.addrs_node] at hnd hlen
    have hndl : l.addrs.Nodup := (List.nodup_append.1 hnd).1
    have hndr : r.addrs.Nodup := ((List.nodup_cons.1 (List.nodup_append.1 hnd).2.1)).2
    have har : a ∉ r.addrs := ((List.nodup_cons.1 (List.nodup_append.1 hnd).2.1)).1
    have hal : a ∉ l.addrs := fun hm =>
      (List.nodup_append.1 hnd).2.2 hm (List.mem_cons_self _ _)
    have hdisj : ∀ b, b ∈ l.addrs → b ∉ r.addrs := fun b hb hb' =>
      (List.nodup_append.1 hnd).2.2 hb (List.mem_cons_of_mem _ hb')
    simp only [List.length_append, List.length_cons] at hlen
    have ht : ({ t with root := some a } : BinarySearchTree) = t := by
      cases t
      simp only [Shape.ptr_node] at hroot
      simp [hroot]
    rw [erase_eq_bind, hroot, Shape.ptr_node, Heap.fuel,
      erase_find_succ lt v h.next h a none _ hca]
    rw [Shape.erase_node] at hne ⊢
    simp only
    by_cases h1 : lt x v = true
    · rw [if_pos h1, if_pos h1, Shape.ptr_node, ht]
      obtain ⟨h', hrun, hrep', hcell, hnext, hframe⟩ :=
        erase_sub lt v t r a _ h.next hrr hndr har hca (Or.inr rfl) (by omega) (by omega)
      refine ⟨h', hrun, ⟨?_, hrl.frame ?_, hrep'⟩, hnext, ?_⟩
      · rw [hcell]
        by_cases hlr : l.ptr = r.ptr
        · have hln : l = .nil := by
            cases l with
            | nil => rfl
            | node ll la lx lr =>
              exact absurd (Shape.ptr_mem hlr.symm) (hdisj la (by simp))
          have hrn : r = .nil := by
            rw [hln] at hlr
            exact Shape.ptr_eq_none.1 hlr.symm
          subst hln hrn
          simp [Shape.erase]
        · simp [hlr]
      · intro b hb
        exact hframe b (hdisj b hb) (fun he => hal (he ▸ hb))
      · intro b hb
        simp only [Shape.addrs_node, List.mem_append, List.mem_cons, not_or] at hb
        exact hframe b hb.2.2 hb.2.1
    · rw [if_neg h1] at hne
      rw [if_neg h1, if_neg h1]
      by_cases h2 : lt v x = true
      · rw [if_pos h2, if_pos h2, Shape.ptr_node, ht]
        obtain ⟨h', hrun, hrep', hcell, hnext, hframe⟩ :=
          erase_sub lt v t l a _ h.next hrl hndl hal hca (Or.inl rfl) (by omega) (by omega)
        refine ⟨h', hrun, ⟨?_, hrep', hrr.frame ?_⟩, hnext, ?_⟩
        · rw [hcell]
          simp
        · intro b hb
          exact hframe b (fun hm => hdisj b hm hb) (fun he => har (he ▸ hb))
        · intro b hb
          simp only [Shape.addrs_node, List.mem_append, List.mem_cons, not_or] at hb
          exact hframe b hb.1 hb.2.1
      · rw [if_neg h2] at hne
        rw [if_neg h2, if_neg h2]
        simp only [Res.ok_bind, reduceCtorEq, if_false]
        by_cases hone : l = .nil ∨ r = .nil
        · exact erase_found_one_root t hrep0 hnd0 hone hne
        · simp only [not_or] at hone
          obtain ⟨h', hrun, hrep', hnext, hframe⟩ :=
            erase_found_two t none hrep0 hnd0 hlen0 hone.1 hone.2
          rw [Shape.eraseAt_two a x hone.1 hone.2, Shape.ptr_node, ht]
          exact ⟨h', hrun, hrep', hnext, hframe⟩

/-! ## Erasure on trees -/

theorem Shape.removeMax_addrs_sublist (s : Shape T) : s.removeMax.addrs.Sublist s.addrs := by
  induction s with
  | nil => exact List.Sublist.refl _
  | node l a x r _ ihr =>
    simp only [Shape.removeMax]
    split_ifs
    · simp only [Shape.addrs_node]
      exact List.sublist_append_left _ _
    · simp only [Shape.addrs_node]
      exact List.Sublist.append (List.Sublist.refl _) (List.Sublist.cons₂ a ihr)

theorem Shape.eraseAt_addrs_sublist (s : Shape T) : s.eraseAt.addrs.Sublist s.addrs := by
  cases s with
  | nil => exact List.Sublist.refl _
  | node l a x r =>
    simp only [Shape.eraseAt]
    split_ifs
    · simp only [Shape.addrs_node]
      exact (List.sublist_cons_self a _).trans (List.sublist_append_right _ _)
    · simp only [Shape.addrs_node]
      exact List.sublist_append_left _ _
    · simp only [Shape.addrs_node]
      exact List.Sublist.append (Shape.removeMax_addrs_sublist l) (List.Sublist.refl _)

theorem Shape.erase_addrs_sublist (lt : T → T → Bool) (v : T) (s : Shape T) :
    (s.erase lt v).addrs.Sublist s.addrs := by
  induction s with
  | nil => exact List.Sublist.refl _
  | node l a x r ihl ihr =>
    rw [Shape.erase_node]
    split_ifs
    · simp only [Shape.addrs_node]
      exact List.Sublist.append (List.Sublist.refl _) (List.Sublist.cons₂ a ihr)
    · simp only [Shape.addrs_node]
      exact List.Sublist.append ihl (List.Sublist.refl _)
    · exact Shape.eraseAt_addrs_sublist _

theorem Shape.removeMax_vals (d : T) {s : Shape T} (hs : s ≠ .nil) :
    s.removeMax.vals ++ [s.maxVal d] = s.vals := by
  induction s generalizing d with
  | nil => exact absurd rfl hs
  | node l a x r _ ihr =>
    simp only [Shape.removeMax, Shape.maxVal]
    by_cases hrp : r.ptr = none
    · have := Shape.ptr_eq_none.1 hrp
      subst this
      simp [Shape.maxVal]
    · have hrn : r ≠ .nil := fun h0 => hrp (by rw [h0]; rfl)
      rw [if_neg hrp]
      simp only [Shape.vals_node, List.append_assoc, List.cons_append]
      rw [ihr x hrn]

theorem Shape.eraseAt_two_vals {l r : Shape T} (a : Nat) (x : T) (hl : l ≠ .nil)
    (hr : r ≠ .nil) : (Shape.node l a x r).eraseAt.vals = l.vals ++ r.vals := by
  rw [Shape.eraseAt_two a x hl hr, Shape.vals_node, ← Shape.removeMax_vals x hl]
  simp

theorem getLast?_append_cons_of_getLast? (L R : List Nat) (a e : Nat)
    (h : R.getLast? = some e) : (L ++ a :: R).getLast? = some e := by
  obtain ⟨ys, rfl⟩ := List.getLast?_eq_some_iff.1 h
  have : L ++ a :: (ys ++ [e]) = (L ++ a :: ys) ++ [e] := by simp
  rw [this, List.getLast?_concat]

section Erase

variable [DecidableEq T]

/-- Off the right spine: erasing a stored value from an ordered tree removes that value
from the in-order sequence. -/
theorem Shape.erase_vals_plain (lt : T → T → Bool) (hirr : ∀ a, lt a a = false)
    (htr : ∀ a b c, lt a b = true → lt b c = true → lt a c = true) (v : T) :
    ∀ bt : Shape T, Ordered lt bt → v ∈ bt.vals → (bt.erase lt v).vals = bt.vals.erase v := by
  intro bt
  induction bt with
  | nil => intro _ hv; simp at hv
  | node l a x r ihl ihr =>
    rintro ⟨ho1, ho2, hol, hor⟩ hv
    simp only [Shape.vals_node, List.mem_append, List.mem_cons] at hv
    have hxl : x ∉ l.vals := fun hm => by
      have := ho1 x hm
      rw [hirr x] at this
      exact absurd this (by simp)
    rw [Shape.erase_node]
    by_cases h1 : lt x v = true
    · have hvl : v ∉ l.vals := fun hm => by
        have := htr x v x h1 (ho1 v hm)
        rw [hirr x] at this
        exact absurd this (by simp)
      have hvx : v ≠ x := fun he => by
        rw [he, hirr x] at h1
        exact absurd h1 (by simp)
      have hvr : v ∈ r.vals := by
        rcases hv with h | h | h
        · exact absurd h hvl
        · exact absurd h hvx
        · exact h
      rw [if_pos h1, Shape.vals_node, ihr hor hvr, Shape.vals_node,
        List.erase_append_right _ hvl, List.erase_cons_tail (by simpa using Ne.symm hvx)]
    · rw [if_neg h1]
      by_cases h2 : lt v x = true
      · have hvx : v ≠ x := fun he => by
          rw [he, hirr x] at h2
          exact absurd h2 (by simp)
        have hvl : v ∈ l.vals := by
          rcases hv with h | h | h
          · exact h
          · exact absurd h hvx
          · exact absurd (ho2 v h) h1
        rw [if_pos h2, Shape.vals_node, ihl hol hvl, Shape.vals_node,
          List.erase_append_left _ hvl]
      · rw [if_neg h2]
        have hvx : v = x := by
          rcases hv with h | h | h
          · exact absurd (ho1 v h) h2
          · exact h
          · exact absurd (ho2 v h) h1
        subst hvx
        rw [Shape.vals_node, List.erase_append_right _ hxl, List.erase_cons_head]
        by_cases hone : l = .nil ∨ r = .nil
        · rw [Shape.eraseAt_one a v hone]
          rcases hone with h0 | h0
          · subst h0
            simp
          · subst h0
            by_cases hlp : l.ptr = none
            · rw [if_pos hlp, Shape.ptr_eq_none.1 hlp]
              simp
            · rw [if_neg hlp]
              simp
        · simp only [not_or] at hone
          exact Shape.eraseAt_two_vals a v hone.1 hone.2

/-- On the right spine, with the end node below the rightmost element: erasing a stored
value from an ordered tree removes that value from the in-order sequence and leaves the
end node last. -/
theorem Shape.erase_vals_attach (lt : T → T → Bool) (hirr : ∀ a, lt a a = false)
    (htr : ∀ a b c, lt a b = true → lt b c = true → lt a c = true) (v : T) (e : Nat) (m : T) :
    ∀ bt : Shape T, Ordered lt bt → v ∈ bt.vals →
      ((bt.attach e m).erase lt v).vals = bt.vals.erase v ++ [m] ∧
        ((bt.attach e m).erase lt v).addrs.getLast? = some e := by
  intro bt
  induction bt with
  | nil => intro _ hv; simp at hv
  | node l a x r _ ihr =>
    rintro ⟨ho1, ho2, hol, hor⟩ hv
    simp only [Shape.vals_node, List.mem_append, List.mem_cons] at hv
    have hxl : x ∉ l.vals := fun hm => by
      have := ho1 x hm
      rw [hirr x] at this
      exact absurd this (by simp)
    simp only [Shape.attach]
    rw [Shape.erase_node]
    by_cases h1 : lt x v = true
    · have hvl : v ∉ l.vals := fun hm => by
        have := htr x v x h1 (ho1 v hm)
        rw [hirr x] at this
        exact absurd this (by simp)
      have hvx : v ≠ x := fun he => by
        rw [he, hirr x] at h1
        exact absurd h1 (by simp)
      have hvr : v ∈ r.vals := by
        rcases hv with h | h | h
        · exact absurd h hvl
        · exact absurd h hvx
        · exact h
      obtain ⟨ih1, ih2⟩ := ihr hor hvr
      rw [if_pos h1, Shape.vals_node, ih1, Shape.vals_node, List.erase_append_right _ hvl,
        List.erase_cons_tail (by simpa using Ne.symm hvx), Shape.addrs_node]
      exact ⟨by simp, getLast?_append_cons_of_getLast? _ _ a e ih2⟩
    · rw [if_neg h1]
      by_cases h2 : lt v x = true
      · have hvx : v ≠ x := fun he => by
          rw [he, hirr x] at h2
          exact absurd h2 (by simp)
        have hvl : v ∈ l.vals := by
          rcases hv with h | h | h
          · exact h
          · exact absurd h hvx
          · exact absurd (ho2 v h) h1
        rw [if_pos h2, Shape.vals_node, Shape.erase_vals_plain lt hirr htr v l hol hvl,
          Shape.vals_node, List.erase_append_left _ hvl, Shape.addrs_node]
        exact ⟨by simp, getLast?_append_cons_of_getLast? _ _ a e (by simp)⟩
      · rw [if_neg h2]
        have hvx : v = x := by
          rcases hv with h | h | h
          · exact absurd (ho1 v h) h2
          · exact h
          · exact absurd (ho2 v h) h1
        subst hvx
        rw [Shape.vals_node, List.erase_append_right _ hxl, List.erase_cons_head]
        by_cases hl : l = .nil
        · subst hl
          rw [Shape.eraseAt_one a v (Or.inl rfl)]
          simp
        · rw [Shape.eraseAt_two_vals a v hl (Shape.attach_ne_nil e m r),
            Shape.eraseAt_two a v hl (Shape.attach_ne_nil e m r), Shape.addrs_node]
          exact ⟨by simp, getLast?_append_cons_of_getLast? _ _ a e (by simp)⟩

end Erase

/-! ## Member functions on a null `root` -/

/-- The loop of `smallest`/`begin` started at a null pointer reads through it. -/
theorem leftmost_null (h : Heap T) : leftmost h.fuel h none = .fault .nullDeref := rfl

/-- The loop of `largest` started at a null pointer reads through it. -/
theorem rightmost_null (h : Heap T) : rightmost h.fuel h none = .fault .nullDeref := rfl

/-! ## The destructor -/

theorem Shape.postorder_perm (s : Shape T) : s.postorder.Perm s.addrs := by
  induction s with
  | nil => exact List.Perm.refl _
  | node l a x r ihl ihr =>
    simp only [Shape.postorder, Shape.addrs_node, List.append_assoc]
    refine ihl.append ?_
    have h1 : (r.postorder ++ [a]).Perm (a :: r.postorder) := by
      exact List.perm_append_comm
    exact h1.trans (ihr.cons a)

theorem destroy_succ (fuel : Nat) (h : Heap T) (a : Nat) :
    destroy (fuel + 1) h (some a) = (do
      let c ← h.load (some a)
      let (h, deleted_left) ← destroy fuel h c.left
      let h ← h.modify (some a) (fun m => { m with left := none })
      let c ← h.load (some a)
      let (h, deleted_right) ← destroy fuel h c.right
      let h ← h.modify (some a) (fun m => { m with right := none })
      let h ← h.free (some a)
      pure (h, deleted_left ++ deleted_right ++ [a])) := by
  simp [destroy]

theorem destroy_null (fuel : Nat) (h : Heap T) : destroy (fuel + 1) h none = .ok (h, []) := by
  simp [destroy]

/-- `destroy` on a represented tree returns, deletes its nodes in post-order, leaves each
of its cells freed and every other cell as it was. -/
theorem destroy_rep : ∀ (s : Shape T) (h : Heap T) (par : Option Nat) (fuel : Nat),
    Rep h s par → s.addrs.Nodup → s.addrs.length < fuel →
    ∃ h', destroy fuel h s.ptr = .ok (h', s.postorder) ∧ h'.next = h.next ∧
      (∀ a ∈ s.addrs, h'.cells a = none) ∧ (∀ a, a ∉ s.addrs → h'.cells a = h.cells a) := by
  intro s
  induction s with
  | nil =>
    intro h par fuel _ _ hf
    cases fuel with
    | zero => simp at hf
    | succ fuel => exact ⟨h, destroy_null fuel h, rfl, by simp, fun _ _ => rfl⟩
  | node l a x r ihl ihr =>
    intro h par fuel hr hnd hf
    cases fuel with
    | zero => simp at hf
    | succ fuel =>
      obtain ⟨hc, hl, hrr⟩ := hr
      rw [Shape.addrs_node] at hnd hf
      have hndl := (List.nodup_append.1 hnd).1
      have hndr := (List.nodup_cons.1 (List.nodup_append.1 hnd).2.1).2
      have hal : a ∉ l.addrs := fun hm =>
        (List.nodup_append.1 hnd).2.2 hm (List.mem_cons_self _ _)
      have har : a ∉ r.addrs := (List.nodup_cons.1 (List.nodup_append.1 hnd).2.1).1
      have hlr : ∀ b ∈ r.addrs, b ∉ l.addrs := fun b hb hm =>
        (List.nodup_append.1 hnd).2.2 hm (List.mem_cons_of_mem _ hb)
      simp only [List.length_append, List.length_cons] at hf
      obtain ⟨h1, hd1, hn1, hfree1, hframe1⟩ := ihl h (some a) fuel hl hndl (by omega)
      have hc1 : h1.cells a = some ⟨x, l.ptr, r.ptr, par⟩ := by rw [hframe1 a hal]; exact hc
      obtain ⟨h2, hh2⟩ : ∃ h2 : Heap T, h2 = h1.store a ⟨x, none, r.ptr, par⟩ := ⟨_, rfl⟩
      have hc2 : h2.cells a = some ⟨x, none, r.ptr, par⟩ := by simp [hh2, Heap.store]
      have hf2 : ∀ b, b ≠ a → h2.cells b = h1.cells b := by
        intro b hb; simp [hh2, Heap.store, hb]
      have hr2 : Rep h2 r (some a) := by
        refine hrr.frame ?_
        intro b hb
        have hba : b ≠ a := fun he => har (he ▸ hb)
        rw [hf2 b hba]
        exact hframe1 b (hlr b hb)
      obtain ⟨h3, hd3, hn3, hfree3, hframe3⟩ := ihr h2 (some a) fuel hr2 hndr (by omega)
      have hc3 : h3.cells a = some ⟨x, none, r.ptr, par⟩ := by
        rw [hframe3 a har]; exact hc2
      refine ⟨⟨fun b => if b = a then none else
          (h3.store a ⟨x, none, none, par⟩).cells b, h3.next⟩, ?_, ?_, ?_, ?_⟩
      · rw [Shape.ptr_node, destroy_succ]
        simp only [Heap.load, hc, Res.ok_bind, hd1, Heap.modify, hc1]
        rw [← hh2]
        simp only [hc2, hd3, Res.ok_bind, Heap.modify, hc3, Heap.free, Heap.store, if_true,
          Res.pure_eq, Shape.postorder]
      · show h3.next = h.next
        rw [hn3, hh2]; exact hn1
      · intro b hb
        simp only [Shape.addrs_node, List.mem_append, List.mem_cons] at hb
        show (if b = a then none else
          (h3.store a ⟨x, none, none, par⟩).cells b) = none
        by_cases hba : b = a
        · rw [if_pos hba]
        · rw [if_neg hba]
          simp only [Heap.store, hba, if_false]
          rcases hb with hb | hb | hb
          · have hbr : b ∉ r.addrs := fun hm => hlr b hm hb
            rw [hframe3 b hbr, hf2 b hba]
            exact hfree1 b hb
          · exact absurd hb hba
          · exact hfree3 b hb
      · intro b hb
        simp only [Shape.addrs_node, List.mem_append, List.mem_cons, not_or] at hb
        obtain ⟨hbl, hba, hbr⟩ := hb
        show (if b = a then none else
          (h3.store a ⟨x, none, none, par⟩).cells b) = h.cells b
        rw [if_neg hba]
        simp only [Heap.store, hba, if_false]
        rw [hframe3 b hbr, hf2 b hba]
        exact hframe1 b hbl
/-- A run of inserts that all return leaves a modelled tree. -/
theorem insertAll_models (isless : T → T → Bool) :
    ∀ (vs : List T) (h h' : Heap T) (t t' : BinarySearchTree) (bt : Shape T),
      Model h t bt → insertAll isless h t vs = .ok (h', t') →
      ∃ bt', Model h' t' bt' ∧ (bt ≠ .nil ∨ vs ≠ [] → bt' ≠ .nil) := by
  intro vs
  induction vs with
  | nil =>
    intro h h' t t' bt hm hrun
    simp only [insertAll, Res.ok.injEq, Prod.mk.injEq] at hrun
    obtain ⟨rfl, rfl⟩ := hrun
    exact ⟨bt, hm, by simp⟩
  | cons v vs ih =>
    intro h h' t t' bt hm hrun
    simp only [insertAll] at hrun
    cases hins : insert isless h t v with
    | fault f => simp [hins] at hrun
    | ok p =>
      obtain ⟨h1, t1⟩ := p
      simp only [hins, Res.ok_bind] at hrun
      obtain ⟨bt', hm', hne⟩ := ih h1 h' t1 t' _ (insert_model isless v hm hins) hrun
      exact ⟨bt', hm', fun _ => hne (Or.inl (Shape.bins_ne_nil _ _ _ _))⟩

/-! ## General facts about represented trees -/

theorem Res.bind_eq_ok {α β : Type} {x : Res α} {f : α → Res β} {b : β} :
    (x >>= f) = .ok b ↔ ∃ a, x = .ok a ∧ f a = .ok b := by
  cases x with
  | ok a => simp
  | fault e => simp

/-- A heap represents at most one tree from a given pointer. -/
theorem Rep.unique {h : Heap T} :
    ∀ (s s' : Shape T) (par par' : Option Nat), Rep h s par → Rep h s' par' →
      s.ptr = s'.ptr → s = s' := by
  intro s
  induction s with
  | nil =>
    intro s' _ _ _ _ hp
    exact (Shape.ptr_eq_none.1 hp.symm).symm
  | node l a x r ihl ihr =>
    intro s' par par' hr hr' hp
    cases s' with
    | nil => simp at hp
    | node l' a' x' r' =>
      simp only [Shape.ptr_node, Option.some.injEq] at hp
      subst hp
      obtain ⟨hc, hl, hrr⟩ := hr
      obtain ⟨hc', hl', hrr'⟩ := hr'
      rw [hc] at hc'
      simp only [Option.some.injEq, TreeNode.mk.injEq] at hc'
      obtain ⟨hx, hlp, hrp, -⟩ := hc'
      rw [ihl l' _ _ hl hl' hlp, ihr r' _ _ hrr hrr' hrp, hx]

/-- `insert` on a non-empty represented tree is `insert_node` at the root with a fresh
node: it faults exactly when the tree-level insertion does, and otherwise the heap
represents the tree-level result. -/
theorem insert_rep (isless : T → T → Bool) (v : T) {h : Heap T} {t : BinarySearchTree}
    {S : Shape T} (hroot : t.root = S.ptr) (hrep : Rep h S none) (hnd : S.addrs.Nodup)
    (hlt : ∀ a ∈ S.addrs, a < h.next) (hS : S ≠ .nil) :
    match S.ins isless t.endNode h.next v with
    | .fault f => insert isless h t v = .fault f
    | .ok S' => ∃ h', insert isless h t v = .ok (h', t) ∧ Rep h' S' none ∧ S'.ptr = S.ptr ∧
        h'.next = h.next + 1 ∧ (∀ b, b ∉ S.addrs → b ≠ h.next → h'.cells b = h.cells b) := by
  have hrootne : t.root ≠ none := by
    rw [hroot]
    exact fun hp => hS (Shape.ptr_eq_none.1 hp)
  have hfresh : h.next ∉ S.addrs := fun hm => Nat.lt_irrefl _ (hlt _ hm)
  obtain ⟨h1, hh1⟩ : ∃ h1 : Heap T, h1 = (h.alloc ⟨v, none, none, none⟩).2 := ⟨_, rfl⟩
  have hf1 : ∀ b, b ≠ h.next → h1.cells b = h.cells b := by
    intro b hb
    simp [hh1, Heap.alloc, hb]
  have hr1 : Rep h1 S none := by
    refine hrep.frame ?_
    intro a ha
    exact hf1 a (fun he => hfresh (he ▸ ha))
  have hn1 : h1.cells h.next = some ⟨v, none, none, none⟩ := by simp [hh1, Heap.alloc]
  have hnext1 : h1.next = h.next + 1 := by simp [hh1, Heap.alloc]
  have hlen := length_le_of_nodup_of_lt hnd hlt
  have hspec := insert_node_rep isless t.endNode h.next v none hn1 S none h1.fuel
    hr1 hnd hfresh (by simp only [Heap.fuel, hnext1]; omega)
  rw [insert_of_root_ne_none isless h t v hrootne, ← hh1, hroot]
  cases hins : S.ins isless t.endNode h.next v with
  | fault f =>
    rw [hins] at hspec
    simp only at hspec ⊢
    rw [hspec]
    rfl
  | ok S' =>
    rw [hins] at hspec
    obtain ⟨h', hrun, hrep', hptr, hnext, hframe, -⟩ := hspec
    refine ⟨h', by rw [hrun]; rfl, hrep', hptr, by rw [hnext, hnext1], ?_⟩
    intro b hb hbn
    rw [hframe b hb hbn, hf1 b hbn]

/-- The loop that looks for the rightmost node, on a represented tree. -/
theorem rightmost_rep {h : Heap T} :
    ∀ (s : Shape T) (par : Option Nat) (d : Nat) (fuel : Nat), Rep h s par → s ≠ .nil →
      s.addrs.length ≤ fuel → rightmost fuel h s.ptr = .ok (some (s.lastAddr d)) := by
  intro s
  induction s with
  | nil => intro par d fuel _ hs; exact absurd rfl hs
  | node l a x r _ ihr =>
    intro par d fuel hr _ hf
    obtain ⟨hc, -, hrr⟩ := hr
    simp only [Shape.addrs_node, List.length_append, List.length_cons] at hf
    cases fuel with
    | zero => omega
    | succ fuel =>
      by_cases hrp : r.ptr = none
      · have := Shape.ptr_eq_none.1 hrp
        subst this
        simp [rightmost, Heap.load, hc, Shape.lastAddr]
      · have hrn : r ≠ .nil := fun h0 => hrp (by rw [h0]; rfl)
        have := ihr (some a) a fuel hrr hrn (by omega)
        simp [rightmost, Heap.load, hc, Shape.lastAddr, hrp, this]

theorem Shape.lastAddr_attach (e : Nat) (m : T) (d : Nat) (bt : Shape T) :
    (bt.attach e m).lastAddr d = e := by
  induction bt generalizing d with
  | nil => rfl
  | node l a x r _ ihr => simp [Shape.attach, Shape.lastAddr, ihr]

theorem Shape.maxVal_eq {bt : Shape T} (hbt : bt ≠ .nil) (d d' : T) :
    bt.maxVal d = bt.maxVal d' := by
  cases bt with
  | nil => exact absurd rfl hbt
  | node l a x r => rfl

theorem Shape.lastAddr_eq {bt : Shape T} (hbt : bt ≠ .nil) (d d' : Nat) :
    bt.lastAddr d = bt.lastAddr d' := by
  cases bt with
  | nil => exact absurd rfl hbt
  | node l a x r => rfl

theorem Shape.getLast?_vals (d : T) (bt : Shape T) (hbt : bt ≠ .nil) :
    bt.vals.getLast? = some (bt.maxVal d) := by
  induction bt generalizing d with
  | nil => exact absurd rfl hbt
  | node l a x r _ ihr =>
    simp only [Shape.vals_node, Shape.maxVal]
    cases r with
    | nil => simp [Shape.maxVal]
    | node rl ra rx rr =>
      obtain ⟨ys, hys⟩ := List.getLast?_eq_some_iff.1 (ihr x (by simp))
      rw [hys]
      exact List.getLast?_eq_some_iff.2 ⟨l.vals ++ x :: ys, by simp⟩

/-- The cells of the rightmost element and of the end node below it. -/
theorem Rep.attach_cells {h : Heap T} (e : Nat) (m : T) :
    ∀ (bt : Shape T) (par : Option Nat) (d : Nat) (dv : T), bt ≠ .nil →
      Rep h (bt.attach e m) par →
      (∃ pl pp, h.cells (bt.lastAddr d) = some ⟨bt.maxVal dv, pl, some e, pp⟩) ∧
        h.cells e = some ⟨m, none, none, some (bt.lastAddr d)⟩ := by
  intro bt
  induction bt with
  | nil => intro par d dv hbt; exact absurd rfl hbt
  | node l a x r _ ihr =>
    intro par d dv _ hrep
    cases r with
    | nil =>
      obtain ⟨hc, -, hce, -, -⟩ := hrep
      exact ⟨⟨_, _, hc⟩, hce⟩
    | node rl ra rx rr =>
      obtain ⟨-, -, hrr⟩ := hrep
      exact ihr (some a) a x (by simp) hrr

/-- On the right spine, with the end node caching the value of the rightmost element,
`insert_node`, when it returns, has performed a textbook insertion and the end node caches
the value of the new rightmost element. -/
theorem Shape.ins_attach_max (isless : T → T → Bool) (e n : Nat) (v : T) :
    ∀ (bt s' : Shape T) (d : T), bt ≠ .nil → e ∉ bt.addrs →
      (bt.attach e (bt.maxVal d)).ins isless (some e) n v = .ok s' →
      s' = (bt.bins isless n v).attach e ((bt.bins isless n v).maxVal d) := by
  intro bt
  induction bt with
  | nil => intro s' d hbt; exact absurd rfl hbt
  | node l a x r _ ihr =>
    intro s' d _ he h
    simp only [Shape.addrs_node, List.mem_append, List.mem_cons, not_or] at he
    simp only [Shape.attach, Shape.maxVal] at h
    rw [Shape.ins_node] at h
    simp only [Shape.bins]
    by_cases h1 : isless v x = true
    · rw [if_pos h1] at h
      rw [if_pos h1]
      by_cases hlp : l.ptr = none
      · rw [if_pos hlp] at h
        have := Shape.ptr_eq_none.1 hlp
        subst this
        simp only [Res.ok.injEq] at h
        simp [← h, Shape.bins, Shape.attach, Shape.maxVal]
      · rw [if_neg hlp] at h
        cases hl : l.ins isless (some e) n v with
        | fault f => simp [hl] at h
        | ok l' =>
          simp only [hl, Res.ok.injEq] at h
          rw [← h, Shape.ins_plain isless e n v l l' he.1 hl]
          rfl
    · rw [if_neg h1] at h
      rw [if_neg h1]
      by_cases h2 : isless x v = true
      · rw [if_pos h2] at h
        rw [if_pos h2]
        cases r with
        | nil =>
          simp only [Shape.attach, Shape.ptr_node, if_true, Res.ok.injEq] at h
          simp [← h, Shape.bins, Shape.attach, Shape.maxVal]
        | node rl ra rx rr =>
          have hne : ((Shape.node rl ra rx rr).attach e ((Shape.node rl ra rx rr).maxVal x)).ptr ≠
              some e := by
            rw [Shape.ptr_attach e _ (by simp)]
            exact Shape.ptr_ne_of_not_mem he.2.2
          rw [if_neg hne] at h
          cases hr : ((Shape.node rl ra rx rr).attach e
              ((Shape.node rl ra rx rr).maxVal x)).ins isless (some e) n v with
          | fault f => simp [hr] at h
          | ok r' =>
            simp only [hr, Res.ok.injEq] at h
            have := ihr r' x (by simp) he.2.2 hr
            rw [← h, this]
            rfl
      · rw [if_neg h2] at h
        rw [if_neg h2]
        simp only [Res.ok.injEq] at h
        rw [← h]; rfl

/-- One `insert` that returns keeps the end node's cached value equal to the value of the
rightmost element. -/
theorem insert_attach_max (isless : T → T → Bool) {h h' : Heap T} {t t' : BinarySearchTree}
    {bt : Shape T} {e : Nat} (d : T) (v : T) (hbt : bt ≠ .nil)
    (hw : Wf h t (bt.attach e (bt.maxVal d)))
    (hrun : insert isless h t v = .ok (h', t')) :
    Wf h' t' ((bt.bins isless h.next v).attach e ((bt.bins isless h.next v).maxVal d)) := by
  have hm' := insert_model isless v (Or.inr ⟨hbt, e, _, hw⟩) hrun
  rcases hm' with ⟨h0, -⟩ | ⟨hne, e', m', hw'⟩
  · exact absurd h0 (Shape.bins_ne_nil _ _ _ _)
  · have he := hw.end_not_mem
    have hend := hw.endNode_eq
    have hspec := insert_rep isless v hw.1 hw.2.1 hw.2.2.1 hw.2.2.2.1
      (Shape.attach_ne_nil e _ bt)
    cases hins : (bt.attach e (bt.maxVal d)).ins isless t.endNode h.next v with
    | fault f =>
      rw [hins] at hspec
      simp only at hspec
      rw [hspec] at hrun
      exact absurd hrun (by simp)
    | ok S' =>
      rw [hins] at hspec
      obtain ⟨h2, hrun2, hrep2, hptr2, -, -⟩ := hspec
      rw [hrun2] at hrun
      simp only [Res.ok.injEq, Prod.mk.injEq] at hrun
      obtain ⟨rfl, rfl⟩ := hrun
      rw [hend] at hins
      have hS' := Shape.ins_attach_max isless e h.next v bt S' d hbt he hins
      subst hS'
      have heq := Rep.unique _ _ none none hw'.2.1 hrep2 (by
        rw [Shape.ptr_attach e' m' hne, Shape.ptr_attach e _ hne])
      rw [← heq]
      exact hw'

/-- A run of inserts that all return keeps the end node's cached value equal to the value
of the rightmost element. -/
theorem insertAll_attach_max (isless : T → T → Bool) (d : T) :
    ∀ (vs : List T) (h h' : Heap T) (t t' : BinarySearchTree) (bt : Shape T) (e : Nat),
      bt ≠ .nil → Wf h t (bt.attach e (bt.maxVal d)) → Ordered isless bt →
      insertAll isless h t vs = .ok (h', t') →
      ∃ bt', bt' ≠ .nil ∧ Wf h' t' (bt'.attach e (bt'.maxVal d)) ∧ Ordered isless bt' := by
  intro vs
  induction vs with
  | nil =>
    intro h h' t t' bt e hbt hw ho hrun
    simp only [insertAll, Res.ok.injEq, Prod.mk.injEq] at hrun
    obtain ⟨rfl, rfl⟩ := hrun
    exact ⟨bt, hbt, hw, ho⟩
  | cons v vs ih =>
    intro h h' t t' bt e hbt hw ho hrun
    simp only [insertAll] at hrun
    cases hins : insert isless h t v with
    | fault f => simp [hins] at hrun
    | ok p =>
      obtain ⟨h1, t1⟩ := p
      simp only [hins, Res.ok_bind] at hrun
      exact ih h1 h' t1 t' _ e (Shape.bins_ne_nil _ _ _ _)
        (insert_attach_max isless d v hbt hw hins) (ho.bins _ _) hrun

/-- The first `insert` into an empty tree. -/
theorem insert_first (isless : T → T → Bool) (h : Heap T) (t : BinarySearchTree) (v : T)
    (hroot : t.root = none) :
    ∃ h', insert isless h t v = .ok (h', ⟨some h.next, some (h.next + 1)⟩) ∧
      h'.cells h.next = some ⟨v, none, some (h.next + 1), none⟩ ∧
      h'.cells (h.next + 1) = some ⟨v, none, none, some h.next⟩ ∧
      h'.next = h.next + 2 ∧
      (∀ b, b ≠ h.next → b ≠ h.next + 1 → h'.cells b = h.cells b) := by
  simp only [insert, Heap.alloc, hroot, if_true, Heap.modify, Heap.store, if_pos,
    Res.ok_bind, Res.pure_eq]
  simp
  intro b hb1 hb2
  simp [hb1, hb2]

/-! ## Erasing what was just inserted -/

/-- A textbook insertion of a value that is equivalent to no stored element puts it
somewhere into the in-order sequence. -/
theorem Shape.vals_bins_split (lt : T → T → Bool) (n : Nat) (v : T) :
    ∀ bt : Shape T, (∀ y ∈ bt.vals, lt y v = true ∨ lt v y = true) →
      ∃ l1 l2, bt.vals = l1 ++ l2 ∧ (bt.bins lt n v).vals = l1 ++ v :: l2 := by
  intro bt
  induction bt with
  | nil => intro _; exact ⟨[], [], rfl, rfl⟩
  | node l a x r ihl ihr =>
    intro hall
    simp only [Shape.vals_node, List.mem_append, List.mem_cons] at hall
    simp only [Shape.bins]
    by_cases h1 : lt v x = true
    · obtain ⟨l1, l2, hl, hl'⟩ := ihl (fun y hy => hall y (Or.inl hy))
      rw [if_pos h1]
      exact ⟨l1, l2 ++ x :: r.vals, by simp [hl], by simp [hl']⟩
    · have h2 : lt x v = true := by
        rcases hall x (Or.inr (Or.inl rfl)) with h | h
        · exact h
        · exact absurd h h1
      obtain ⟨l1, l2, hr, hr'⟩ := ihr (fun y hy => hall y (Or.inr (Or.inr hy)))
      rw [if_neg h1, if_pos h2]
      exact ⟨l.vals ++ x :: l1, l2, by simp [hr], by simp [hr']⟩

/-- `erase` of a stored value from a tree that is ordered, with the end node in place:
it returns and the loop afterwards yields the old sequence without the value. -/
theorem erase_attach_traverse [DecidableEq T] (lt : T → T → Bool) (hswo : StrictWeakOrder lt)
    {h : Heap T} {t : BinarySearchTree} {bt : Shape T} {e : Nat} {m : T} (v : T)
    (hw : Wf h t (bt.attach e m)) (hord : Ordered lt bt) (hv : v ∈ bt.vals) :
    ∃ h' t', erase lt h t v = .ok (h', t') ∧ traverse h' t' = .ok (bt.vals.erase v) := by
  have hend := hw.endNode_eq
  have hlen := hw.length_le
  obtain ⟨hroot, hrep, hnd, hlt, -⟩ := hw
  obtain ⟨hvals, hlast⟩ :=
    Shape.erase_vals_attach lt hswo.irrefl hswo.trans v e m bt hord hv
  have hne : (bt.attach e m).erase lt v ≠ .nil := by
    intro h0'
    rw [h0'] at hvals
    simp at hvals
  obtain ⟨h', hrun', hrep', hnext, -⟩ := erase_rep lt v hroot hrep hnd hlen hne
  have hsub := Shape.erase_addrs_sublist lt v (bt.attach e m)
  have hw' : Wf h' { t with root := ((bt.attach e m).erase lt v).ptr }
      ((bt.attach e m).erase lt v) :=
    ⟨rfl, hrep', hnd.sublist hsub, fun a ha => by rw [hnext]; exact hlt a (hsub.subset ha),
      by rw [hlast]; exact hend⟩
  refine ⟨h', _, hrun', ?_⟩
  rw [traverse_wf hw' hne, hvals]
  simp

/-! ## Re-insertion in pre-order -/

theorem Shape.ins_ptr (isless : T → T → Bool) (e : Option Nat) (n : Nat) (v : T)
    {s s' : Shape T} (h : s.ins isless e n v = .ok s') : s'.ptr = s.ptr := by
  cases s with
  | nil => simp [Shape.ins] at h
  | node l a x r =>
    rw [Shape.ins_node] at h
    split_ifs at h
    · simp only [Res.ok.injEq] at h; rw [← h]; rfl
    · cases hl : l.ins isless e n v with
      | fault f => simp [hl] at h
      | ok l' => simp only [hl, Res.ok.injEq] at h; rw [← h]; rfl
    · cases r with
      | nil => simp at h
      | node rl ra rx rr => simp only [Res.ok.injEq] at h; rw [← h]; rfl
    · cases hr : r.ins isless e n v with
      | fault f => simp [hr] at h
      | ok r' => simp only [hr, Res.ok.injEq] at h; rw [← h]; rfl
    · simp only [Res.ok.injEq] at h; rw [← h]

theorem Shape.insAll_cons (isless : T → T → Bool) (e : Option Nat) (k : Nat) (v : T)
    (vs : List T) (s : Shape T) :
    Shape.insAll isless e k (v :: vs) s =
      (s.ins isless e k v >>= fun s' => Shape.insAll isless e (k + 1) vs s') := by
  rw [Shape.insAll]
  cases s.ins isless e k v <;> rfl

theorem Shape.insAll_append (isless : T → T → Bool) (e : Option Nat) :
    ∀ (us vs : List T) (k : Nat) (s : Shape T),
      Shape.insAll isless e k (us ++ vs) s =
        (Shape.insAll isless e k us s >>= fun s' =>
          Shape.insAll isless e (k + us.length) vs s') := by
  intro us
  induction us with
  | nil => intro vs k s; rfl
  | cons u us ih =>
    intro vs k s
    rw [List.cons_append, Shape.insAll_cons, Shape.insAll_cons]
    cases hu : s.ins isless e k u with
    | fault f => rfl
    | ok s' =>
      simp only [Res.ok_bind, ih, List.length_cons]
      have : k + (us.length + 1) = k + 1 + us.length := by omega
      rw [this]

/-- Values that order before the node are inserted into its left subtree. -/
theorem Shape.insAll_left (isless : T → T → Bool) (e : Option Nat) (a : Nat) (x : T)
    (R : Shape T) :
    ∀ (vs : List T) (k : Nat) (L : Shape T), L ≠ .nil → (∀ v ∈ vs, isless v x = true) →
      Shape.insAll isless e k vs (.node L a x R) =
        (Shape.insAll isless e k vs L >>= fun L' => Res.ok (.node L' a x R)) := by
  intro vs
  induction vs with
  | nil => intro k L _ _; rfl
  | cons v vs ih =>
    intro k L hL hall
    have hv : isless v x = true := hall v (List.mem_cons_self _ _)
    have hLp : L.ptr ≠ none := fun hp => hL (Shape.ptr_eq_none.1 hp)
    rw [Shape.insAll_cons, Shape.insAll_cons, Shape.ins_node, if_pos hv, if_neg hLp]
    cases hl : L.ins isless e k v with
    | fault f => rfl
    | ok L' =>
      have hL' : L' ≠ .nil := by
        intro h0
        have := Shape.ins_ptr isless e k v hl
        rw [h0] at this
        exact hLp this.symm
      simp only [Res.ok_bind]
      exact ih (k + 1) L' hL' (fun u hu => hall u (List.mem_cons_of_mem _ hu))

/-- Values that order after the node are inserted into its right subtree, unless the right
link is the end node. -/
theorem Shape.insAll_right (isless : T → T → Bool) (e : Option Nat) (a : Nat) (x : T)
    (L : Shape T) :
    ∀ (vs : List T) (k : Nat) (R : Shape T), R.ptr ≠ e →
      (∀ v ∈ vs, isless v x = false ∧ isless x v = true) →
      Shape.insAll isless e k vs (.node L a x R) =
        (Shape.insAll isless e k vs R >>= fun R' => Res.ok (.node L a x R')) := by
  intro vs
  induction vs with
  | nil => intro k R _ _; rfl
  | cons v vs ih =>
    intro k R hR hall
    obtain ⟨hv1, hv2⟩ := hall v (List.mem_cons_self _ _)
    rw [Shape.insAll_cons, Shape.insAll_cons, Shape.ins_node, if_neg (by simp [hv1]),
      if_pos hv2, if_neg hR]
    cases hr : R.ins isless e k v with
    | fault f => rfl
    | ok R' =>
      have hR' : R'.ptr ≠ e := by
        rw [Shape.ins_ptr isless e k v hr]; exact hR
      simp only [Res.ok_bind]
      exact ih (k + 1) R' hR' (fun u hu => hall u (List.mem_cons_of_mem _ hu))

theorem Shape.preorder_length (s : Shape T) : s.preorder.length = s.addrs.length := by
  induction s with
  | nil => rfl
  | node l a x r ihl ihr =>
    simp only [Shape.preorder, Shape.addrs_node, List.length_cons, List.length_append, ihl, ihr]
    omega

theorem Shape.mem_preorder (s : Shape T) (y : T) : y ∈ s.preorder ↔ y ∈ s.vals := by
  induction s with
  | nil => simp [Shape.preorder]
  | node l a x r ihl ihr =>
    simp only [Shape.preorder, Shape.vals_node, List.mem_cons, List.mem_append, ihl, ihr]
    tauto

/-- Re-inserting a chain in pre-order below a node whose left link is null rebuilds the
chain there; the new nodes take the addresses from `k` on. -/
theorem Shape.insAll_chain (isless : T → T → Bool) (e : Option Nat) :
    ∀ (c : Shape T), Chain c → Ordered isless c → ∀ (a : Nat) (x : T) (R : Shape T) (k : Nat),
      (∀ y ∈ c.vals, isless y x = true) →
      ∃ c', Shape.insAll isless e k c.preorder (.node .nil a x R) = .ok (.node c' a x R) ∧
        c'.forget = c.forget ∧ ∀ b ∈ c'.addrs, k ≤ b ∧ b < k + c.addrs.length := by
  intro c
  induction c with
  | nil =>
    intro _ _ a x R k _
    exact ⟨.nil, rfl, rfl, by simp⟩
  | node l b y r ihl _ =>
    rintro ⟨hr, hcl⟩ ⟨ho1, -, hol, -⟩ a x R k hall
    subst hr
    have hy : isless y x = true := hall y (by simp)
    obtain ⟨l', hrun, hforget, haddr⟩ := ihl hcl hol k y .nil (k + 1) ho1
    refine ⟨.node l' k y .nil, ?_, by simp [Shape.forget, hforget], ?_⟩
    · simp only [Shape.preorder, List.append_nil]
      rw [Shape.insAll_cons, Shape.ins_node, if_pos hy, if_pos Shape.ptr_nil, Res.ok_bind,
        Shape.insAll_left isless e a x R l.preorder (k + 1) _ (by simp)
          (fun v hv => hall v (by
            rw [Shape.vals_node]
            exact List.mem_append.2 (Or.inl ((l.mem_preorder v).1 hv)))),
        hrun]
      rfl
    · intro b' hb'
      simp only [Shape.addrs_node, Shape.addrs_nil, List.mem_append, List.mem_cons,
        List.not_mem_nil, or_false, List.length_append, List.length_cons, List.length_nil] at hb' ⊢
      rcases hb' with hb' | hb'
      · have := haddr b' hb'
        omega
      · omega
theorem StrictWeakOrder.asymm {isless : T → T → Bool} (hswo : StrictWeakOrder isless)
    {a b : T} (hab : isless a b = true) : isless b a = false := by
  cases hba : isless b a with
  | false => rfl
  | true =>
    have := hswo.trans _ _ _ hab hba
    rw [hswo.irrefl] at this
    exact absurd this (by simp)

/-- Re-inserting a comb in pre-order rebuilds it: after the root value `x` has been stored
at `n` with the end node `e'` below it, the values of the left chain `l` and the rest of the
spine `r`, inserted in pre-order, all find their place, and the end node caches the value
of the rightmost element.  The new nodes take the addresses from `k` on. -/
theorem Shape.insAll_comb (isless : T → T → Bool) (hswo : StrictWeakOrder isless) (e' : Nat) :
    ∀ (r : Shape T), Comb r → Ordered isless r →
      ∀ (l : Shape T) (x : T) (n k : Nat), Chain l → Ordered isless l →
      (∀ y ∈ l.vals, isless y x = true) → (∀ y ∈ r.vals, isless x y = true) →
      e' < k →
      ∃ l' r' : Shape T, Shape.insAll isless (some e') k (l.preorder ++ r.preorder)
            (.node .nil n x (.node .nil e' x .nil)) =
          .ok (.node l' n x (r'.attach e' (r'.maxVal x))) ∧
        l'.forget = l.forget ∧ r'.forget = r.forget ∧
        ∀ b ∈ l'.addrs ++ r'.addrs, k ≤ b ∧ b < k + (l.addrs.length + r.addrs.length) := by
  intro r
  induction r with
  | nil =>
    intro _ _ l x n k hcl hol hlx _ _
    obtain ⟨l', hrun, hforget, haddr⟩ :=
      Shape.insAll_chain isless (some e') l hcl hol n x (.node .nil e' x .nil) k hlx
    refine ⟨l', .nil, ?_, hforget, rfl, ?_⟩
    · simp only [Shape.preorder, List.append_nil, hrun]
      rfl
    · intro b hb
      simp only [Shape.addrs_nil, List.append_nil, List.length_nil, Nat.add_zero] at hb ⊢
      exact haddr b hb
  | node rl ra rx rr _ ihrr =>
    rintro ⟨hcrl, hcrr⟩ ⟨hr1, hr2, horl, horr⟩ l x n k hcl hol hlx hxr hk
    obtain ⟨l', hrun, hforget, haddr⟩ :=
      Shape.insAll_chain isless (some e') l hcl hol n x (.node .nil e' x .nil) k hlx
    have hxrx : isless x rx = true := hxr rx (by simp)
    have hrxx : isless rx x = false := hswo.asymm hxrx
    obtain ⟨rl', rr', hrun2, hf1, hf2, haddr2⟩ :=
      ihrr hcrr horr rl rx (k + l.preorder.length) (k + l.preorder.length + 1) hcrl horl hr1 hr2
        (by omega)
    refine ⟨l', .node rl' (k + l.preorder.length) rx rr', ?_, hforget,
      by simp [Shape.forget, hf1, hf2], ?_⟩
    · rw [Shape.insAll_append, hrun, Res.ok_bind]
      simp only [Shape.preorder]
      rw [Shape.insAll_cons, Shape.ins_node, if_neg (by simp [hrxx]), if_pos hxrx,
        if_pos (Shape.ptr_node _ _ _ _)]
      simp only [Res.ok_bind]
      rw [Shape.insAll_right isless (some e') n x l' _ _ _ (by
          simp only [Shape.ptr_node, ne_eq, Option.some.injEq]; omega) (by
          intro v hv
          have hv' : v ∈ (Shape.node rl ra rx rr).vals := by
            rw [Shape.vals_node]
            rcases List.mem_append.1 hv with h | h
            · exact List.mem_append.2 (Or.inl ((rl.mem_preorder v).1 h))
            · exact List.mem_append.2 (Or.inr (List.mem_cons_of_mem _ ((rr.mem_preorder v).1 h)))
          exact ⟨hswo.asymm (hxr v hv'), hxr v hv'⟩),
        hrun2]
      rfl
    · intro b hb
      simp only [Shape.addrs_node, List.mem_append, List.mem_cons, List.length_append,
        List.length_cons] at hb ⊢
      have hlen := l.preorder_length
      rcases hb with hb | hb | hb | hb
      · have := haddr b hb
        omega
      · have := haddr2 b (List.mem_append.2 (Or.inl hb))
        omega
      · omega
      · have := haddr2 b (List.mem_append.2 (Or.inr hb))
        omega

/-! ## The shape of trees built by `insert` -/

theorem Shape.vals_forget (s : Shape T) : s.forget.vals = s.vals := by
  induction s with
  | nil => rfl
  | node l a x r ihl ihr => simp [Shape.forget, ihl, ihr]

theorem Shape.forget_attach (e : Nat) (m : T) (s : Shape T) :
    (s.attach e m).forget = s.forget.attach 0 m := by
  induction s with
  | nil => rfl
  | node l a x r _ ihr => simp [Shape.attach, Shape.forget, ihr]

theorem Shape.maxVal_forget (d : T) (s : Shape T) : s.forget.maxVal d = s.maxVal d := by
  induction s generalizing d with
  | nil => rfl
  | node l a x r _ ihr => simp [Shape.forget, Shape.maxVal, ihr]

theorem Ordered.forget_iff (isless : T → T → Bool) (s : Shape T) :
    Ordered isless s.forget ↔ Ordered isless s := by
  induction s with
  | nil => exact Iff.rfl
  | node l a x r ihl ihr =>
    simp only [Shape.forget, Ordered, Shape.vals_forget, ihl, ihr]

theorem Shape.forget_eq_nil {s : Shape T} : s.forget = .nil ↔ s = .nil := by
  cases s <;> simp [Shape.forget]

theorem Shape.preorder_attach (e : Nat) (m : T) (s : Shape T) :
    (s.attach e m).preorder = s.preorder ++ [m] := by
  induction s with
  | nil => rfl
  | node l a x r _ ihr => simp [Shape.attach, Shape.preorder, ihr]

/-- Off the right spine `insert_node` returns only if it kept the tree a chain. -/
theorem Chain.ins (isless : T → T → Bool) (e n : Nat) (v : T) :
    ∀ (l l' : Shape T), Chain l → l.ins isless (some e) n v = .ok l' → Chain l' := by
  intro l
  induction l with
  | nil => intro l' _ h; simp [Shape.ins] at h
  | node ll a x r ihl _ =>
    rintro l' ⟨hr, hc⟩ h
    subst hr
    rw [Shape.ins_node] at h
    split_ifs at h with h1 h2 h3 h4
    · simp only [Res.ok.injEq] at h
      rw [← h]
      exact ⟨rfl, rfl, trivial⟩
    · cases hl : ll.ins isless (some e) n v with
      | fault f => simp [hl] at h
      | ok l2 =>
        simp only [hl, Res.ok.injEq] at h
        rw [← h]
        exact ⟨rfl, ihl l2 hc hl⟩
    · simp [Shape.ins] at h
    · simp only [Res.ok.injEq] at h
      rw [← h]
      exact ⟨rfl, hc⟩

/-- On the right spine `insert_node` returns only if the textbook insertion it performed
kept the tree a comb. -/
theorem Comb.bins_of_ins (isless : T → T → Bool) (e n : Nat) (v : T) :
    ∀ (bt s' : Shape T) (m : T), bt ≠ .nil → e ∉ bt.addrs → Comb bt →
      (bt.attach e m).ins isless (some e) n v = .ok s' → Comb (bt.bins isless n v) := by
  intro bt
  induction bt with
  | nil => intro s' m hbt; exact absurd rfl hbt
  | node l a x r _ ihr =>
    rintro s' m _ he ⟨hcl, hcr⟩ h
    simp only [Shape.addrs_node, List.mem_append, List.mem_cons, not_or] at he
    simp only [Shape.attach] at h
    rw [Shape.ins_node] at h
    simp only [Shape.bins]
    by_cases h1 : isless v x = true
    · rw [if_pos h1] at h
      rw [if_pos h1]
      by_cases hlp : l.ptr = none
      · have := Shape.ptr_eq_none.1 hlp
        subst this
        exact ⟨⟨rfl, trivial⟩, hcr⟩
      · rw [if_neg hlp] at h
        cases hl : l.ins isless (some e) n v with
        | fault f => simp [hl] at h
        | ok l' =>
          rw [← Shape.ins_plain isless e n v l l' he.1 hl]
          exact ⟨Chain.ins isless e n v l l' hcl hl, hcr⟩
    · rw [if_neg h1] at h
      rw [if_neg h1]
      by_cases h2 : isless x v = true
      · rw [if_pos h2] at h
        rw [if_pos h2]
        cases r with
        | nil => exact ⟨hcl, trivial, trivial⟩
        | node rl ra rx rr =>
          have hne : ((Shape.node rl ra rx rr).attach e m).ptr ≠ some e := by
            rw [Shape.ptr_attach e m (by simp)]
            exact Shape.ptr_ne_of_not_mem he.2.2
          rw [if_neg hne] at h
          cases hr : ((Shape.node rl ra rx rr).attach e m).ins isless (some e) n v with
          | fault f => simp [hr] at h
          | ok r' => exact ⟨hcl, ihr r' m (by simp) he.2.2 hcr hr⟩
      · rw [if_neg h2]
        exact ⟨hcl, hcr⟩

/-- An `insert` into a non-empty tree returns exactly when the tree-level insertion does,
and then the tree object is the tree-level result. -/
theorem insert_attach_iff (isless : T → T → Bool) {h : Heap T} {t : BinarySearchTree}
    {bt : Shape T} {e : Nat} {m : T} (v : T) (hbt : bt ≠ .nil)
    (hw : Wf h t (bt.attach e m)) :
    match (bt.attach e m).ins isless (some e) h.next v with
    | .fault f => insert isless h t v = .fault f
    | .ok S' => ∃ h', insert isless h t v = .ok (h', t) ∧ Wf h' t S' ∧
        h'.next = h.next + 1 ∧
        (∀ b, b ∉ (bt.attach e m).addrs → b ≠ h.next → h'.cells b = h.cells b) ∧
        ∃ m', S' = (bt.bins isless h.next v).attach e m' := by
  have he := hw.end_not_mem
  have hend := hw.endNode_eq
  have hspec := insert_rep isless v hw.1 hw.2.1 hw.2.2.1 hw.2.2.2.1 (Shape.attach_ne_nil e _ bt)
  rw [hend] at hspec
  cases hins : (bt.attach e m).ins isless (some e) h.next v with
  | fault f =>
    rw [hins] at hspec
    exact hspec
  | ok S' =>
    rw [hins] at hspec
    obtain ⟨h', hrun, hrep, -, hnext, hframe⟩ := hspec
    refine ⟨h', hrun, ?_, hnext, hframe, Shape.ins_attach isless e h.next v bt S' m hbt he hins⟩
    have hm' := insert_model isless v (Or.inr ⟨hbt, e, _, hw⟩) hrun
    rcases hm' with ⟨h0, -⟩ | ⟨hne, e', m', hw'⟩
    · exact absurd h0 (Shape.bins_ne_nil _ _ _ _)
    · obtain ⟨m2, hS'⟩ := Shape.ins_attach isless e h.next v bt S' m hbt he hins
      have heq := Rep.unique _ _ none none hw'.2.1 hrep (by
        rw [hS', Shape.ptr_attach e' m' hne, Shape.ptr_attach e _ hne])
      rw [← heq]
      exact hw'

/-- A run of inserts that all return builds a comb that is ordered, with the end node
caching the value of the rightmost element. -/
theorem insertAll_comb (isless : T → T → Bool) (d : T) :
    ∀ (vs : List T) (h h' : Heap T) (t t' : BinarySearchTree) (bt : Shape T) (e : Nat),
      bt ≠ .nil → Wf h t (bt.attach e (bt.maxVal d)) → Ordered isless bt → Comb bt →
      insertAll isless h t vs = .ok (h', t') →
      ∃ bt', bt' ≠ .nil ∧ Wf h' t' (bt'.attach e (bt'.maxVal d)) ∧ Ordered isless bt' ∧
        Comb bt' := by
  intro vs
  induction vs with
  | nil =>
    intro h h' t t' bt e hbt hw ho hc hrun
    simp only [insertAll, Res.ok.injEq, Prod.mk.injEq] at hrun
    obtain ⟨rfl, rfl⟩ := hrun
    exact ⟨bt, hbt, hw, ho, hc⟩
  | cons v vs ih =>
    intro h h' t t' bt e hbt hw ho hc hrun
    simp only [insertAll] at hrun
    cases hins : insert isless h t v with
    | fault f => simp [hins] at hrun
    | ok p =>
      obtain ⟨h1, t1⟩ := p
      simp only [hins, Res.ok_bind] at hrun
      have hcomb : Comb (bt.bins isless h.next v) := by
        have hspec := insert_attach_iff isless v hbt hw
        cases hS : (bt.attach e (bt.maxVal d)).ins isless (some e) h.next v with
        | fault f =>
          rw [hS] at hspec
          simp only at hspec
          rw [hspec] at hins
          exact absurd hins (by simp)
        | ok S' => exact Comb.bins_of_ins isless e h.next v bt S' _ hbt hw.end_not_mem hc hS
      exact ih h1 h' t1 t' _ e (Shape.bins_ne_nil _ _ _ _)
        (insert_attach_max isless d v hbt hw hins) (ho.bins _ _) hcomb hrun

/-- The tree built by a non-empty run of inserts into an empty tree that all return. -/
theorem built_comb (isless : T → T → Bool) (h0 h : Heap T) (t : BinarySearchTree) (x : T)
    (rest : List T)
    (hrun : insertAll isless h0 BinarySearchTree.empty (x :: rest) = .ok (h, t)) :
    ∃ bt e, bt ≠ .nil ∧ Wf h t (bt.attach e (bt.maxVal x)) ∧ Ordered isless bt ∧ Comb bt := by
  obtain ⟨h1, hins, hc1, hc2, hnext1, -⟩ :=
    insert_first isless h0 BinarySearchTree.empty x rfl
  simp only [insertAll, hins, Res.ok_bind] at hrun
  have hw1 : Wf h1 ⟨some h0.next, some (h0.next + 1)⟩
      ((Shape.node .nil h0.next x .nil).attach (h0.next + 1)
        ((Shape.node .nil h0.next x .nil).maxVal x)) := by
    refine ⟨rfl, ⟨hc1, trivial, hc2, trivial, trivial⟩, ?_, ?_, ?_⟩
    · simp [Shape.attach]
    · intro a ha
      simp [Shape.attach] at ha
      omega
    · simp [Shape.attach]
  obtain ⟨bt, hbt, hw, hord, hcomb⟩ := insertAll_comb isless x rest h1 h _ t _ _ (by simp) hw1
    ⟨by simp, by simp, trivial, trivial⟩ ⟨trivial, trivial⟩ hrun
  exact ⟨bt, _, hbt, hw, hord, hcomb⟩
/-! ## The copy constructor -/

theorem insertAll_cons (isless : T → T → Bool) (h : Heap T) (t : BinarySearchTree) (v : T)
    (vs : List T) :
    insertAll isless h t (v :: vs) =
      (insert isless h t v >>= fun p => insertAll isless p.1 p.2 vs) := rfl

theorem insertAll_append (isless : T → T → Bool) :
    ∀ (us vs : List T) (h : Heap T) (t : BinarySearchTree),
      insertAll isless h t (us ++ vs) =
        (insertAll isless h t us >>= fun p => insertAll isless p.1 p.2 vs) := by
  intro us
  induction us with
  | nil => intro vs h t; rfl
  | cons u us ih =>
    intro vs h t
    rw [List.cons_append, insertAll_cons, insertAll_cons]
    cases hu : insert isless h t u with
    | fault f => rfl
    | ok p => simp only [Res.ok_bind, ih]

/-- The first `insert` into an empty tree, as a tree object. -/
theorem insert_first_wf (isless : T → T → Bool) (h : Heap T) (t : BinarySearchTree) (v : T)
    (hroot : t.root = none) :
    ∃ h', insert isless h t v = .ok (h', ⟨some h.next, some (h.next + 1)⟩) ∧
      Wf h' ⟨some h.next, some (h.next + 1)⟩
        (Shape.node .nil h.next v (.node .nil (h.next + 1) v .nil)) ∧
      h'.next = h.next + 2 ∧
      (∀ b, b ≠ h.next → b ≠ h.next + 1 → h'.cells b = h.cells b) := by
  obtain ⟨h', hins, hc1, hc2, hnext, hframe⟩ := insert_first isless h t v hroot
  refine ⟨h', hins, ⟨rfl, ⟨hc1, trivial, hc2, trivial, trivial⟩, ?_, ?_, ?_⟩, hnext, hframe⟩
  · simp
  · intro a ha
    simp at ha
    omega
  · simp

/-- An `insert` into a copy under construction touches no older cell. -/
theorem insert_target (isless : T → T → Bool) {N0 : Nat} {h h' : Heap T}
    {t t' : BinarySearchTree} (v : T) (htg : Target N0 h t)
    (hrun : insert isless h t v = .ok (h', t')) :
    Target N0 h' t' ∧ ∀ b, b < N0 → h'.cells b = h.cells b := by
  obtain ⟨hN, hroot | ⟨bt, e, m, hbt, hw, hge⟩⟩ := htg
  · obtain ⟨h1, hins, hw1, hnext, hframe⟩ := insert_first_wf isless h t v hroot
    rw [hins] at hrun
    simp only [Res.ok.injEq, Prod.mk.injEq] at hrun
    obtain ⟨rfl, rfl⟩ := hrun
    refine ⟨⟨by omega, Or.inr ⟨.node .nil h.next v .nil, h.next + 1, v, by simp, hw1, ?_⟩⟩, ?_⟩
    · intro a ha
      simp [Shape.attach] at ha
      omega
    · intro b hb
      exact hframe b (by omega) (by omega)
  · have hspec := insert_attach_iff isless v hbt hw
    cases hS : (bt.attach e m).ins isless (some e) h.next v with
    | fault f =>
      rw [hS] at hspec
      simp only at hspec
      rw [hspec] at hrun
      exact absurd hrun (by simp)
    | ok S' =>
      rw [hS] at hspec
      obtain ⟨h1, hins, hw1, hnext, hframe, m', hS'⟩ := hspec
      rw [hins] at hrun
      simp only [Res.ok.injEq, Prod.mk.injEq] at hrun
      obtain ⟨rfl, rfl⟩ := hrun
      subst hS'
      refine ⟨⟨by omega, Or.inr ⟨_, e, m', Shape.bins_ne_nil _ _ _ _, hw1, ?_⟩⟩, ?_⟩
      · intro a ha
        rw [Shape.addrs_attach, List.mem_append, List.mem_singleton] at ha
        rcases ha with ha | ha
        · rcases Shape.mem_addrs_bins isless _ v bt ha with hb | hb
          · omega
          · exact hge a (by simp [hb])
        · exact hge a (by simp [ha])
      · intro b hb
        refine hframe b (fun hm => ?_) (by omega)
        have := hge b hm
        omega

/-- A run of inserts into a copy under construction touches no older cell. -/
theorem insertAll_target (isless : T → T → Bool) {N0 : Nat} :
    ∀ (vs : List T) (h h' : Heap T) (t t' : BinarySearchTree), Target N0 h t →
      insertAll isless h t vs = .ok (h', t') →
      Target N0 h' t' ∧ ∀ b, b < N0 → h'.cells b = h.cells b := by
  intro vs
  induction vs with
  | nil =>
    intro h h' t t' htg hrun
    simp only [insertAll, Res.ok.injEq, Prod.mk.injEq] at hrun
    obtain ⟨rfl, rfl⟩ := hrun
    exact ⟨htg, fun _ _ => rfl⟩
  | cons v vs ih =>
    intro h h' t t' htg hrun
    rw [insertAll_cons] at hrun
    cases hins : insert isless h t v with
    | fault f => simp [hins] at hrun
    | ok p =>
      obtain ⟨h1, t1⟩ := p
      simp only [hins, Res.ok_bind] at hrun
      obtain ⟨htg1, hf1⟩ := insert_target isless v htg hins
      obtain ⟨htg2, hf2⟩ := ih h1 h' t1 t' htg1 hrun
      exact ⟨htg2, fun b hb => by rw [hf2 b hb, hf1 b hb]⟩

theorem copy_helper_null (isless : T → T → Bool) (fuel : Nat) (h : Heap T)
    (t : BinarySearchTree) : copy_helper isless (fuel + 1) h t none = .ok (h, t) := by
  simp [copy_helper]

theorem copy_helper_succ (isless : T → T → Bool) (fuel : Nat) (h : Heap T)
    (t : BinarySearchTree) (a : Nat) :
    copy_helper isless (fuel + 1) h t (some a) = (do
      let c ← h.load (some a)
      let p ← insert isless h t c.data
      let c ← p.1.load (some a)
      let q ← copy_helper isless fuel p.1 p.2 c.left
      let c ← q.1.load (some a)
      copy_helper isless fuel q.1 q.2 c.right) := by
  simp [copy_helper]

/-- `copy_helper` on a represented tree that the copy under construction does not share
is the run of `insert` calls with the values of the tree in pre-order. -/
theorem copy_helper_eq (isless : T → T → Bool) (N0 : Nat) :
    ∀ (s : Shape T) (fuel : Nat) (h : Heap T) (t : BinarySearchTree) (par : Option Nat),
      Rep h s par → (∀ a ∈ s.addrs, a < N0) → Target N0 h t → s.addrs.length < fuel →
      copy_helper isless fuel h t s.ptr = insertAll isless h t s.preorder := by
  intro s
  induction s with
  | nil =>
    intro fuel h t par _ _ _ hf
    cases fuel with
    | zero => simp at hf
    | succ fuel => exact copy_helper_null isless fuel h t
  | node l a x r ihl ihr =>
    intro fuel h t par hrep hlt htg hf
    obtain ⟨hc, hl, hr⟩ := hrep
    simp only [Shape.addrs_node, List.length_append, List.length_cons] at hf
    have haN : a < N0 := hlt a (by simp)
    cases fuel with
    | zero => simp at hf
    | succ fuel =>
      rw [Shape.ptr_node, copy_helper_succ, Shape.preorder, insertAll_cons]
      simp only [Heap.load, hc, Res.ok_bind, insertAll_append]
      cases hins : insert isless h t x with
      | fault f => rfl
      | ok p =>
        obtain ⟨h1, t1⟩ := p
        obtain ⟨htg1, hf1⟩ := insert_target isless x htg hins
        have hl1 : Rep h1 l (some a) := hl.frame (fun b hb => hf1 b (hlt b (by simp [hb])))
        have hr1 : Rep h1 r (some a) := hr.frame (fun b hb => hf1 b (hlt b (by simp [hb])))
        have hc1 : h1.cells a = some ⟨x, l.ptr, r.ptr, par⟩ := by rw [hf1 a haN]; exact hc
        simp only [Res.ok_bind, hc1]
        rw [ihl fuel h1 t1 (some a) hl1 (fun b hb => hlt b (by simp [hb])) htg1 (by omega)]
        cases hall : insertAll isless h1 t1 l.preorder with
        | fault f => rfl
        | ok q =>
          obtain ⟨h2, t2⟩ := q
          obtain ⟨htg2, hf2⟩ := insertAll_target isless l.preorder h1 h2 t1 t2 htg1 hall
          have hr2 : Rep h2 r (some a) := hr1.frame (fun b hb => hf2 b (hlt b (by simp [hb])))
          have hc2 : h2.cells a = some ⟨x, l.ptr, r.ptr, par⟩ := by rw [hf2 a haN]; exact hc1
          simp only [Res.ok_bind, hc2]
          exact ihr fuel h2 t2 (some a) hr2 (fun b hb => hlt b (by simp [hb])) htg2 (by omega)
/-- A run of inserts into a non-empty tree returns when the tree-level run does, and then
the tree object is the tree-level result. -/
theorem insertAll_of_insAll (isless : T → T → Bool) :
    ∀ (vs : List T) (h : Heap T) (t : BinarySearchTree) (bt : Shape T) (e : Nat) (m : T)
      (S' : Shape T), bt ≠ .nil → Wf h t (bt.attach e m) →
      Shape.insAll isless (some e) h.next vs (bt.attach e m) = .ok S' →
      ∃ h', insertAll isless h t vs = .ok (h', t) ∧ Wf h' t S' := by
  intro vs
  induction vs with
  | nil =>
    intro h t bt e m S' _ hw hrun
    simp only [Shape.insAll, Res.ok.injEq] at hrun
    subst hrun
    exact ⟨h, rfl, hw⟩
  | cons v vs ih =>
    intro h t bt e m S' hbt hw hrun
    rw [Shape.insAll_cons] at hrun
    have hspec := insert_attach_iff isless v hbt hw
    cases hS : (bt.attach e m).ins isless (some e) h.next v with
    | fault f => simp [hS] at hrun
    | ok S1 =>
      rw [hS] at hspec
      obtain ⟨h1, hins, hw1, hnext, -, m', hS1⟩ := hspec
      simp only [hS, Res.ok_bind] at hrun
      subst hS1
      rw [← hnext] at hrun
      obtain ⟨h', hall, hw'⟩ := ih h1 t _ e m' S' (Shape.bins_ne_nil _ _ _ _) hw1 hrun
      exact ⟨h', by rw [insertAll_cons, hins, Res.ok_bind]; exact hall, hw'⟩

theorem Shape.maxVal_mem (d : T) {bt : Shape T} (hbt : bt ≠ .nil) : bt.maxVal d ∈ bt.vals := by
  obtain ⟨ys, hys⟩ := List.getLast?_eq_some_iff.1 (Shape.getLast?_vals d bt hbt)
  rw [hys]
  simp

/-! ## The node that `erase` finds -/

theorem Shape.locate_fst (lt : T → T → Bool) (v : T) (S : Shape T) (p2 : Option Nat) :
    (S.locate lt v p2).1 = (S.subAt lt v).ptr := by
  induction S generalizing p2 with
  | nil => rfl
  | node l a x r ihl ihr =>
    simp only [Shape.locate, Shape.subAt]
    split_ifs
    · exact ihr _
    · exact ihl _
    · rfl

theorem erase_find_rep (lt : T → T → Bool) (v : T) {h : Heap T} :
    ∀ (S : Shape T) (par p2 : Option Nat) (fuel : Nat), Rep h S par → S.addrs.length < fuel →
      erase_find lt v fuel h S.ptr p2 = .ok (S.locate lt v p2) := by
  intro S
  induction S with
  | nil =>
    intro par p2 fuel _ hf
    cases fuel with
    | zero => simp at hf
    | succ fuel => simp [erase_find, Shape.locate]
  | node l a x r ihl ihr =>
    intro par p2 fuel hrep hf
    obtain ⟨hc, hl, hr⟩ := hrep
    simp only [Shape.addrs_node, List.length_append, List.length_cons] at hf
    cases fuel with
    | zero => simp at hf
    | succ fuel =>
      rw [Shape.ptr_node, erase_find_succ lt v fuel h a p2 _ hc]
      simp only [Shape.locate]
      split_ifs
      · exact ihr (some a) (some a) fuel hr (by omega)
      · exact ihl (some a) (some a) fuel hl (by omega)
      · rfl

theorem Rep.subAt_rep (lt : T → T → Bool) (v : T) {h : Heap T} :
    ∀ (S : Shape T) (par : Option Nat), Rep h S par →
      Rep h (S.subAt lt v) (S.locate lt v par).2 := by
  intro S
  induction S with
  | nil => intro _ _; trivial
  | node l a x r ihl ihr =>
    intro par hrep
    simp only [Shape.locate, Shape.subAt]
    split_ifs
    · exact ihr (some a) hrep.2.2
    · exact ihl (some a) hrep.2.1
    · exact hrep

theorem Shape.subAt_addrs (lt : T → T → Bool) (v : T) (S : Shape T) :
    ∀ b ∈ (S.subAt lt v).addrs, b ∈ S.addrs := by
  induction S with
  | nil => simp [Shape.subAt]
  | node l a x r ihl ihr =>
    intro b hb
    simp only [Shape.subAt] at hb
    rw [Shape.addrs_node]
    split_ifs at hb
    · exact List.mem_append.2 (Or.inr (List.mem_cons_of_mem _ (ihr b hb)))
    · exact List.mem_append.2 (Or.inl (ihl b hb))
    · rw [Shape.addrs_node] at hb; exact hb

theorem Shape.subAt_nodup (lt : T → T → Bool) (v : T) (S : Shape T) (hnd : S.addrs.Nodup) :
    (S.subAt lt v).addrs.Nodup := by
  induction S with
  | nil => simp [Shape.subAt]
  | node l a x r ihl ihr =>
    simp only [Shape.subAt]
    have hnd' := hnd
    rw [Shape.addrs_node] at hnd'
    split_ifs
    · exact ihr (List.nodup_cons.1 (List.nodup_append.1 hnd').2.1).2
    · exact ihl (List.nodup_append.1 hnd').1
    · exact hnd

/-- The values of the subtree found are a block of the in-order sequence. -/
theorem Shape.subAt_vals (lt : T → T → Bool) (v : T) (S : Shape T) :
    ∃ pre post, S.vals = pre ++ (S.subAt lt v).vals ++ post := by
  induction S with
  | nil => exact ⟨[], [], rfl⟩
  | node l a x r ihl ihr =>
    simp only [Shape.subAt]
    split_ifs
    · obtain ⟨pre, post, h⟩ := ihr
      exact ⟨l.vals ++ x :: pre, post, by simp [h]⟩
    · obtain ⟨pre, post, h⟩ := ihl
      exact ⟨pre, post ++ x :: r.vals, by simp [h]⟩
    · exact ⟨[], [], by simp⟩

/-- The node found holds a value equivalent to the one searched for. -/
theorem Shape.subAt_equiv (lt : T → T → Bool) (v : T) (S : Shape T) {l r : Shape T} {a : Nat}
    {x : T} (hs : S.subAt lt v = .node l a x r) : lt x v = false ∧ lt v x = false := by
  induction S with
  | nil => simp [Shape.subAt] at hs
  | node l' a' x' r' ihl ihr =>
    simp only [Shape.subAt] at hs
    split_ifs at hs with h1 h2
    · exact ihr hs
    · exact ihl hs
    · simp only [Shape.node.injEq] at hs
      obtain ⟨-, -, rfl, -⟩ := hs
      exact ⟨by simpa using h1, by simpa using h2⟩

/-- In a chain the node found has no right child. -/
theorem Chain.subAt_right_nil (lt : T → T → Bool) (v : T) :
    ∀ (c : Shape T), Chain c → ∀ {l r : Shape T} {a : Nat} {x : T},
      c.subAt lt v = .node l a x r → r = .nil ∧ Chain l := by
  intro c
  induction c with
  | nil => intro _ l r a x hs; simp [Shape.subAt] at hs
  | node l' a' x' r' ihl _ =>
    rintro ⟨hr, hc⟩ l r a x hs
    subst hr
    simp only [Shape.subAt] at hs
    by_cases h1 : lt x' v = true
    · rw [if_pos h1] at hs
      exact absurd hs (by simp)
    · rw [if_neg h1] at hs
      by_cases h2 : lt v x' = true
      · rw [if_pos h2] at hs
        exact ihl hc hs
      · rw [if_neg h2] at hs
        simp only [Shape.node.injEq] at hs
        obtain ⟨rfl, -, -, rfl⟩ := hs
        exact ⟨rfl, hc⟩

/-- In a comb with the end node below its rightmost element, a node found that has a right
child has a chain as its left subtree. -/
theorem Comb.subAt_attach (lt : T → T → Bool) (v : T) (e : Nat) (m : T) :
    ∀ (bt : Shape T), Comb bt → ∀ {l r : Shape T} {a : Nat} {x : T},
      (bt.attach e m).subAt lt v = .node l a x r → r ≠ .nil → Chain l := by
  intro bt
  induction bt with
  | nil =>
    intro _ l r a x hs hr
    simp only [Shape.attach, Shape.subAt] at hs
    by_cases h1 : lt m v = true
    · rw [if_pos h1] at hs
      exact absurd hs (by simp)
    · rw [if_neg h1] at hs
      by_cases h2 : lt v m = true
      · rw [if_pos h2] at hs
        exact absurd hs (by simp)
      · rw [if_neg h2] at hs
        simp only [Shape.node.injEq] at hs
        exact absurd hs.2.2.2.symm hr
  | node l' a' x' r' _ ihr =>
    rintro ⟨hcl, hcr⟩ l r a x hs hr
    simp only [Shape.attach, Shape.subAt] at hs
    by_cases h1 : lt x' v = true
    · rw [if_pos h1] at hs
      exact ihr hcr hs hr
    · rw [if_neg h1] at hs
      by_cases h2 : lt v x' = true
      · rw [if_pos h2] at hs
        exact absurd (Chain.subAt_right_nil lt v l' hcl hs).1 hr
      · rw [if_neg h2] at hs
        simp only [Shape.node.injEq] at hs
        obtain ⟨rfl, -, -, -⟩ := hs
        exact hcl

/-- A stored value is found by the search, in an ordered tree. -/
theorem Shape.subAt_of_mem (lt : T → T → Bool) (hswo : StrictWeakOrder lt) (v : T) :
    ∀ (S : Shape T), Ordered lt S → v ∈ S.vals →
      ∃ l a r, S.subAt lt v = .node l a v r := by
  intro S
  induction S with
  | nil => intro _ hv; simp at hv
  | node l a x r ihl ihr =>
    rintro ⟨ho1, ho2, hol, hor⟩ hv
    simp only [Shape.vals_node, List.mem_append, List.mem_cons] at hv
    simp only [Shape.subAt]
    rcases hv with hv | hv | hv
    · have h1 := ho1 v hv
      rw [if_neg (by simp [hswo.asymm h1]), if_pos h1]
      exact ihl hol hv
    · subst hv
      rw [if_neg (by simp [hswo.irrefl]), if_neg (by simp [hswo.irrefl])]
      exact ⟨l, a, r, rfl⟩
    · have h1 := ho2 v hv
      rw [if_pos h1]
      exact ihr hor hv

/-- The search in a tree with the end node attached finds what it finds without it, as
long as the value is stored. -/
theorem Shape.subAt_attach_of_mem (lt : T → T → Bool) (hswo : StrictWeakOrder lt) (v : T)
    (e : Nat) (m : T) :
    ∀ (bt : Shape T), Ordered lt bt → v ∈ bt.vals →
      ∃ l a r, (bt.attach e m).subAt lt v = .node l a v r := by
  intro bt
  induction bt with
  | nil => intro _ hv; simp at hv
  | node l a x r _ ihr =>
    rintro ⟨ho1, ho2, hol, hor⟩ hv
    simp only [Shape.vals_node, List.mem_append, List.mem_cons] at hv
    simp only [Shape.attach, Shape.subAt]
    rcases hv with hv | hv | hv
    · have h1 := ho1 v hv
      rw [if_neg (by simp [hswo.asymm h1]), if_pos h1]
      exact Shape.subAt_of_mem lt hswo v l hol hv
    · subst hv
      rw [if_neg (by simp [hswo.irrefl]), if_neg (by simp [hswo.irrefl])]
      exact ⟨l, a, _, rfl⟩
    · have h1 := ho2 v hv
      rw [if_pos h1]
      exact ihr hor hv

/-- `erase_found` on a node with both links set whose left child has no right child: the
node takes the value and the left link of its left child, the left child's own left child
gets the node as parent, and the left child is deleted; nothing else changes. -/
theorem erase_found_left_child (h : Heap T) (t : BinarySearchTree) (a p rgt : Nat)
    (p2 par lp : Option Nat) (x y : T)
    (hca : h.cells a = some ⟨x, some p, some rgt, par⟩)
    (hcp : h.cells p = some ⟨y, lp, none, some a⟩) (hap : a ≠ p)
    (hlp : ∀ w, lp = some w → w ≠ a ∧ w ≠ p ∧ ∃ cw, h.cells w = some cw) :
    ∃ h', erase_found h t (some a) p2 = .ok (h', t) ∧
      h'.cells a = some ⟨y, lp, some rgt, par⟩ ∧ h'.cells p = none ∧
      (∀ w cw, lp = some w → h.cells w = some cw →
        h'.cells w = some { cw with parent := some a }) ∧
      (∀ b, b ≠ a → b ≠ p → lp ≠ some b → h'.cells b = h.cells b) ∧ h'.next = h.next := by
  have hpa : p ≠ a := fun he => hap he.symm
  cases lp with
  | none =>
    refine ⟨⟨fun b => if b = p then none else if b = a then some ⟨y, none, some rgt, par⟩
      else h.cells b, h.next⟩, ?_, ?_, ?_, ?_, ?_, rfl⟩
    · simp [erase_found, Heap.load, hca, hcp, erase_largest, Heap.fuel, Heap.modify,
        Heap.store, Heap.free, hap, hpa]
      funext b
      by_cases hb1 : b = p
      · simp [hb1]
      · by_cases hb2 : b = a
        · simp [hb2, hap]
        · simp [hb1, hb2]
    · simp [hap]
    · simp
    · intro w cw hw; exact absurd hw (by simp)
    · intro b hb1 hb2 _
      simp [hb1, hb2]
  | some w =>
    obtain ⟨hwa, hwp, cw, hcw⟩ := hlp w rfl
    have haw : a ≠ w := fun he => hwa he.symm
    have hpw : p ≠ w := fun he => hwp he.symm
    refine ⟨⟨fun b => if b = p then none else if b = w then some { cw with parent := some a }
      else if b = a then some ⟨y, some w, some rgt, par⟩ else h.cells b, h.next⟩,
      ?_, ?_, ?_, ?_, ?_, rfl⟩
    · simp [erase_found, Heap.load, hca, hcp, hcw, erase_largest, Heap.fuel, Heap.modify,
        Heap.store, Heap.free, hap, hpa, hwa, hwp, haw, hpw]
      funext b
      by_cases hb1 : b = p
      · simp [hb1]
      · by_cases hb2 : b = w
        · simp [hb2, hwp]
        · by_cases hb3 : b = a
          · simp [hb3, hap, haw]
          · simp [hb1, hb2, hb3]
    · simp [hap, haw]
    · simp
    · intro w' cw' hw' hcw'
      simp only [Option.some.injEq] at hw'
      subst hw'
      rw [hcw] at hcw'
      simp only [Option.some.injEq] at hcw'
      subst hcw'
      simp [hwp]
    · intro b hb1 hb2 hb3
      have hb3' : b ≠ w := fun he => hb3 (by rw [he])
      simp [hb1, hb2, hb3']
theorem List.eq_of_append_singleton_eq {α : Type} {A B rest : List α} {m : α}
    (hrest : rest ≠ []) (h : A ++ [m] = B ++ rest) : A = B ++ rest.dropLast := by
  have h1 : rest = rest.dropLast ++ [rest.getLast hrest] := (List.dropLast_append_getLast hrest).symm
  rw [h1, ← List.append_assoc] at h
  exact (List.append_inj' h rfl).1

/-! ## What has been deleted stays deleted -/

theorem Heap.Shrinks.same (h : Heap T) : h.Shrinks h := ⟨rfl, fun _ hb => hb⟩

theorem Heap.Shrinks.step {h1 h2 h3 : Heap T} (h12 : h1.Shrinks h2) (h23 : h2.Shrinks h3) :
    h1.Shrinks h3 :=
  ⟨by rw [h23.1, h12.1], fun b hd => h23.2 b (h12.2 b hd)⟩

theorem Heap.Shrinks.keeps {h h' : Heap T} (hs : h.Shrinks h') : h.Keeps h' :=
  ⟨by rw [hs.1], fun b _ hd => hs.2 b hd⟩

theorem Heap.Keeps.self (h : Heap T) : h.Keeps h := ⟨le_refl _, fun _ _ hb => hb⟩

theorem Heap.Keeps.chain {h1 h2 h3 : Heap T} (h12 : h1.Keeps h2) (h23 : h2.Keeps h3) :
    h1.Keeps h3 :=
  ⟨le_trans h12.1 h23.1, fun b hb hd => h23.2 b (lt_of_lt_of_le hb h12.1) (h12.2 b hb hd)⟩

theorem Heap.modify_shrinks {h h' : Heap T} {p : Option Nat} {f : TreeNode T → TreeNode T}
    (hrun : h.modify p f = .ok h') : h.Shrinks h' := by
  cases p with
  | none => simp [Heap.modify] at hrun
  | some a =>
    simp only [Heap.modify] at hrun
    cases hc : h.cells a with
    | none => simp [hc] at hrun
    | some c =>
      simp only [hc, Res.ok.injEq] at hrun
      subst hrun
      refine ⟨rfl, ?_⟩
      intro b hd
      have : b ≠ a := by
        rintro rfl
        rw [hc] at hd
        exact absurd hd (by simp)
      simp [Heap.store, this, hd]

theorem Heap.free_shrinks {h h' : Heap T} {p : Option Nat}
    (hrun : h.free p = .ok h') : h.Shrinks h' ∧
      ∀ a, p = some a → (h.cells a).isSome = true ∧ h'.cells a = none := by
  cases p with
  | none =>
    simp only [Heap.free, Res.ok.injEq] at hrun
    subst hrun
    exact ⟨Heap.Shrinks.same _, fun a ha => absurd ha (by simp)⟩
  | some a =>
    simp only [Heap.free] at hrun
    cases hc : h.cells a with
    | none => simp [hc] at hrun
    | some c =>
      simp only [hc, Res.ok.injEq] at hrun
      subst hrun
      refine ⟨⟨rfl, ?_⟩, ?_⟩
      · intro b hd
        by_cases hb : b = a
        · simp [hb]
        · simp [hb, hd]
      · intro a' ha'
        simp only [Option.some.injEq] at ha'
        subst ha'
        simp [hc]

theorem Heap.alloc_keeps (h : Heap T) (c : TreeNode T) : h.Keeps (h.alloc c).2 := by
  refine ⟨by simp [Heap.alloc], ?_⟩
  intro b hb hd
  have : b ≠ h.next := by omega
  simp [Heap.alloc, this, hd]

theorem Heap.load_eq_ok {h : Heap T} {p : Option Nat} {c : TreeNode T}
    (hrun : h.load p = .ok c) : ∃ a, p = some a ∧ h.cells a = some c := by
  cases p with
  | none => simp [Heap.load] at hrun
  | some a =>
    simp only [Heap.load] at hrun
    cases hc : h.cells a with
    | none => simp [hc] at hrun
    | some c' =>
      simp only [hc, Res.ok.injEq] at hrun
      exact ⟨a, rfl, hrun ▸ hc⟩

theorem insert_node_shrinks (isless : T → T → Bool) (eN : Option Nat) :
    ∀ (fuel : Nat) (h h' : Heap T) (this new_node : Option Nat),
      insert_node isless eN fuel h this new_node = .ok h' → h.Shrinks h' := by
  intro fuel
  induction fuel with
  | zero => intro h h' this new_node hrun; simp [insert_node] at hrun
  | succ fuel ih =>
    intro h h' this new_node hrun
    simp only [insert_node, Res.bind_eq_ok] at hrun
    obtain ⟨c, -, n, -, hrun⟩ := hrun
    split_ifs at hrun
    · simp only [Res.bind_eq_ok] at hrun
      obtain ⟨h1, hm1, hm2⟩ := hrun
      exact (Heap.modify_shrinks hm1).step (Heap.modify_shrinks hm2)
    · exact ih _ _ _ _ hrun
    · simp only [Res.bind_eq_ok] at hrun
      obtain ⟨h1, hm1, h2, hm2, h3, hm3, n', -, h4, hm4, hm5⟩ := hrun
      exact ((((Heap.modify_shrinks hm1).step (Heap.modify_shrinks hm2)).step
        (Heap.modify_shrinks hm3)).step (Heap.modify_shrinks hm4)).step
          (Heap.modify_shrinks hm5)
    · exact ih _ _ _ _ hrun
    · simp only [Res.pure_eq, Res.ok.injEq] at hrun
      subst hrun
      exact Heap.Shrinks.same _

/-- An `insert` into a tree whose `root` is set leaves the tree object as it is and brings
no deleted cell back. -/
theorem insert_keeps (isless : T → T → Bool) {h h' : Heap T} {t t' : BinarySearchTree} (v : T)
    (hroot : t.root ≠ none) (hrun : insert isless h t v = .ok (h', t')) :
    t' = t ∧ h.Keeps h' := by
  rw [insert_of_root_ne_none isless h t v hroot, Res.bind_eq_ok] at hrun
  obtain ⟨h2, hn, hrun⟩ := hrun
  simp only [Res.ok.injEq, Prod.mk.injEq] at hrun
  obtain ⟨rfl, rfl⟩ := hrun
  exact ⟨rfl, (Heap.alloc_keeps h _).chain (insert_node_shrinks isless _ _ _ _ _ _ hn).keeps⟩

/-- Whenever `erase_found` returns it has deleted a node, has brought no deleted cell back,
and has left `endNode` alone and `root` set. -/
theorem erase_found_shrinks {h h' : Heap T} {t t' : BinarySearchTree} {tbr p2 : Option Nat}
    (hrun : erase_found h t tbr p2 = .ok (h', t')) :
    h.Shrinks h' ∧ t'.endNode = t.endNode ∧ (t.root ≠ none → t'.root ≠ none) ∧
      ∃ q, (h.cells q).isSome = true ∧ h'.cells q = none := by
  simp only [erase_found, Res.bind_eq_ok] at hrun
  obtain ⟨c, hc, hrun⟩ := hrun
  obtain ⟨a, rfl, hca⟩ := Heap.load_eq_ok hc
  have hlive : (h.cells a).isSome = true := by simp [hca]
  by_cases hone : c.left = none ∨ c.right = none
  · rw [if_pos hone] at hrun
    generalize (if c.left = none then c.right else c.left) = nc at hrun
    cases p2 with
    | none =>
      simp only [Res.bind_eq_ok, Res.pure_eq, Res.ok.injEq, Prod.mk.injEq] at hrun
      obtain ⟨h1, hm, h2, hf, rfl, rfl⟩ := hrun
      have k := Heap.free_shrinks hf
      refine ⟨(Heap.modify_shrinks hm).step k.1, rfl, fun _ => ?_, a, hlive, (k.2 a rfl).2⟩
      intro hnc
      simp only at hnc
      rw [hnc] at hm
      simp [Heap.modify] at hm
    | some q =>
      simp only [Res.bind_eq_ok] at hrun
      obtain ⟨cq, -, hrun⟩ := hrun
      split_ifs at hrun <;>
        simp only [Res.bind_eq_ok, Res.pure_eq, Res.ok.injEq, Prod.mk.injEq] at hrun
      · obtain ⟨h1, hm, h2, hm2, h3, hf, rfl, rfl⟩ := hrun
        have k := Heap.free_shrinks hf
        exact ⟨((Heap.modify_shrinks hm).step (Heap.modify_shrinks hm2)).step k.1, rfl, id, a,
          hlive, (k.2 a rfl).2⟩
      · obtain ⟨h1, hm, h2, rfl, h3, hf, rfl, rfl⟩ := hrun
        have k := Heap.free_shrinks hf
        exact ⟨(Heap.modify_shrinks hm).step k.1, rfl, id, a, hlive, (k.2 a rfl).2⟩
      · obtain ⟨h1, hm, h2, hm2, h3, hf, rfl, rfl⟩ := hrun
        have k := Heap.free_shrinks hf
        exact ⟨((Heap.modify_shrinks hm).step (Heap.modify_shrinks hm2)).step k.1, rfl, id, a,
          hlive, (k.2 a rfl).2⟩
      · obtain ⟨h1, hm, h2, rfl, h3, hf, rfl, rfl⟩ := hrun
        have k := Heap.free_shrinks hf
        exact ⟨(Heap.modify_shrinks hm).step k.1, rfl, id, a, hlive, (k.2 a rfl).2⟩
  · rw [if_neg hone] at hrun
    simp only [Res.bind_eq_ok] at hrun
    obtain ⟨⟨lp, lg⟩, -, lgc, hlg, h1, hm1, hrun⟩ := hrun
    obtain ⟨q, hq, hcq⟩ := Heap.load_eq_ok hlg
    simp only at hq
    subst hq
    have hqlive : (h.cells q).isSome = true := by simp [hcq]
    split_ifs at hrun <;>
      simp only [Res.bind_eq_ok, Res.pure_eq, Res.ok.injEq, Prod.mk.injEq] at hrun
    all_goals
      obtain ⟨lg2, -, h2, hm2, lpc, -, hrun⟩ := hrun
      split_ifs at hrun <;>
        simp only [Res.bind_eq_ok, Res.pure_eq, Res.ok.injEq, Prod.mk.injEq] at hrun
    · obtain ⟨h3, hm3, h4, hf, rfl, rfl⟩ := hrun
      have k := Heap.free_shrinks hf
      exact ⟨(((Heap.modify_shrinks hm1).step (Heap.modify_shrinks hm2)).step
        (Heap.modify_shrinks hm3)).step k.1, rfl, id, q, hqlive, (k.2 q rfl).2⟩
    · obtain ⟨h3, rfl, h4, hf, rfl, rfl⟩ := hrun
      have k := Heap.free_shrinks hf
      exact ⟨((Heap.modify_shrinks hm1).step (Heap.modify_shrinks hm2)).step k.1, rfl, id, q,
        hqlive, (k.2 q rfl).2⟩
    · obtain ⟨h3, hm3, h4, hf, rfl, rfl⟩ := hrun
      have k := Heap.free_shrinks hf
      exact ⟨(((Heap.modify_shrinks hm1).step (Heap.modify_shrinks hm2)).step
        (Heap.modify_shrinks hm3)).step k.1, rfl, id, q, hqlive, (k.2 q rfl).2⟩
    · obtain ⟨h3, rfl, h4, hf, rfl, rfl⟩ := hrun
      have k := Heap.free_shrinks hf
      exact ⟨((Heap.modify_shrinks hm1).step (Heap.modify_shrinks hm2)).step k.1, rfl, id, q,
        hqlive, (k.2 q rfl).2⟩

/-- Whenever `erase` returns it has brought no deleted cell back and has left `endNode`
alone and `root` set; either nothing changed or a node was deleted. -/
theorem erase_shrinks (lt : T → T → Bool) {h h' : Heap T} {t t' : BinarySearchTree} (v : T)
    (hrun : erase lt h t v = .ok (h', t')) :
    h.Shrinks h' ∧ t'.endNode = t.endNode ∧ (t.root ≠ none → t'.root ≠ none) ∧
      ((h' = h ∧ t' = t) ∨ ∃ q, (h.cells q).isSome = true ∧ h'.cells q = none) := by
  rw [erase_eq_bind, Res.bind_eq_ok] at hrun
  obtain ⟨p, -, hrun⟩ := hrun
  split_ifs at hrun
  · simp only [Res.ok.injEq, Prod.mk.injEq] at hrun
    obtain ⟨rfl, rfl⟩ := hrun
    exact ⟨Heap.Shrinks.same _, rfl, id, Or.inl ⟨rfl, rfl⟩⟩
  · obtain ⟨k, he, hr, hq⟩ := erase_found_shrinks hrun
    exact ⟨k, he, hr, Or.inr hq⟩

/-! ## Trees reached by `insert` and `erase` -/

theorem Ordered.of_pairwise (lt : T → T → Bool) :
    ∀ s : Shape T, s.vals.Pairwise (fun a b => lt a b = true) → Ordered lt s := by
  intro s
  induction s with
  | nil => intro _; trivial
  | node l a x r ihl ihr =>
    intro hp
    rw [Shape.vals_node] at hp
    obtain ⟨hl, hxr, hlr⟩ := List.pairwise_append.1 hp
    obtain ⟨hx, hr⟩ := List.pairwise_cons.1 hxr
    exact ⟨fun y hy => hlr y hy x (List.mem_cons_self _ _), hx, ihl hl, ihr hr⟩

theorem Ordered.of_sublist {lt : T → T → Bool}
    (htr : ∀ a b c, lt a b = true → lt b c = true → lt a c = true) {s s' : Shape T}
    (ho : Ordered lt s) (hsub : s'.vals.Sublist s.vals) : Ordered lt s' :=
  Ordered.of_pairwise lt s' ((ho.pairwise htr).sublist hsub)

theorem Shape.eraseAt_vals_sublist (s : Shape T) : s.eraseAt.vals.Sublist s.vals := by
  cases s with
  | nil => exact List.Sublist.refl _
  | node l a x r =>
    by_cases hone : l = .nil ∨ r = .nil
    · rw [Shape.eraseAt_one a x hone, Shape.vals_node]
      split_ifs
      · exact (List.sublist_cons_self x _).trans (List.sublist_append_right _ _)
      · exact List.sublist_append_left _ _
    · simp only [not_or] at hone
      rw [Shape.eraseAt_two_vals a x hone.1 hone.2, Shape.vals_node]
      exact List.Sublist.append (List.Sublist.refl _) (List.sublist_cons_self x _)

theorem Shape.erase_vals_sublist (lt : T → T → Bool) (v : T) (s : Shape T) :
    (s.erase lt v).vals.Sublist s.vals := by
  induction s with
  | nil => exact List.Sublist.refl _
  | node l a x r ihl ihr =>
    rw [Shape.erase_node]
    split_ifs
    · simp only [Shape.vals_node]
      exact List.Sublist.append (List.Sublist.refl _) (List.Sublist.cons₂ x ihr)
    · simp only [Shape.vals_node]
      exact List.Sublist.append ihl (List.Sublist.refl _)
    · exact Shape.eraseAt_vals_sublist _

/-- `erase` on a tree with the end node below its rightmost element either keeps the end
node where it is, or finds the end node and removes it. -/
theorem Shape.erase_attach_cases (lt : T → T → Bool) (v : T) (e : Nat) (m : T) :
    ∀ bt : Shape T,
      (∃ bt' : Shape T, (bt.attach e m).erase lt v = bt'.attach e m ∧
        bt'.vals.Sublist bt.vals) ∨ (bt.attach e m).erase lt v = bt := by
  intro bt
  induction bt with
  | nil =>
    simp only [Shape.attach]
    rw [Shape.erase_node]
    by_cases h1 : lt m v = true
    · rw [if_pos h1]
      exact Or.inl ⟨.nil, rfl, List.Sublist.refl _⟩
    · rw [if_neg h1]
      by_cases h2 : lt v m = true
      · rw [if_pos h2]
        exact Or.inl ⟨.nil, rfl, List.Sublist.refl _⟩
      · rw [if_neg h2]
        exact Or.inr rfl
  | node l a x r _ ihr =>
    simp only [Shape.attach]
    rw [Shape.erase_node]
    by_cases h1 : lt x v = true
    · rw [if_pos h1]
      rcases ihr with ⟨r', hr', hsub⟩ | hr'
      · refine Or.inl ⟨.node l a x r', by rw [hr']; rfl, ?_⟩
        simp only [Shape.vals_node]
        exact List.Sublist.append (List.Sublist.refl _) (List.Sublist.cons₂ x hsub)
      · exact Or.inr (by rw [hr'])
    · rw [if_neg h1]
      by_cases h2 : lt v x = true
      · rw [if_pos h2]
        refine Or.inl ⟨.node (l.erase lt v) a x r, rfl, ?_⟩
        simp only [Shape.vals_node]
        exact List.Sublist.append (Shape.erase_vals_sublist lt v l) (List.Sublist.refl _)
      · rw [if_neg h2]
        by_cases hl : l = .nil
        · subst hl
          refine Or.inl ⟨r, ?_, ?_⟩
          · rw [Shape.eraseAt_one a x (Or.inl rfl)]
            simp
          · simp only [Shape.vals_node, Shape.vals_nil, List.nil_append]
            exact List.sublist_cons_self x _
        · refine Or.inl ⟨.node l.removeMax a (l.maxVal x) r, ?_, ?_⟩
          · rw [Shape.eraseAt_two a x hl (Shape.attach_ne_nil e m r)]
            rfl
          · simp only [Shape.vals_node]
            have h3 : l.removeMax.vals ++ l.maxVal x :: r.vals = l.vals ++ r.vals := by
              rw [← Shape.removeMax_vals x hl]
              simp
            rw [h3]
            exact List.Sublist.append (List.Sublist.refl _) (List.sublist_cons_self x _)
/-- An `insert` that returns, into a tree whose root is the end node, puts the value into
the left subtree of the end node or drops it. -/
theorem insert_end_root (lt : T → T → Bool) {h h' : Heap T} {t t' : BinarySearchTree}
    {sl : Shape T} {e : Nat} {m : T} (v : T) (hw : Wf h t (.node sl e m .nil))
    (hord : Ordered lt (.node sl e m .nil)) (hrun : insert lt h t v = .ok (h', t')) :
    ∃ sl', Wf h' t' (.node sl' e m .nil) ∧ Ordered lt (.node sl' e m .nil) := by
  obtain ⟨hroot, hrep, hnd, hlt, hend⟩ := hw
  have hend' : t.endNode = some e := by rw [hend]; simp
  obtain ⟨ho1, ho2, hosl, -⟩ := hord
  have hndsl : sl.addrs.Nodup := by
    rw [Shape.addrs_node] at hnd
    exact (List.nodup_append.1 hnd).1
  have hesl : e ∉ sl.addrs := by
    rw [Shape.addrs_node] at hnd
    exact fun hm => (List.nodup_append.1 hnd).2.2 hm (List.mem_cons_self _ _)
  have hnsl : h.next ∉ sl.addrs := fun hm => Nat.lt_irrefl _ (hlt _ (by simp [hm]))
  have hen : e < h.next := hlt e (by simp)
  have hspec := insert_rep lt v hroot hrep hnd hlt (by simp)
  rw [hend'] at hspec
  -- the tree-level result
  have hcases : (∃ f, (Shape.node sl e m .nil).ins lt (some e) h.next v = .fault f) ∨
      (Shape.node sl e m .nil).ins lt (some e) h.next v = .ok (.node sl e m .nil) ∨
      (lt v m = true ∧ (Shape.node sl e m .nil).ins lt (some e) h.next v =
        .ok (.node (sl.bins lt h.next v) e m .nil)) := by
    rw [Shape.ins_node]
    by_cases h1 : lt v m = true
    · rw [if_pos h1]
      by_cases hsl : sl.ptr = none
      · rw [if_pos hsl]
        have := Shape.ptr_eq_none.1 hsl
        subst this
        exact Or.inr (Or.inr ⟨h1, rfl⟩)
      · rw [if_neg hsl]
        cases hl : sl.ins lt (some e) h.next v with
        | fault f => exact Or.inl ⟨f, rfl⟩
        | ok l' =>
          rw [Shape.ins_plain lt e h.next v sl l' hesl hl]
          exact Or.inr (Or.inr ⟨h1, rfl⟩)
    · rw [if_neg h1]
      by_cases h2 : lt m v = true
      · rw [if_pos h2, if_neg (by simp)]
        exact Or.inl ⟨.nullDeref, rfl⟩
      · rw [if_neg h2]
        exact Or.inr (Or.inl rfl)
  rcases hcases with ⟨f, hf⟩ | hsame | ⟨h1, hins⟩
  · rw [hf] at hspec
    simp only at hspec
    rw [hspec] at hrun
    exact absurd hrun (by simp)
  · rw [hsame] at hspec
    obtain ⟨h2, hrun2, hrep2, -, hnext2, -⟩ := hspec
    rw [hrun2] at hrun
    simp only [Res.ok.injEq, Prod.mk.injEq] at hrun
    obtain ⟨rfl, rfl⟩ := hrun
    exact ⟨sl, ⟨hroot, hrep2, hnd, fun a ha => by rw [hnext2]; exact Nat.lt_succ_of_lt (hlt a ha),
      hend⟩, ho1, ho2, hosl, trivial⟩
  · rw [hins] at hspec
    obtain ⟨h2, hrun2, hrep2, -, hnext2, -⟩ := hspec
    rw [hrun2] at hrun
    simp only [Res.ok.injEq, Prod.mk.injEq] at hrun
    obtain ⟨rfl, rfl⟩ := hrun
    refine ⟨sl.bins lt h.next v, ⟨hroot, hrep2, ?_, ?_, ?_⟩, ?_, by simp, hosl.bins _ _, trivial⟩
    · rw [Shape.addrs_node]
      refine List.nodup_append.2 ⟨Shape.nodup_bins lt _ v sl hndsl hnsl, by simp, ?_⟩
      intro b hb1 hb2
      simp only [Shape.addrs_nil, List.mem_singleton] at hb2
      subst hb2
      rcases Shape.mem_addrs_bins lt _ v sl hb1 with hb | hb
      · omega
      · exact hesl hb
    · intro a ha
      rw [hnext2]
      simp only [Shape.addrs_node, Shape.addrs_nil, List.mem_append, List.mem_singleton] at ha
      rcases ha with ha | ha
      · rcases Shape.mem_addrs_bins lt _ v sl ha with hb | hb
        · omega
        · exact Nat.lt_succ_of_lt (hlt a (by simp [hb]))
      · omega
    · rw [hend']; simp
    · intro y hy
      rcases Shape.mem_vals_bins lt _ v sl hy with hy' | hy'
      · rw [hy']; exact h1
      · exact ho1 y hy'

/-- The invariant is kept by every `insert` that returns. -/
theorem insert_inv (lt : T → T → Bool) {h h' : Heap T} {t t' : BinarySearchTree} (v : T)
    (hinv : TreeInv lt h t) (hrun : insert lt h t v = .ok (h', t')) : TreeInv lt h' t' := by
  rcases hinv with hroot | ⟨bt, e, m, hbt, hw, hord⟩ | ⟨sl, e, m, hw, hord⟩ |
    ⟨hroot, e, hend, hlt, hdead⟩
  · obtain ⟨h1, hins, hw1, -, -⟩ := insert_first_wf lt h t v hroot
    rw [hins] at hrun
    simp only [Res.ok.injEq, Prod.mk.injEq] at hrun
    obtain ⟨rfl, rfl⟩ := hrun
    exact Or.inr (Or.inl ⟨.node .nil h.next v .nil, h.next + 1, v, by simp, hw1,
      by simp, by simp, trivial, trivial⟩)
  · have hm := insert_model lt v (Or.inr ⟨hbt, e, m, hw⟩) hrun
    rcases hm with ⟨h0, -⟩ | ⟨hne, e', m', hw'⟩
    · exact absurd h0 (Shape.bins_ne_nil _ _ _ _)
    · exact Or.inr (Or.inl ⟨_, e', m', hne, hw', hord.bins _ _⟩)
  · obtain ⟨sl', hw', hord'⟩ := insert_end_root lt v hw hord hrun
    exact Or.inr (Or.inr (Or.inl ⟨sl', e, m, hw', hord'⟩))
  · obtain ⟨rfl, hk⟩ := insert_keeps lt v hroot hrun
    exact Or.inr (Or.inr (Or.inr ⟨hroot, e, hend, lt_of_lt_of_le hlt hk.1, hk.2 e hlt hdead⟩))
/-- An `erase` that returns and leaves the end node last in the tree leaves a tree object. -/
theorem erase_end_kept (lt : T → T → Bool) {h h' : Heap T} {t t' : BinarySearchTree}
    {S : Shape T} {e : Nat} (v : T) (hw : Wf h t S) (hne : S.erase lt v ≠ .nil)
    (hlast : (S.erase lt v).addrs.getLast? = some e) (hend : t.endNode = some e)
    (hrun : erase lt h t v = .ok (h', t')) : Wf h' t' (S.erase lt v) := by
  have hlen := hw.length_le
  obtain ⟨hroot, hrep, hnd, hlt, -⟩ := hw
  obtain ⟨h2, hrun2, hrep2, hnext, -⟩ := erase_rep lt v hroot hrep hnd hlen hne
  rw [hrun2] at hrun
  simp only [Res.ok.injEq, Prod.mk.injEq] at hrun
  obtain ⟨rfl, rfl⟩ := hrun
  have hsub := Shape.erase_addrs_sublist lt v S
  exact ⟨rfl, hrep2, hnd.sublist hsub, fun a ha => by rw [hnext]; exact hlt a (hsub.subset ha),
    by rw [hlast]; exact hend⟩

/-- An `erase` that returns and removes the end node from the tree has deleted it. -/
theorem erase_end_removed (lt : T → T → Bool) {h h' : Heap T} {t t' : BinarySearchTree}
    {S : Shape T} (e : Nat) (v : T) (hw : Wf h t S) (hne : S.erase lt v ≠ .nil)
    (haddr : S.addrs = (S.erase lt v).addrs ++ [e])
    (hrun : erase lt h t v = .ok (h', t')) :
    t'.root ≠ none ∧ t'.endNode = some e ∧ e < h'.next ∧ h'.cells e = none := by
  have hlen := hw.length_le
  obtain ⟨hroot, hrep, hnd, hlt, hend⟩ := hw
  have hend' : t.endNode = some e := by rw [hend, haddr]; simp
  obtain ⟨hk, hend2, -, halt⟩ := erase_shrinks lt v hrun
  obtain ⟨h2, hrun2, hrep2, hnext, hframe⟩ := erase_rep lt v hroot hrep hnd hlen hne
  rw [hrun2] at hrun
  simp only [Res.ok.injEq, Prod.mk.injEq] at hrun
  obtain ⟨rfl, rfl⟩ := hrun
  have heS : e ∈ S.addrs := by rw [haddr]; simp
  have heS' : e ∉ (S.erase lt v).addrs := by
    rw [haddr] at hnd
    exact fun hm => (List.nodup_append.1 hnd).2.2 hm (List.mem_singleton_self e)
  refine ⟨fun hp => hne (Shape.ptr_eq_none.1 hp), hend', by rw [hnext]; exact hlt e heS, ?_⟩
  rcases halt with ⟨hh, ht⟩ | ⟨q, hq1, hq2⟩
  · exfalso
    have hp : (S.erase lt v).ptr = S.ptr := by
      have := congrArg BinarySearchTree.root ht
      simp only at this
      rw [this, hroot]
    rw [hh] at hrep2
    have := Rep.unique _ _ none none hrep2 hrep hp
    rw [this] at heS'
    exact heS' heS
  · have hqS : q ∈ S.addrs := by
      by_contra hqS
      rw [hframe q hqS] at hq2
      rw [hq2] at hq1
      exact absurd hq1 (by simp)
    have hqS' : q ∉ (S.erase lt v).addrs := by
      intro hm
      obtain ⟨c, hc⟩ := hrep2.live hm
      rw [hq2] at hc
      exact absurd hc (by simp)
    rw [haddr, List.mem_append, List.mem_singleton] at hqS
    rcases hqS with hqS | hqS
    · exact absurd hqS hqS'
    · rw [← hqS]; exact hq2

/-- `erase` of the end node's cached value from a tree that consists of the end node alone
follows the null link of the node that takes its place. -/
theorem erase_end_alone (lt : T → T → Bool) {h : Heap T} {t : BinarySearchTree} {e : Nat}
    {m : T} (v : T) (hw : Wf h t (.node .nil e m .nil)) (h1 : lt m v = false)
    (h2 : lt v m = false) : erase lt h t v = .fault .nullDeref := by
  obtain ⟨hroot, ⟨hc, -, -⟩, -, -, -⟩ := hw
  simp only [Shape.ptr_node, Shape.ptr_nil] at hroot hc
  simp [erase, erase_find, Heap.fuel, Heap.load, hroot, hc, h1, h2, erase_found, Heap.modify]

theorem erase_of_root_none (lt : T → T → Bool) (h : Heap T) (t : BinarySearchTree) (v : T)
    (hroot : t.root = none) : erase lt h t v = .ok (h, t) := by
  simp [erase, erase_find, Heap.fuel, hroot]

/-- The invariant is kept by every `erase` that returns, whatever `operator<` it searches
with. -/
theorem erase_inv (isless lt : T → T → Bool) (hswo : StrictWeakOrder isless) {h h' : Heap T}
    {t t' : BinarySearchTree} (v : T)
    (hinv : TreeInv isless h t) (hrun : erase lt h t v = .ok (h', t')) :
    TreeInv isless h' t' := by
  rcases hinv with hroot | ⟨bt, e, m, hbt, hw, hord⟩ | ⟨sl, e, m, hw, hord⟩ |
    ⟨hroot, e, hend, hlt, hdead⟩
  · rw [erase_of_root_none lt h t v hroot] at hrun
    simp only [Res.ok.injEq, Prod.mk.injEq] at hrun
    obtain ⟨rfl, rfl⟩ := hrun
    exact Or.inl hroot
  · have hend := hw.endNode_eq
    rcases Shape.erase_attach_cases lt v e m bt with ⟨bt', hbt', hsub⟩ | hrem
    · have hw' := erase_end_kept lt v hw (by rw [hbt']; exact Shape.attach_ne_nil _ _ _)
        (by rw [hbt']; simp) hend hrun
      rw [hbt'] at hw'
      by_cases hn : bt' = .nil
      · subst hn
        exact Or.inr (Or.inr (Or.inl ⟨.nil, e, m, hw', by simp, by simp, trivial, trivial⟩))
      · exact Or.inr (Or.inl ⟨bt', e, m, hn, hw', hord.of_sublist hswo.trans hsub⟩)
    · obtain ⟨hr, he, hl, hd⟩ := erase_end_removed lt e v hw (by rw [hrem]; exact hbt)
        (by rw [hrem]; simp) hrun
      exact Or.inr (Or.inr (Or.inr ⟨hr, e, he, hl, hd⟩))
  · have hend : t.endNode = some e := by rw [hw.2.2.2.2]; simp
    obtain ⟨ho1, ho2, hosl, -⟩ := hord
    by_cases h1 : lt m v = true
    · have he : (Shape.node sl e m .nil).erase lt v = .node sl e m .nil := by
        rw [Shape.erase_node, if_pos h1]; rfl
      have hw' := erase_end_kept lt v hw (by rw [he]; simp) (by rw [he]; simp) hend hrun
      rw [he] at hw'
      exact Or.inr (Or.inr (Or.inl ⟨sl, e, m, hw', ho1, ho2, hosl, trivial⟩))
    · by_cases h2 : lt v m = true
      · have he : (Shape.node sl e m .nil).erase lt v = .node (sl.erase lt v) e m .nil := by
          rw [Shape.erase_node, if_neg h1, if_pos h2]
        have hw' := erase_end_kept lt v hw (by rw [he]; simp) (by rw [he]; simp) hend hrun
        rw [he] at hw'
        have hsub := Shape.erase_vals_sublist lt v sl
        exact Or.inr (Or.inr (Or.inl ⟨sl.erase lt v, e, m, hw',
          fun y hy => ho1 y (hsub.subset hy), by simp, hosl.of_sublist hswo.trans hsub, trivial⟩))
      · by_cases hsl : sl = .nil
        · subst hsl
          rw [erase_end_alone lt v hw (by simpa using h1) (by simpa using h2)] at hrun
          exact absurd hrun (by simp)
        · have he : (Shape.node sl e m .nil).erase lt v = sl := by
            rw [Shape.erase_node, if_neg h1, if_neg h2, Shape.eraseAt_one e m (Or.inr rfl),
              if_neg (fun hp => hsl (Shape.ptr_eq_none.1 hp))]
          obtain ⟨hr, he', hl, hd⟩ := erase_end_removed lt e v hw (by rw [he]; exact hsl)
            (by rw [he]; simp) hrun
          exact Or.inr (Or.inr (Or.inr ⟨hr, e, he', hl, hd⟩))
  · obtain ⟨hk, hend2, hr, -⟩ := erase_shrinks lt v hrun
    exact Or.inr (Or.inr (Or.inr ⟨hr hroot, e, by rw [hend2]; exact hend,
      by rw [hk.1]; exact hlt, hk.2 e hdead⟩))

/-- The invariant holds after every run of `insert` and `erase` calls that return. -/
theorem runOps_inv (isless lt : T → T → Bool) (hswo : StrictWeakOrder isless) :
    ∀ (ops : List (Op T)) (h h' : Heap T) (t t' : BinarySearchTree), TreeInv isless h t →
      runOps isless lt h t ops = .ok (h', t') → TreeInv isless h' t' := by
  intro ops
  induction ops with
  | nil =>
    intro h h' t t' hinv hrun
    simp only [runOps, Res.ok.injEq, Prod.mk.injEq] at hrun
    obtain ⟨rfl, rfl⟩ := hrun
    exact hinv
  | cons op ops ih =>
    intro h h' t t' hinv hrun
    cases op with
    | ins v =>
      simp only [runOps, Res.bind_eq_ok] at hrun
      obtain ⟨⟨h1, t1⟩, hins, hrun⟩ := hrun
      exact ih h1 h' t1 t' (insert_inv isless v hinv hins) hrun
    | del v =>
      simp only [runOps, Res.bind_eq_ok] at hrun
      obtain ⟨⟨h1, t1⟩, hdel, hrun⟩ := hrun
      exact ih h1 h' t1 t' (erase_inv isless lt hswo v hinv hdel) hrun
/-- On a tree object whose elements are in increasing order, `smallest()` returns the first
of them, which no element orders before. -/
theorem smallest_wf (lt : T → T → Bool) (hswo : StrictWeakOrder lt) {h : Heap T}
    {t : BinarySearchTree} {S : Shape T} (hw : Wf h t S) {l : List T}
    (hl : S.vals.dropLast = l) (hne : l ≠ []) (hp : l.Pairwise (fun a b => lt a b = true)) :
    ∃ x, smallest h t = .ok x ∧ x ∈ l ∧ ∀ y ∈ l, lt y x = false := by
  have hlen := hw.length_le
  obtain ⟨hroot, hrep, -, -, -⟩ := hw
  have hS : S ≠ .nil := by
    rintro rfl
    simp at hl
    exact hne hl
  cases hnodes : S.nodes with
  | nil =>
    exfalso
    apply hne
    rw [← hl]
    simp [Shape.vals, hnodes]
  | cons p rest =>
    obtain ⟨a, x⟩ := p
    have hfirst : S.first = some a := by
      rw [Shape.first_eq_head]
      simp [Shape.addrs, hnodes]
    obtain ⟨c, hc, hcx⟩ := hrep.cell (show (a, x) ∈ S.nodes by rw [hnodes]; simp)
    have hsm : smallest h t = .ok x := by
      rw [smallest, hroot, leftmost_rep hrep hS h.fuel (by simp only [Heap.fuel]; omega), hfirst]
      simp [deref, Heap.load, hc, hcx]
    have hvals : S.vals = x :: rest.map Prod.snd := by simp [Shape.vals, hnodes]
    rw [hvals] at hl
    cases hrest : rest.map Prod.snd with
    | nil =>
      rw [hrest] at hl
      simp at hl
      exact absurd hl hne
    | cons z zs =>
      rw [hrest, List.dropLast_cons₂] at hl
      subst hl
      refine ⟨x, hsm, by simp, ?_⟩
      intro y hy
      rcases List.mem_cons.1 hy with hy | hy
      · rw [hy]; exact hswo.irrefl _
      · exact hswo.asymm ((List.pairwise_cons.1 hp).1 y hy)

/-! ## The claims -/

theorem intLess_irrefl (a : Int) : intLess a a = false := by simp [intLess]

theorem intLess_trans (a b c : Int) (h1 : intLess a b = true) (h2 : intLess b c = true) :
    intLess a c = true := by
  simp only [intLess, decide_eq_true_eq] at *
  omega

theorem intLess_strictWeakOrder : StrictWeakOrder intLess where
  irrefl := intLess_irrefl
  trans := intLess_trans
  incomp_trans a b c h1 h2 h3 h4 := by
    simp only [intLess, decide_eq_false_iff_not, not_lt] at *
    constructor <;> omega

theorem pointOrderx_strictWeakOrder : StrictWeakOrder PointOrderx where
  irrefl a := by simp [PointOrderx]
  trans a b c h1 h2 := by
    simp only [PointOrderx, decide_eq_true_eq] at *
    omega
  incomp_trans a b c h1 h2 h3 h4 := by
    simp only [PointOrderx, decide_eq_false_iff_not, not_lt] at *
    constructor <;> omega

theorem stringGreater_strictWeakOrder : StrictWeakOrder stringGreater where
  irrefl a := by simp [stringGreater]
  trans a b c h1 h2 := by
    simp only [stringGreater, decide_eq_true_eq] at *
    exact lt_trans h2 h1
  incomp_trans a b c h1 h2 h3 h4 := by
    simp only [stringGreater, decide_eq_false_iff_not, not_lt] at *
    exact ⟨le_trans h1 h3, le_trans h4 h2⟩

/-- C1, counterexample: with no insertion at all the loop does not visit nothing, it
dereferences the null `root` in `begin()`. -/
theorem c1_no_insertion_faults :
    insertAll intLess Heap.empty BinarySearchTree.empty [] =
        .ok (Heap.empty, BinarySearchTree.empty) ∧
      traverse (Heap.empty : Heap Int) BinarySearchTree.empty = .fault .nullDeref :=
  ⟨rfl, rfl⟩

/-- C1, as amended: for every non-empty sequence of integer insertions into an empty tree
(ordering `std::less<int>`) in which each insert returns, the loop from `begin()` with `++`
up to `end()` returns the distinct inserted values, each once, in increasing order. -/
theorem c1_traverse_sorted_distinct (h0 h : Heap Int) (t : BinarySearchTree) (vs : List Int)
    (hne : vs ≠ [])
    (hrun : insertAll intLess h0 BinarySearchTree.empty vs = .ok (h, t)) :
    ∃ l, traverse h t = .ok l ∧ l.Sorted (· < ·) ∧ ∀ x, x ∈ l ↔ x ∈ vs := by
  obtain ⟨bt, hm, hord, hsub, -, hall, hnil⟩ :=
    insertAll_model intLess intLess_irrefl vs h0 h _ t .nil (Model.empty h0) hrun
  refine ⟨bt.vals, traverse_model hm (hnil (Or.inr hne)), ?_, ?_⟩
  · have := (hord trivial).pairwise intLess_trans
    exact this.imp (fun hab => by simpa [intLess] using hab)
  · intro x
    constructor
    · intro hx
      rcases hsub x hx with h1 | h1
      · simp at h1
      · exact h1
    · intro hx
      obtain ⟨z, hz, h1, h2⟩ := hall x hx
      simp only [intLess, decide_eq_false_iff_not, not_lt] at h1 h2
      have : z = x := le_antisymm h2 h1
      exact this ▸ hz

/-- C1, witness: the scenario of `main.cpp`, inserting 3, 2, 11, 13, 5, 17. -/
theorem c1_witness :
    insertAll intLess Heap.empty BinarySearchTree.empty [3, 2, 11, 13, 5, 17] =
        .ok (built intLess [3, 2, 11, 13, 5, 17]) ∧
      traverse (built intLess [3, 2, 11, 13, 5, 17]).1 (built intLess [3, 2, 11, 13, 5, 17]).2 =
        .ok [2, 3, 5, 11, 13, 17] ∧
      ∃ l, traverse (built intLess [3, 2, 11, 13, 5, 17]).1
          (built intLess [3, 2, 11, 13, 5, 17]).2 = .ok l ∧
        l.Sorted (· < ·) ∧ ∀ x, x ∈ l ↔ x ∈ [3, 2, 11, 13, 5, 17] :=
  ⟨rfl, by decide,
    c1_traverse_sorted_distinct Heap.empty (built intLess [3, 2, 11, 13, 5, 17]).1
      (built intLess [3, 2, 11, 13, 5, 17]).2 [3, 2, 11, 13, 5, 17] (by decide) rfl⟩

/-- C2, counterexample: the tree obtained from the empty tree by no insert at all has no
traversal, `begin()` dereferences the null `root`. -/
theorem c2_no_insert_faults :
    insertAll stringGreater Heap.empty BinarySearchTree.empty [] =
        .ok (Heap.empty, BinarySearchTree.empty) ∧
      traverse (Heap.empty : Heap String) BinarySearchTree.empty = .fault .nullDeref :=
  ⟨rfl, rfl⟩

/-- C2, as amended: for every comparator that is a strict weak ordering and every tree
obtained from the empty tree by at least one insert, all inserts returning, the loop from
`begin()` to `end()` returns a sequence that increases strictly under the comparator: every
visited element orders strictly before every later one. -/
theorem c2_traverse_strictly_increasing (isless : T → T → Bool) (hswo : StrictWeakOrder isless)
    (h0 h : Heap T) (t : BinarySearchTree) (vs : List T) (hne : vs ≠ [])
    (hrun : insertAll isless h0 BinarySearchTree.empty vs = .ok (h, t)) :
    ∃ l, traverse h t = .ok l ∧ l.Pairwise (fun a b => isless a b = true) ∧
      l.Chain' (fun a b => isless a b = true) := by
  obtain ⟨bt, hm, hord, -, -, -, hnil⟩ :=
    insertAll_model isless hswo.irrefl vs h0 h _ t .nil (Model.empty h0) hrun
  have hp := (hord trivial).pairwise hswo.trans
  exact ⟨bt.vals, traverse_model hm (hnil (Or.inr hne)), hp, List.Pairwise.chain' hp⟩

/-- C2, witness: the strings of `main.cpp` under `std::greater`. -/
theorem c2_witness :
    StrictWeakOrder stringGreater ∧
      insertAll stringGreater Heap.empty BinarySearchTree.empty ["Luke", "Kanye", "Pentatonix"] =
        .ok (built stringGreater ["Luke", "Kanye", "Pentatonix"]) ∧
      traverse (built stringGreater ["Luke", "Kanye", "Pentatonix"]).1
          (built stringGreater ["Luke", "Kanye", "Pentatonix"]).2 =
        .ok ["Pentatonix", "Luke", "Kanye"] ∧
      ∃ l, traverse (built stringGreater ["Luke", "Kanye", "Pentatonix"]).1
          (built stringGreater ["Luke", "Kanye", "Pentatonix"]).2 = .ok l ∧
        l.Pairwise (fun a b => stringGreater a b = true) ∧
        l.Chain' (fun a b => stringGreater a b = true) :=
  ⟨stringGreater_strictWeakOrder, rfl, by decide,
    c2_traverse_strictly_increasing stringGreater stringGreater_strictWeakOrder Heap.empty
      (built stringGreater ["Luke", "Kanye", "Pentatonix"]).1
      (built stringGreater ["Luke", "Kanye", "Pentatonix"]).2
      ["Luke", "Kanye", "Pentatonix"] (by decide) rfl⟩

/-- C3, evaluation at the failing input: after `insert(5)` and `insert(2)` have returned,
`insert(3)` follows the null right link of the node holding 2. -/
theorem c3_insert_follows_null_link :
    insertAll intLess Heap.empty BinarySearchTree.empty [5, 2] = .ok (built intLess [5, 2]) ∧
      insert intLess (built intLess [5, 2]).1 (built intLess [5, 2]).2 3 =
        .fault .nullDeref :=
  ⟨rfl, rfl⟩

/-- C4: in a tree built by inserts under the default ordering (the comparator is
`operator<`, a strict weak ordering), `erase(v)` of a stored value returns, and the loop
from `begin()` to `end()` afterwards yields the sequence it yielded before with `v` removed
and every other element in the same order, whatever node held `v`. -/
theorem c4_erase_removes_value [DecidableEq T] (lt : T → T → Bool) (hswo : StrictWeakOrder lt)
    (h0 h : Heap T) (t : BinarySearchTree) (vs l : List T) (v : T)
    (hrun : insertAll lt h0 BinarySearchTree.empty vs = .ok (h, t))
    (htrav : traverse h t = .ok l) (hv : v ∈ l) :
    ∃ h' t', erase lt h t v = .ok (h', t') ∧ traverse h' t' = .ok (l.erase v) ∧
      l.erase v = l.filter (fun y => y != v) := by
  obtain ⟨bt, hm, hord, -, -, -, -⟩ :=
    insertAll_model lt hswo.irrefl vs h0 h _ t .nil (Model.empty h0) hrun
  have hbt : bt ≠ .nil := by
    rintro rfl
    rcases hm with ⟨-, hroot⟩ | ⟨hne, -⟩
    · rw [traverse_of_root_none h t hroot] at htrav
      exact absurd htrav (by simp)
    · exact hne rfl
  have hl : l = bt.vals := by
    have := traverse_model hm hbt
    rw [htrav] at this
    simpa using this
  subst hl
  have hnodup : bt.vals.Nodup := by
    refine ((hord trivial).pairwise hswo.trans).imp ?_
    intro a b hab he
    rw [he, hswo.irrefl] at hab
    exact absurd hab (by simp)
  rcases hm with ⟨h0', -⟩ | ⟨-, e, m, hw⟩
  · exact absurd h0' hbt
  · have hend := hw.endNode_eq
    have hlen := hw.length_le
    obtain ⟨hroot, hrep, hnd, hlt, -⟩ := hw
    obtain ⟨hvals, hlast⟩ :=
      Shape.erase_vals_attach lt hswo.irrefl hswo.trans v e m bt (hord trivial) hv
    have hne : (bt.attach e m).erase lt v ≠ .nil := by
      intro h0'
      rw [h0'] at hvals
      simp at hvals
    obtain ⟨h', hrun', hrep', hnext, -⟩ := erase_rep lt v hroot hrep hnd hlen hne
    have hsub := Shape.erase_addrs_sublist lt v (bt.attach e m)
    have hw' : Wf h' { t with root := ((bt.attach e m).erase lt v).ptr }
        ((bt.attach e m).erase lt v) :=
      ⟨rfl, hrep', hnd.sublist hsub, fun a ha => by rw [hnext]; exact hlt a (hsub.subset ha),
        by rw [hlast]; exact hend⟩
    refine ⟨h', _, hrun', ?_, hnodup.erase_eq_filter v⟩
    rw [traverse_wf hw' hne, hvals]
    simp

/-- C4, witness: erasing the root 3, which has both children, from the tree of `main.cpp`. -/
theorem c4_witness :
    StrictWeakOrder intLess ∧
      insertAll intLess Heap.empty BinarySearchTree.empty [3, 2, 11, 13, 5, 17] =
        .ok (built intLess [3, 2, 11, 13, 5, 17]) ∧
      traverse (built intLess [3, 2, 11, 13, 5, 17]).1 (built intLess [3, 2, 11, 13, 5, 17]).2 =
        .ok [2, 3, 5, 11, 13, 17] ∧
      (3 : Int) ∈ [2, 3, 5, 11, 13, 17] ∧
      ∃ h' t', erase intLess (built intLess [3, 2, 11, 13, 5, 17]).1
          (built intLess [3, 2, 11, 13, 5, 17]).2 3 = .ok (h', t') ∧
        traverse h' t' = .ok (([2, 3, 5, 11, 13, 17] : List Int).erase 3) ∧
        ([2, 3, 5, 11, 13, 17] : List Int).erase 3 =
          ([2, 3, 5, 11, 13, 17] : List Int).filter (fun y => y != 3) :=
  ⟨intLess_strictWeakOrder, rfl, by decide, by decide,
    c4_erase_removes_value intLess intLess_strictWeakOrder Heap.empty
      (built intLess [3, 2, 11, 13, 5, 17]).1 (built intLess [3, 2, 11, 13, 5, 17]).2
      [3, 2, 11, 13, 5, 17] [2, 3, 5, 11, 13, 17] 3 rfl (by decide) (by decide)⟩

/-- C5, evaluation at the failing input: after insert 5, insert 3, erase 5 the tree stores
exactly 3, and `largest()` returns 5, the value left in the end node. -/
theorem c5_largest_returns_erased_value :
    runOps intLess intLess Heap.empty BinarySearchTree.empty [.ins 5, .ins 3, .del 5] =
        .ok (reached intLess intLess [.ins 5, .ins 3, .del 5]) ∧
      traverse (reached intLess intLess [.ins 5, .ins 3, .del 5]).1
          (reached intLess intLess [.ins 5, .ins 3, .del 5]).2 = .ok [3] ∧
      largest (reached intLess intLess [.ins 5, .ins 3, .del 5]).1
          (reached intLess intLess [.ins 5, .ins 3, .del 5]).2 = .ok 5 :=
  ⟨rfl, by decide, by decide⟩

/-- C6, evaluation at the failing input: after insert 5, insert 3, erase 5 the tree stores
exactly 3, and `find(5)` on the root returns true, from the value left in the end node. -/
theorem c6_find_reports_end_node_value :
    runOps intLess intLess Heap.empty BinarySearchTree.empty [.ins 5, .ins 3, .del 5] =
        .ok (reached intLess intLess [.ins 5, .ins 3, .del 5]) ∧
      traverse (reached intLess intLess [.ins 5, .ins 3, .del 5]).1
          (reached intLess intLess [.ins 5, .ins 3, .del 5]).2 = .ok [3] ∧
      find intLess 5 (reached intLess intLess [.ins 5, .ins 3, .del 5]).1.fuel
          (reached intLess intLess [.ins 5, .ins 3, .del 5]).1
          (reached intLess intLess [.ins 5, .ins 3, .del 5]).2.root = .ok true :=
  ⟨rfl, by decide, by decide⟩

/-- C7, evaluation at the failing input: in the tree built from 3, 2, 11, 13, 5, 17 the node
at address 0 holds 3 and the node at address 2 holds 2, the next smaller element; `operator--`
on a cursor at the node holding 3 yields the end node, not the node holding 2. -/
theorem c7_decrement_reaches_end_node :
    insertAll intLess Heap.empty BinarySearchTree.empty [3, 2, 11, 13, 5, 17] =
        .ok (built intLess [3, 2, 11, 13, 5, 17]) ∧
      deref (built intLess [3, 2, 11, 13, 5, 17]).1 (some 0) = .ok 3 ∧
      deref (built intLess [3, 2, 11, 13, 5, 17]).1 (some 2) = .ok 2 ∧
      decrement (built intLess [3, 2, 11, 13, 5, 17]).1 (some 0) =
        .ok (end_ (built intLess [3, 2, 11, 13, 5, 17]).2) ∧
      end_ (built intLess [3, 2, 11, 13, 5, 17]).2 ≠ some 2 :=
  ⟨rfl, by decide, by decide, by decide, by decide⟩

/-- C8: in a tree built by inserts under a strict weak ordering, let `nodes` be the nodes
that hold the stored elements, in increasing order of their values (the positions the loop
from `begin()` goes through).  `operator++` moves a cursor at any of these nodes to the next
one, which holds the next larger element, and from the last one, which holds the maximum,
to the end node, so that the result equals `end()` (`post` is what follows the cursor). -/
theorem c8_increment_next_larger (isless : T → T → Bool) (hswo : StrictWeakOrder isless)
    (h0 h : Heap T) (t : BinarySearchTree) (vs : List T)
    (hrun : insertAll isless h0 BinarySearchTree.empty vs = .ok (h, t)) :
    ∃ nodes : List (Nat × T),
      (nodes.map Prod.snd).Pairwise (fun a b => isless a b = true) ∧
      (∀ v ∈ vs, ∃ y ∈ nodes.map Prod.snd, isless y v = false ∧ isless v y = false) ∧
      (nodes ≠ [] → begin h t = .ok (nodes.head?.map Prod.fst) ∧
        traverse h t = .ok (nodes.map Prod.snd)) ∧
      ∀ pre a x post, nodes = pre ++ (a, x) :: post →
        deref h (some a) = .ok x ∧
        increment h (some a) = .ok ((post.head?.map Prod.fst).or (end_ t)) := by
  obtain ⟨bt, hm, hord, -, -, hall, hnil⟩ :=
    insertAll_model isless hswo.irrefl vs h0 h _ t .nil (Model.empty h0) hrun
  refine ⟨bt.nodes, (hord trivial).pairwise hswo.trans, hall, ?_, ?_⟩
  · intro hne
    have hbt : bt ≠ .nil := by
      rintro rfl
      exact hne rfl
    refine ⟨?_, traverse_model hm hbt⟩
    rcases hm with ⟨h0, _⟩ | ⟨_, e, m, hw⟩
    · exact absurd h0 hbt
    · rw [begin, hw.1, leftmost_rep hw.2.1 (Shape.attach_ne_nil e m bt) h.fuel
        (by have := hw.length_le; simp only [Heap.fuel]; omega), Shape.first_eq_head,
        Shape.addrs_attach, Shape.addrs]
      cases hn : bt.nodes with
      | nil => exact absurd hn hne
      | cons p ps => simp
  · intro pre a x post hsplit
    have hbt : bt ≠ .nil := by
      rintro rfl
      simp [Shape.nodes] at hsplit
    rcases hm with ⟨h0, _⟩ | ⟨_, e, m, hw⟩
    · exact absurd h0 hbt
    · have hend := hw.endNode_eq
      obtain ⟨-, hr, hnd, hlt, -⟩ := hw
      have hlen := length_le_of_nodup_of_lt hnd hlt
      have hmem : (a, x) ∈ (bt.attach e m).nodes := by simp [hsplit]
      obtain ⟨c, hc, hcx⟩ := hr.cell hmem
      have haddrs : (bt.attach e m).addrs =
          pre.map Prod.fst ++ a :: (post.map Prod.fst ++ [e]) := by
        simp [Shape.addrs, hsplit]
      have hnd' := hnd
      rw [haddrs] at hnd'
      have hapre : a ∉ pre.map Prod.fst := fun hm =>
        (List.nodup_append.1 hnd').2.2 hm (List.mem_cons_self _ _)
      refine ⟨by simp [deref, Heap.load, hc, hcx], ?_⟩
      rw [increment_root hr hnd hlen (by simp [haddrs]), haddrs,
        nextIn_append_of_not_mem _ hapre]
      cases post with
      | nil => simp [nextIn, end_, hend]
      | cons p ps => simp [nextIn]

/-- C8, witness: the tree of `main.cpp` under `std::less<int>`. -/
theorem c8_witness :
    StrictWeakOrder intLess ∧
      insertAll intLess Heap.empty BinarySearchTree.empty [3, 2, 11, 13, 5, 17] =
        .ok (built intLess [3, 2, 11, 13, 5, 17]) ∧
      ∃ nodes : List (Nat × Int),
        (nodes.map Prod.snd).Pairwise (fun a b => intLess a b = true) ∧
        (∀ v ∈ [3, 2, 11, 13, 5, 17],
          ∃ y ∈ nodes.map Prod.snd, intLess y v = false ∧ intLess v y = false) ∧
        (nodes ≠ [] →
          begin (built intLess [3, 2, 11, 13, 5, 17]).1 (built intLess [3, 2, 11, 13, 5, 17]).2 =
            .ok (nodes.head?.map Prod.fst) ∧
          traverse (built intLess [3, 2, 11, 13, 5, 17]).1
            (built intLess [3, 2, 11, 13, 5, 17]).2 = .ok (nodes.map Prod.snd)) ∧
        ∀ pre a x post, nodes = pre ++ (a, x) :: post →
          deref (built intLess [3, 2, 11, 13, 5, 17]).1 (some a) = .ok x ∧
          increment (built intLess [3, 2, 11, 13, 5, 17]).1 (some a) =
            .ok ((post.head?.map Prod.fst).or (end_ (built intLess [3, 2, 11, 13, 5, 17]).2)) :=
  ⟨intLess_strictWeakOrder, rfl,
    c8_increment_next_larger intLess intLess_strictWeakOrder Heap.empty
      (built intLess [3, 2, 11, 13, 5, 17]).1 (built intLess [3, 2, 11, 13, 5, 17]).2
      [3, 2, 11, 13, 5, 17] rfl⟩

/-- C9: in a tree built by inserts under a strict weak ordering, `insert(v)` of a value
equivalent to a stored element returns and changes nothing: `root` and `endNode` are the
same, every cell that existed keeps its value and its left, right and parent links (only
the fresh node, which is linked nowhere, is added), and the loop still yields the same
elements, the stored one included. -/
theorem c9_insert_equivalent_noop (isless : T → T → Bool) (hswo : StrictWeakOrder isless)
    (h0 h : Heap T) (t : BinarySearchTree) (vs l : List T) (v : T)
    (hrun : insertAll isless h0 BinarySearchTree.empty vs = .ok (h, t))
    (htrav : traverse h t = .ok l)
    (hdup : ∃ y ∈ l, isless y v = false ∧ isless v y = false) :
    ∃ h', insert isless h t v = .ok (h', t) ∧
      (∀ a, a ≠ h.next → h'.cells a = h.cells a) ∧
      h'.cells h.next = some ⟨v, none, none, none⟩ ∧
      traverse h' t = .ok l := by
  obtain ⟨bt, hm, hord, -, -, -, -⟩ :=
    insertAll_model isless hswo.irrefl vs h0 h _ t .nil (Model.empty h0) hrun
  have hbt : bt ≠ .nil := by
    rintro rfl
    rcases hm with ⟨-, hroot⟩ | ⟨hne, -⟩
    · rw [traverse_of_root_none h t hroot] at htrav
      exact absurd htrav (by simp)
    · exact hne rfl
  have hl : l = bt.vals := by
    have := traverse_model hm hbt
    rw [htrav] at this
    simpa using this
  subst hl
  obtain ⟨hins, hm'⟩ := insert_dup_model isless hswo.trans v hm (hord trivial) hdup
  refine ⟨_, hins, ?_, by simp [Heap.alloc], traverse_model hm' hbt⟩
  intro a ha
  simp [Heap.alloc, ha]

/-- C9, witness: a second point with the same x under `PointOrderx`. -/
theorem c9_witness :
    StrictWeakOrder PointOrderx ∧
      insertAll PointOrderx Heap.empty BinarySearchTree.empty [⟨1, 2⟩, ⟨7, 3⟩, ⟨2, 1⟩] =
        .ok (built PointOrderx [⟨1, 2⟩, ⟨7, 3⟩, ⟨2, 1⟩]) ∧
      traverse (built PointOrderx [⟨1, 2⟩, ⟨7, 3⟩, ⟨2, 1⟩]).1
          (built PointOrderx [⟨1, 2⟩, ⟨7, 3⟩, ⟨2, 1⟩]).2 = .ok [⟨1, 2⟩, ⟨2, 1⟩, ⟨7, 3⟩] ∧
      (∃ y ∈ [(⟨1, 2⟩ : Point2D), ⟨2, 1⟩, ⟨7, 3⟩],
        PointOrderx y ⟨2, 9⟩ = false ∧ PointOrderx ⟨2, 9⟩ y = false) ∧
      ∃ h', insert PointOrderx (built PointOrderx [⟨1, 2⟩, ⟨7, 3⟩, ⟨2, 1⟩]).1
            (built PointOrderx [⟨1, 2⟩, ⟨7, 3⟩, ⟨2, 1⟩]).2 ⟨2, 9⟩ =
          .ok (h', (built PointOrderx [⟨1, 2⟩, ⟨7, 3⟩, ⟨2, 1⟩]).2) ∧
        (∀ a, a ≠ (built PointOrderx [⟨1, 2⟩, ⟨7, 3⟩, ⟨2, 1⟩]).1.next →
          h'.cells a = (built PointOrderx [⟨1, 2⟩, ⟨7, 3⟩, ⟨2, 1⟩]).1.cells a) ∧
        h'.cells (built PointOrderx [⟨1, 2⟩, ⟨7, 3⟩, ⟨2, 1⟩]).1.next =
          some ⟨⟨2, 9⟩, none, none, none⟩ ∧
        traverse h' (built PointOrderx [⟨1, 2⟩, ⟨7, 3⟩, ⟨2, 1⟩]).2 =
          .ok [⟨1, 2⟩, ⟨2, 1⟩, ⟨7, 3⟩] :=
  ⟨pointOrderx_strictWeakOrder, rfl, by decide, ⟨⟨2, 1⟩, by decide, by decide, by decide⟩,
    c9_insert_equivalent_noop PointOrderx pointOrderx_strictWeakOrder Heap.empty
      (built PointOrderx [⟨1, 2⟩, ⟨7, 3⟩, ⟨2, 1⟩]).1 (built PointOrderx [⟨1, 2⟩, ⟨7, 3⟩, ⟨2, 1⟩]).2
      [⟨1, 2⟩, ⟨7, 3⟩, ⟨2, 1⟩] [⟨1, 2⟩, ⟨2, 1⟩, ⟨7, 3⟩] ⟨2, 9⟩ rfl (by decide)
      ⟨⟨2, 1⟩, by decide, by decide, by decide⟩⟩

/-- C10, evaluation at the failing input: after insert 5, insert 3, erase 5 the tree stores
exactly 3; a second `erase(5)` finds the end node, clears the right link of the root and
deletes the end node, to which `endNode` still points. -/
theorem c10_erase_absent_value_deletes_end_node :
    runOps intLess intLess Heap.empty BinarySearchTree.empty [.ins 5, .ins 3, .del 5] =
        .ok (reached intLess intLess [.ins 5, .ins 3, .del 5]) ∧
      traverse (reached intLess intLess [.ins 5, .ins 3, .del 5]).1
          (reached intLess intLess [.ins 5, .ins 3, .del 5]).2 = .ok [3] ∧
      erase intLess (reached intLess intLess [.ins 5, .ins 3, .del 5]).1
          (reached intLess intLess [.ins 5, .ins 3, .del 5]).2 5 =
        .ok (reached intLess intLess [.ins 5, .ins 3, .del 5, .del 5]) ∧
      (reached intLess intLess [.ins 5, .ins 3, .del 5]).2.endNode = some 1 ∧
      (reached intLess intLess [.ins 5, .ins 3, .del 5]).1.cells 0 = some ⟨3, none, some 1, none⟩ ∧
      (reached intLess intLess [.ins 5, .ins 3, .del 5]).1.cells 1 = some ⟨5, none, none, some 0⟩ ∧
      (reached intLess intLess [.ins 5, .ins 3, .del 5, .del 5]).2.endNode = some 1 ∧
      (reached intLess intLess [.ins 5, .ins 3, .del 5, .del 5]).1.cells 0 =
        some ⟨3, none, none, none⟩ ∧
      (reached intLess intLess [.ins 5, .ins 3, .del 5, .del 5]).1.cells 1 = none :=
  ⟨rfl, by decide, rfl, by decide, by decide, by decide, by decide, by decide, by decide⟩

/-! ## The claims on copying, moving, tear-down and mixed runs -/

/-- C11, evaluation at the failing input: after insert 5, insert 3, erase 5 the end node is
the right child of the root; `erase(5)` then returns, and the node `end()` refers to has been
deleted and is no longer linked: the rightmost node reachable from the root is the root. -/
theorem c11_erase_frees_end_node :
    runOps intLess intLess Heap.empty BinarySearchTree.empty [.ins 5, .ins 3, .del 5] =
        .ok (reached intLess intLess [.ins 5, .ins 3, .del 5]) ∧
      rightmost (reached intLess intLess [.ins 5, .ins 3, .del 5]).1.fuel
          (reached intLess intLess [.ins 5, .ins 3, .del 5]).1
          (reached intLess intLess [.ins 5, .ins 3, .del 5]).2.root =
        .ok (end_ (reached intLess intLess [.ins 5, .ins 3, .del 5]).2) ∧
      (erase intLess (reached intLess intLess [.ins 5, .ins 3, .del 5]).1
          (reached intLess intLess [.ins 5, .ins 3, .del 5]).2 5 >>= fun p =>
        Res.ok (p.2.root, end_ p.2, rightmost p.1.fuel p.1 p.2.root, p.1.load (end_ p.2))) =
        .ok (some 0, some 1, .ok (some 0), .fault .dangling) :=
  ⟨rfl, by decide, by decide⟩

/-- C12, counterexample: on a freshly constructed tree of integers the loop from `begin()`
to `end()` does not run (null `root`), while after `insert(5)` and `erase(5)` it runs and
yields nothing: the two traversals are not equal. -/
theorem c12_fresh_tree_has_no_traversal :
    traverse (Heap.empty : Heap Int) BinarySearchTree.empty = .fault .nullDeref ∧
      (insert intLess Heap.empty BinarySearchTree.empty 5 >>= fun p =>
        erase intLess p.1 p.2 5 >>= fun q => traverse q.1 q.2) = .ok [] :=
  ⟨rfl, by decide⟩

/-- C12, amended: in a tree built by inserts under the default ordering (`operator<`, a
strict weak ordering) on which the loop from `begin()` to `end()` runs, so a tree that is
not empty, let `v` be equivalent to no stored element (for a total order: `v` is not
stored) and let `insert(v)` return.  Then `erase(v)` returns and the loop yields the
sequence it yielded before the insert. -/
theorem c12_insert_then_erase_restores_traversal (lt : T → T → Bool)
    (hswo : StrictWeakOrder lt) (h0 h h1 : Heap T) (t t1 : BinarySearchTree) (vs l : List T)
    (v : T) (hrun : insertAll lt h0 BinarySearchTree.empty vs = .ok (h, t))
    (htrav : traverse h t = .ok l) (hv : ∀ y ∈ l, lt y v = true ∨ lt v y = true)
    (hins : insert lt h t v = .ok (h1, t1)) :
    ∃ h2 t2, erase lt h1 t1 v = .ok (h2, t2) ∧ traverse h2 t2 = .ok l := by
  classical
  obtain ⟨bt, hm, hord, -, -, -, -⟩ :=
    insertAll_model lt hswo.irrefl vs h0 h _ t .nil (Model.empty h0) hrun
  have hbt : bt ≠ .nil := by
    rintro rfl
    rcases hm with ⟨-, hroot⟩ | ⟨hne, -⟩
    · rw [traverse_of_root_none h t hroot] at htrav
      exact absurd htrav (by simp)
    · exact hne rfl
  have hl : l = bt.vals := by
    have := traverse_model hm hbt
    rw [htrav] at this
    simpa using this
  subst hl
  have hm1 := insert_model lt v hm hins
  rcases hm1 with ⟨h0', -⟩ | ⟨-, e, m, hw⟩
  · exact absurd h0' (Shape.bins_ne_nil _ _ _ _)
  · obtain ⟨l1, l2, hsplit, hsplit'⟩ := Shape.vals_bins_split lt h.next v bt hv
    have hmem : v ∈ (bt.bins lt h.next v).vals := by simp [hsplit']
    obtain ⟨h2, t2, hrun2, htrav2⟩ :=
      erase_attach_traverse lt hswo v hw ((hord trivial).bins _ _) hmem
    refine ⟨h2, t2, hrun2, ?_⟩
    have hnot : v ∉ l1 := by
      intro hmem1
      rcases hv v (by simp [hsplit, hmem1]) with h | h <;>
        · rw [hswo.irrefl] at h
          exact absurd h (by simp)
    rw [htrav2, hsplit', hsplit, List.erase_append_right _ hnot, List.erase_cons_head]

theorem c12_witness :
    StrictWeakOrder intLess ∧
      insertAll intLess Heap.empty BinarySearchTree.empty [3, 2, 11, 13, 5, 17] =
        .ok (built intLess [3, 2, 11, 13, 5, 17]) ∧
      traverse (built intLess [3, 2, 11, 13, 5, 17]).1 (built intLess [3, 2, 11, 13, 5, 17]).2 =
        .ok [2, 3, 5, 11, 13, 17] ∧
      (∀ y ∈ ([2, 3, 5, 11, 13, 17] : List Int), intLess y 1 = true ∨ intLess 1 y = true) ∧
      insert intLess (built intLess [3, 2, 11, 13, 5, 17]).1
          (built intLess [3, 2, 11, 13, 5, 17]).2 1 =
        .ok (built intLess [3, 2, 11, 13, 5, 17, 1]) ∧
      ∃ h2 t2, erase intLess (built intLess [3, 2, 11, 13, 5, 17, 1]).1
          (built intLess [3, 2, 11, 13, 5, 17, 1]).2 1 = .ok (h2, t2) ∧
        traverse h2 t2 = .ok [2, 3, 5, 11, 13, 17] :=
  ⟨intLess_strictWeakOrder, rfl, by decide, by decide, rfl,
    c12_insert_then_erase_restores_traversal intLess intLess_strictWeakOrder Heap.empty
      (built intLess [3, 2, 11, 13, 5, 17]).1 (built intLess [3, 2, 11, 13, 5, 17, 1]).1
      (built intLess [3, 2, 11, 13, 5, 17]).2 (built intLess [3, 2, 11, 13, 5, 17, 1]).2
      [3, 2, 11, 13, 5, 17] [2, 3, 5, 11, 13, 17] 1 rfl (by decide) (by decide) rfl⟩

/-- C13, evaluation at the failing input: the source built by insert 5, insert 3, erase 5
yields 3 alone; the tree made from it by the copy constructor yields 3 and 5. -/
theorem c13_copy_adds_end_node_value :
    runOps intLess intLess Heap.empty BinarySearchTree.empty [.ins 5, .ins 3, .del 5] =
        .ok (reached intLess intLess [.ins 5, .ins 3, .del 5]) ∧
      traverse (reached intLess intLess [.ins 5, .ins 3, .del 5]).1
          (reached intLess intLess [.ins 5, .ins 3, .del 5]).2 = .ok [3] ∧
      (copy_construct intLess none (reached intLess intLess [.ins 5, .ins 3, .del 5]).1
          (reached intLess intLess [.ins 5, .ins 3, .del 5]).2 >>= fun p =>
        traverse p.1 p.2) = .ok [3, 5] :=
  ⟨rfl, by decide, by decide⟩

/-- C14, evaluation at the failing input: `a` freshly constructed, `b` built by inserting
3, 2, 11, 13, 5, 17.  After `a = b` the member `endNode` of `a` is still null, the end node
of the graph of `a` is another pointer (the rightmost node from `root`), and the loop on
`a` yields the cached value 17 of that end node as a seventh element. -/
theorem c14_assignment_keeps_old_end_node :
    insertAll intLess Heap.empty BinarySearchTree.empty [3, 2, 11, 13, 5, 17] =
        .ok (built intLess [3, 2, 11, 13, 5, 17]) ∧
      traverse (built intLess [3, 2, 11, 13, 5, 17]).1 (built intLess [3, 2, 11, 13, 5, 17]).2 =
        .ok [2, 3, 5, 11, 13, 17] ∧
      (copy_assign intLess none (built intLess [3, 2, 11, 13, 5, 17]).1 BinarySearchTree.empty
          (built intLess [3, 2, 11, 13, 5, 17]).2 >>= fun p =>
        Res.ok (end_ p.2, rightmost p.1.fuel p.1 p.2.root, traverse p.1 p.2)) =
        .ok (none, .ok (some 8), .ok [2, 3, 5, 11, 13, 17, 17]) :=
  ⟨rfl, by decide, by decide⟩

/-- C15, evaluation at the failing input: the move constructor never assigns `endNode` of
the destination, which keeps its indeterminate value; with a null value there, and the
source built by inserting 3, 2, 11, 13, 5, 17, the destination's `end()` is not the source's
end node and the loop on the destination yields a seventh element. -/
theorem c15_move_leaves_end_node_unset :
    (∀ (junk : Option Nat) (copy : BinarySearchTree),
        (move_construct junk copy).1.root = copy.root ∧
          end_ (move_construct junk copy).1 = junk) ∧
      insertAll intLess Heap.empty BinarySearchTree.empty [3, 2, 11, 13, 5, 17] =
        .ok (built intLess [3, 2, 11, 13, 5, 17]) ∧
      end_ (built intLess [3, 2, 11, 13, 5, 17]).2 = some 1 ∧
      traverse (built intLess [3, 2, 11, 13, 5, 17]).1 (built intLess [3, 2, 11, 13, 5, 17]).2 =
        .ok [2, 3, 5, 11, 13, 17] ∧
      traverse (built intLess [3, 2, 11, 13, 5, 17]).1
          (move_construct none (built intLess [3, 2, 11, 13, 5, 17]).2).1 =
        .ok [2, 3, 5, 11, 13, 17, 17] :=
  ⟨fun _ _ => ⟨rfl, rfl⟩, rfl, by decide, by decide, by decide⟩

/-- C16, evaluation at the failing input: the move constructor clears `root` of the source
and leaves its `endNode`; for the source built by inserting 3, 2, 11, 13, 5, 17 the
moved-from object is not in the state of a fresh tree, and `print()` as well as the loop
from `begin()` dereference the null `root`. -/
theorem c16_moved_from_keeps_end_node :
    (∀ (junk : Option Nat) (copy : BinarySearchTree),
        (move_construct junk copy).2.root = none ∧
          (move_construct junk copy).2.endNode = copy.endNode) ∧
      insertAll intLess Heap.empty BinarySearchTree.empty [3, 2, 11, 13, 5, 17] =
        .ok (built intLess [3, 2, 11, 13, 5, 17]) ∧
      (move_construct none (built intLess [3, 2, 11, 13, 5, 17]).2).2 ≠ BinarySearchTree.empty ∧
      print (built intLess [3, 2, 11, 13, 5, 17]).1
          (move_construct none (built intLess [3, 2, 11, 13, 5, 17]).2).2 =
        .fault .nullDeref ∧
      traverse (built intLess [3, 2, 11, 13, 5, 17]).1
          (move_construct none (built intLess [3, 2, 11, 13, 5, 17]).2).2 =
        .fault .nullDeref :=
  ⟨fun _ _ => ⟨rfl, rfl⟩, rfl, by decide, by decide, by decide⟩

/-- C17, evaluation at the failing input: the strings Luke, Kanye, Pentatonix inserted under
`std::greater` are visited as Pentatonix, Luke, Kanye; `erase("Pentatonix")`, which searches
with `operator<`, returns without finding the node, and Pentatonix is still visited. -/
theorem c17_erase_ignores_comparator :
    insertAll stringGreater Heap.empty BinarySearchTree.empty ["Luke", "Kanye", "Pentatonix"] =
        .ok (built stringGreater ["Luke", "Kanye", "Pentatonix"]) ∧
      traverse (built stringGreater ["Luke", "Kanye", "Pentatonix"]).1
          (built stringGreater ["Luke", "Kanye", "Pentatonix"]).2 =
        .ok ["Pentatonix", "Luke", "Kanye"] ∧
      (erase stringLess (built stringGreater ["Luke", "Kanye", "Pentatonix"]).1
          (built stringGreater ["Luke", "Kanye", "Pentatonix"]).2 "Pentatonix" >>= fun p =>
        traverse p.1 p.2) = .ok ["Pentatonix", "Luke", "Kanye"] :=
  ⟨rfl, by decide, by decide⟩

/-- C18: let a run of `insert` and `erase` calls on a fresh tree return, the comparator
`isless` being a strict weak ordering (and `erase` searching with any `operator<`, the
comparator itself under the default ordering); let the node `end()` refers to not have been
deleted, and let the loop from `begin()` to `end()` yield at least one element.  Then
`smallest()` returns one of the elements the loop yields, and none of them orders before it
under the comparator. -/
theorem c18_smallest_is_least (isless lt : T → T → Bool) (hswo : StrictWeakOrder isless)
    (h0 h : Heap T) (t : BinarySearchTree) (ops : List (Op T)) (l : List T)
    (hrun : runOps isless lt h0 BinarySearchTree.empty ops = .ok (h, t))
    (hlive : ∀ e, end_ t = some e → (h.cells e).isSome = true)
    (htrav : traverse h t = .ok l) (hne : l ≠ []) :
    ∃ x, smallest h t = .ok x ∧ x ∈ l ∧ ∀ y ∈ l, isless y x = false := by
  have hinv := runOps_inv isless lt hswo ops h0 h _ t (Or.inl rfl) hrun
  rcases hinv with hroot | ⟨bt, e, m, hbt, hw, hord⟩ | ⟨sl, e, m, hw, hord⟩ |
    ⟨hroot, e, hend, hlt, hdead⟩
  · rw [traverse_of_root_none h t hroot] at htrav
    exact absurd htrav (by simp)
  · have htr := traverse_wf hw (Shape.attach_ne_nil e m bt)
    rw [htrav] at htr
    simp only [Res.ok.injEq] at htr
    refine smallest_wf isless hswo hw htr.symm hne ?_
    rw [htr]
    simp only [Shape.vals_attach, List.dropLast_concat]
    exact hord.pairwise hswo.trans
  · have htr := traverse_wf hw (by simp)
    rw [htrav] at htr
    simp only [Res.ok.injEq] at htr
    refine smallest_wf isless hswo hw htr.symm hne ?_
    rw [htr]
    simp only [Shape.vals_node, Shape.vals_nil]
    rw [List.dropLast_concat]
    exact hord.2.2.1.pairwise hswo.trans
  · have := hlive e hend
    rw [hdead] at this
    exact absurd this (by simp)

theorem c18_witness :
    StrictWeakOrder intLess ∧
      runOps intLess intLess Heap.empty BinarySearchTree.empty
          [.ins 5, .ins 3, .ins 8, .del 3, .ins 4, .del 8] =
        .ok (reached intLess intLess [.ins 5, .ins 3, .ins 8, .del 3, .ins 4, .del 8]) ∧
      (∀ e, end_ (reached intLess intLess [.ins 5, .ins 3, .ins 8, .del 3, .ins 4, .del 8]).2 =
          some e →
        ((reached intLess intLess [.ins 5, .ins 3, .ins 8, .del 3, .ins 4, .del 8]).1.cells
          e).isSome = true) ∧
      traverse (reached intLess intLess [.ins 5, .ins 3, .ins 8, .del 3, .ins 4, .del 8]).1
          (reached intLess intLess [.ins 5, .ins 3, .ins 8, .del 3, .ins 4, .del 8]).2 =
        .ok [4, 5] ∧
      ([4, 5] : List Int) ≠ [] ∧
      ∃ x, smallest (reached intLess intLess [.ins 5, .ins 3, .ins 8, .del 3, .ins 4, .del 8]).1
          (reached intLess intLess [.ins 5, .ins 3, .ins 8, .del 3, .ins 4, .del 8]).2 =
            .ok x ∧
        x ∈ ([4, 5] : List Int) ∧ ∀ y ∈ ([4, 5] : List Int), intLess y x = false :=
  ⟨intLess_strictWeakOrder, rfl, by decide, by decide, by decide,
    c18_smallest_is_least intLess intLess intLess_strictWeakOrder Heap.empty
      (reached intLess intLess [.ins 5, .ins 3, .ins 8, .del 3, .ins 4, .del 8]).1
      (reached intLess intLess [.ins 5, .ins 3, .ins 8, .del 3, .ins 4, .del 8]).2
      [.ins 5, .ins 3, .ins 8, .del 3, .ins 4, .del 8] [4, 5] rfl (by decide) (by decide)
      (by decide)⟩

/-- C19, counterexample: on a freshly constructed tree of integers `smallest()` and
`largest()` do not end in a reported failure; each dereferences the null `root`. -/
theorem c19_fresh_tree_null_dereference :
    smallest (Heap.empty : Heap Int) BinarySearchTree.empty = .fault .nullDeref ∧
      largest (Heap.empty : Heap Int) BinarySearchTree.empty = .fault .nullDeref :=
  ⟨rfl, rfl⟩

/-- C19, amended: `smallest()` and `largest()` have no test for the empty tree; on every
tree object whose `root` is null, whatever the heap and `endNode`, each of them reads
through the null `root`. -/
theorem c19_smallest_largest_need_root (h : Heap T) (t : BinarySearchTree)
    (hroot : t.root = none) :
    smallest h t = .fault .nullDeref ∧ largest h t = .fault .nullDeref := by
  simp only [smallest, largest, hroot, leftmost_null, rightmost_null]
  exact ⟨rfl, rfl⟩

theorem c19_witness :
    (move_construct none (built intLess [3, 2, 11, 13, 5, 17]).2).2.root = none ∧
      smallest (built intLess [3, 2, 11, 13, 5, 17]).1
          (move_construct none (built intLess [3, 2, 11, 13, 5, 17]).2).2 = .fault .nullDeref ∧
      largest (built intLess [3, 2, 11, 13, 5, 17]).1
          (move_construct none (built intLess [3, 2, 11, 13, 5, 17]).2).2 = .fault .nullDeref :=
  ⟨rfl, c19_smallest_largest_need_root (built intLess [3, 2, 11, 13, 5, 17]).1
    (move_construct none (built intLess [3, 2, 11, 13, 5, 17]).2).2 rfl⟩

/-- C20, evaluation at the failing input: on a freshly constructed tree `end()` is the null
cursor and `begin()` dereferences the null `root`; on the tree emptied by insert 5, erase 5
`begin()` returns `end()`. -/
theorem c20_begin_on_fresh_tree_faults :
    end_ BinarySearchTree.empty = none ∧
      begin (Heap.empty : Heap Int) BinarySearchTree.empty = .fault .nullDeref ∧
      runOps intLess intLess Heap.empty BinarySearchTree.empty [.ins 5, .del 5] =
        .ok (reached intLess intLess [.ins 5, .del 5]) ∧
      begin (reached intLess intLess [.ins 5, .del 5]).1 (reached intLess intLess [.ins 5, .del 5]).2 =
        .ok (end_ (reached intLess intLess [.ins 5, .del 5]).2) :=
  ⟨rfl, rfl, rfl, by decide⟩

/-- C21, evaluation at the failing input: after insert 5, erase 5, insert 3 the tree stores
exactly 3, in the node at address 2, the left child of the end node; `operator--` on `end()`
yields the end node again, not the node holding 3. -/
theorem c21_decrement_end_stays_at_end :
    runOps intLess intLess Heap.empty BinarySearchTree.empty [.ins 5, .del 5, .ins 3] =
        .ok (reached intLess intLess [.ins 5, .del 5, .ins 3]) ∧
      traverse (reached intLess intLess [.ins 5, .del 5, .ins 3]).1
          (reached intLess intLess [.ins 5, .del 5, .ins 3]).2 = .ok [3] ∧
      deref (reached intLess intLess [.ins 5, .del 5, .ins 3]).1 (some 2) = .ok 3 ∧
      end_ (reached intLess intLess [.ins 5, .del 5, .ins 3]).2 = some 1 ∧
      decrement (reached intLess intLess [.ins 5, .del 5, .ins 3]).1
          (end_ (reached intLess intLess [.ins 5, .del 5, .ins 3]).2) = .ok (some 1) :=
  ⟨rfl, by decide, by decide, by decide, by decide⟩

/-- C22, evaluation at the failing input: for the tree built by inserting 3, 2, 11, 13, 5,
17 the loop yields the six elements, and `print()` writes a seventh value, the 17 cached in
the end node. -/
theorem c22_print_emits_end_node_value :
    insertAll intLess Heap.empty BinarySearchTree.empty [3, 2, 11, 13, 5, 17] =
        .ok (built intLess [3, 2, 11, 13, 5, 17]) ∧
      traverse (built intLess [3, 2, 11, 13, 5, 17]).1 (built intLess [3, 2, 11, 13, 5, 17]).2 =
        .ok [2, 3, 5, 11, 13, 17] ∧
      print (built intLess [3, 2, 11, 13, 5, 17]).1 (built intLess [3, 2, 11, 13, 5, 17]).2 =
        .ok [2, 3, 5, 11, 13, 17, 17] :=
  ⟨rfl, by decide, by decide⟩

/-- C23: for a tree built by inserts, let `s` be the tree of nodes reachable from `root`
through the left and right links (the end node included).  The destructor's `destroy(root)`
returns; the addresses it deletes are those of `s` in post-order (left subtree, right
subtree, node), each once; afterwards each of these cells is freed and every other cell is
unchanged.  When `root` is null it returns without deleting anything. -/
theorem c23_destroy_frees_post_order (isless : T → T → Bool) (h0 h : Heap T)
    (t : BinarySearchTree) (vs : List T)
    (hrun : insertAll isless h0 BinarySearchTree.empty vs = .ok (h, t)) :
    ∃ s : Shape T, t.root = s.ptr ∧ Rep h s none ∧
      (vs ≠ [] → ∃ e, end_ t = some e ∧ e ∈ s.postorder) ∧
      (∃ h', destruct h t = .ok (h', s.postorder) ∧ s.postorder.Nodup ∧
        (∀ a, a ∈ s.postorder ↔ a ∈ s.addrs) ∧
        (∀ a ∈ s.postorder, (h.cells a).isSome = true ∧ h'.cells a = none) ∧
        (∀ a, a ∉ s.postorder → h'.cells a = h.cells a)) ∧
      (t.root = none → destruct h t = .ok (h, [])) := by
  obtain ⟨bt, hm, hne⟩ := insertAll_models isless vs h0 h _ t .nil (Model.empty h0) hrun
  rcases hm with ⟨hnil, hroot⟩ | ⟨hbt, e, m, hw⟩
  · subst hnil
    have hvs : vs = [] := by
      by_contra hvs
      exact hne (Or.inr hvs) rfl
    refine ⟨.nil, hroot, trivial, fun hv => absurd hvs hv,
      ⟨h, ?_, List.nodup_nil, fun a => Iff.rfl, ?_, fun _ _ => rfl⟩, ?_⟩
    · simp only [destruct, hroot, Heap.fuel, destroy_null, Shape.postorder]
    · intro a ha
      simp [Shape.postorder] at ha
    · intro _
      simp only [destruct, hroot, Heap.fuel, destroy_null]
  · have hend := hw.endNode_eq
    have hlen := hw.length_le
    obtain ⟨hroot, hrep, hnd, hlt, -⟩ := hw
    have hperm := (bt.attach e m).postorder_perm
    obtain ⟨h', hd, -, hfree, hframe⟩ :=
      destroy_rep (bt.attach e m) h none h.fuel hrep hnd (by simp only [Heap.fuel]; omega)
    refine ⟨bt.attach e m, hroot, hrep, fun _ => ⟨e, hend, hperm.mem_iff.2 (by simp)⟩,
      ⟨h', ?_, hperm.nodup_iff.2 hnd, fun a => hperm.mem_iff, ?_, ?_⟩, ?_⟩
    · rw [destruct, hroot]; exact hd
    · intro a ha
      have ha' := hperm.mem_iff.1 ha
      refine ⟨?_, hfree a ha'⟩
      obtain ⟨x, hx⟩ : ∃ x, (a, x) ∈ (bt.attach e m).nodes := by
        simp only [Shape.addrs, List.mem_map] at ha'
        obtain ⟨⟨a', x⟩, hm, rfl⟩ := ha'
        exact ⟨x, hm⟩
      obtain ⟨c, hc, -⟩ := hrep.cell hx
      simp [hc]
    · intro a ha
      exact hframe a (fun hm => ha (hperm.mem_iff.2 hm))
    · intro h0'
      rw [hroot] at h0'
      exact absurd (Shape.ptr_eq_none.1 h0') (Shape.attach_ne_nil e m bt)

theorem c23_witness :
    insertAll intLess Heap.empty BinarySearchTree.empty [3, 2, 11, 13, 5, 17] =
        .ok (built intLess [3, 2, 11, 13, 5, 17]) ∧
      ∃ s : Shape Int, (built intLess [3, 2, 11, 13, 5, 17]).2.root = s.ptr ∧
        Rep (built intLess [3, 2, 11, 13, 5, 17]).1 s none ∧
        (([3, 2, 11, 13, 5, 17] : List Int) ≠ [] →
          ∃ e, end_ (built intLess [3, 2, 11, 13, 5, 17]).2 = some e ∧ e ∈ s.postorder) ∧
        (∃ h', destruct (built intLess [3, 2, 11, 13, 5, 17]).1
              (built intLess [3, 2, 11, 13, 5, 17]).2 = .ok (h', s.postorder) ∧
          s.postorder.Nodup ∧ (∀ a, a ∈ s.postorder ↔ a ∈ s.addrs) ∧
          (∀ a ∈ s.postorder, ((built intLess [3, 2, 11, 13, 5, 17]).1.cells a).isSome = true ∧
            h'.cells a = none) ∧
          (∀ a, a ∉ s.postorder → h'.cells a = (built intLess [3, 2, 11, 13, 5, 17]).1.cells a)) ∧
        ((built intLess [3, 2, 11, 13, 5, 17]).2.root = none →
          destruct (built intLess [3, 2, 11, 13, 5, 17]).1
            (built intLess [3, 2, 11, 13, 5, 17]).2 =
              .ok ((built intLess [3, 2, 11, 13, 5, 17]).1, [])) :=
  ⟨rfl, c23_destroy_frees_post_order intLess Heap.empty (built intLess [3, 2, 11, 13, 5, 17]).1
    (built intLess [3, 2, 11, 13, 5, 17]).2 [3, 2, 11, 13, 5, 17] rfl⟩

/-- C24: let a run of inserts into an empty tree return, `x` being the first value.  The
first `insert` leaves `root` at a node holding `x` whose right link is the end node, which
caches `x`.  After the whole run the end node is the rightmost node reachable from `root`,
its left and right links are null, its parent link is a node `p` whose right link is the end
node, `p` holds the last value of the loop from `begin()` to `end()`, no element orders
after it, and the end node caches that value. -/
theorem c24_end_node_tracks_maximum (isless : T → T → Bool) (hswo : StrictWeakOrder isless)
    (h0 h : Heap T) (t : BinarySearchTree) (x : T) (rest : List T)
    (hrun : insertAll isless h0 BinarySearchTree.empty (x :: rest) = .ok (h, t)) :
    (∃ h1 r e, insert isless h0 BinarySearchTree.empty x = .ok (h1, ⟨some r, some e⟩) ∧
        r ≠ e ∧ h1.cells r = some ⟨x, none, some e, none⟩ ∧
        h1.cells e = some ⟨x, none, none, some r⟩) ∧
      ∃ l e p ce cp, traverse h t = .ok l ∧ end_ t = some e ∧
        rightmost h.fuel h t.root = .ok (some e) ∧
        h.cells e = some ce ∧ ce.left = none ∧ ce.right = none ∧ ce.parent = some p ∧
        h.cells p = some cp ∧ cp.right = some e ∧ l.getLast? = some cp.data ∧
        (∀ y ∈ l, isless cp.data y = false) ∧ ce.data = cp.data := by
  obtain ⟨h1, hins, hc1, hc2, hnext1, -⟩ :=
    insert_first isless h0 BinarySearchTree.empty x rfl
  refine ⟨⟨h1, h0.next, h0.next + 1, hins, by omega, hc1, hc2⟩, ?_⟩
  simp only [insertAll, hins, Res.ok_bind] at hrun
  have hw1 : Wf h1 ⟨some h0.next, some (h0.next + 1)⟩
      ((Shape.node .nil h0.next x .nil).attach (h0.next + 1)
        ((Shape.node .nil h0.next x .nil).maxVal x)) := by
    refine ⟨rfl, ⟨hc1, trivial, hc2, trivial, trivial⟩, ?_, ?_, ?_⟩
    · simp [Shape.attach]
    · intro a ha
      simp [Shape.attach] at ha
      omega
    · simp [Shape.attach]
  obtain ⟨bt, hbt, hw, hord⟩ := insertAll_attach_max isless x rest h1 h _ t _ _ (by simp) hw1
    ⟨by simp, by simp, trivial, trivial⟩ hrun
  have hlen := hw.length_le
  have htrav := traverse_model (Or.inr ⟨hbt, _, _, hw⟩) hbt
  have hend := hw.endNode_eq
  obtain ⟨hroot, hrep, -, -, -⟩ := hw
  obtain ⟨⟨pl, pp, hcp⟩, hce⟩ := Rep.attach_cells (h0.next + 1) (bt.maxVal x) bt none 0 x hbt hrep
  have hright := rightmost_rep (bt.attach (h0.next + 1) (bt.maxVal x)) none 0 h.fuel hrep
    (Shape.attach_ne_nil _ _ _) (by simp only [Heap.fuel]; omega)
  rw [Shape.lastAddr_attach, ← hroot] at hright
  have hlast := Shape.getLast?_vals x bt hbt
  refine ⟨bt.vals, h0.next + 1, bt.lastAddr 0, _, _, htrav, hend, hright, hce, rfl, rfl, rfl,
    hcp, rfl, hlast, ?_, rfl⟩
  intro y hy
  obtain ⟨ys, hys⟩ := List.getLast?_eq_some_iff.1 hlast
  have hpw := hord.pairwise hswo.trans
  rw [hys] at hpw hy
  simp only [List.mem_append, List.mem_singleton] at hy
  rcases hy with hy | hy
  · have h1' : isless y (bt.maxVal x) = true :=
      (List.pairwise_append.1 hpw).2.2 y hy _ (List.mem_singleton_self _)
    cases h2 : isless (bt.maxVal x) y with
    | false => rfl
    | true =>
      have := hswo.trans _ _ _ h1' h2
      rw [hswo.irrefl] at this
      exact absurd this (by simp)
  · rw [hy]; exact hswo.irrefl _

theorem c24_witness :
    StrictWeakOrder intLess ∧
      insertAll intLess Heap.empty BinarySearchTree.empty [3, 2, 11, 13, 5, 17] =
        .ok (built intLess [3, 2, 11, 13, 5, 17]) ∧
      (∃ h1 r e, insert intLess (Heap.empty : Heap Int) BinarySearchTree.empty 3 =
          .ok (h1, ⟨some r, some e⟩) ∧
        r ≠ e ∧ h1.cells r = some ⟨3, none, some e, none⟩ ∧
        h1.cells e = some ⟨3, none, none, some r⟩) ∧
      ∃ l e p ce cp, traverse (built intLess [3, 2, 11, 13, 5, 17]).1
          (built intLess [3, 2, 11, 13, 5, 17]).2 = .ok l ∧
        end_ (built intLess [3, 2, 11, 13, 5, 17]).2 = some e ∧
        rightmost (built intLess [3, 2, 11, 13, 5, 17]).1.fuel
          (built intLess [3, 2, 11, 13, 5, 17]).1
          (built intLess [3, 2, 11, 13, 5, 17]).2.root = .ok (some e) ∧
        (built intLess [3, 2, 11, 13, 5, 17]).1.cells e = some ce ∧ ce.left = none ∧
        ce.right = none ∧ ce.parent = some p ∧
        (built intLess [3, 2, 11, 13, 5, 17]).1.cells p = some cp ∧ cp.right = some e ∧
        l.getLast? = some cp.data ∧ (∀ y ∈ l, intLess cp.data y = false) ∧
        ce.data = cp.data :=
  ⟨intLess_strictWeakOrder, rfl,
    c24_end_node_tracks_maximum intLess intLess_strictWeakOrder Heap.empty
      (built intLess [3, 2, 11, 13, 5, 17]).1 (built intLess [3, 2, 11, 13, 5, 17]).2
      3 [2, 11, 13, 5, 17] rfl⟩

/-- C25: in a tree built by inserts under the default ordering (`operator<`, a strict weak
ordering), let `v` be stored and let `a` be the node the search of `erase` arrives at; it
holds `v`.  If both links of `a` are set, then the left child `p` of `a` is the rightmost
node of its left subtree and holds the value visited just before `v`; `erase(v)` returns;
afterwards the cell `a` holds that value, with its right and parent links unchanged and its
left link taken from `p`; `p` is deleted; the left child of `p`, if any, has `a` as parent;
every other cell is unchanged; so a cursor at `a` now dereferences to the value that
preceded `v`, and the loop yields the old sequence without `v`. -/
theorem c25_erase_both_links_set (lt : T → T → Bool) (hswo : StrictWeakOrder lt)
    (h0 h : Heap T) (t : BinarySearchTree) (vs l : List T) (v : T)
    (hrun : insertAll lt h0 BinarySearchTree.empty vs = .ok (h, t))
    (htrav : traverse h t = .ok l) (hv : v ∈ l) :
    ∃ a c, erase_find lt v h.fuel h t.root none = .ok (some a, c.parent) ∧
      h.cells a = some c ∧ c.data = v ∧
      (c.left ≠ none → c.right ≠ none →
        ∃ p cp h', c.left = some p ∧ h.cells p = some cp ∧
          rightmost h.fuel h c.left = .ok (some p) ∧
          (∃ l1 l2, l = l1 ++ cp.data :: v :: l2 ∧ traverse h' t = .ok (l1 ++ cp.data :: l2)) ∧
          erase lt h t v = .ok (h', t) ∧
          h'.cells a = some ⟨cp.data, cp.left, c.right, c.parent⟩ ∧ h'.cells p = none ∧
          (∀ w cw, cp.left = some w → h.cells w = some cw →
            h'.cells w = some { cw with parent := some a }) ∧
          (∀ b, b ≠ a → b ≠ p → cp.left ≠ some b → h'.cells b = h.cells b) ∧
          deref h' (some a) = .ok cp.data) := by
  classical
  cases vs with
  | nil =>
    simp only [insertAll, Res.ok.injEq, Prod.mk.injEq] at hrun
    obtain ⟨rfl, rfl⟩ := hrun
    rw [traverse_of_root_none _ _ rfl] at htrav
    exact absurd htrav (by simp)
  | cons x0 rest =>
    obtain ⟨bt, e, hbt, hw, hord, hcomb⟩ := built_comb lt h0 h t x0 rest hrun
    have hl : l = bt.vals := by
      have := traverse_model (Or.inr ⟨hbt, _, _, hw⟩) hbt
      rw [htrav] at this
      simpa using this
    subst hl
    have hlen := hw.length_le
    obtain ⟨sl, a, sr, hsub⟩ :=
      Shape.subAt_attach_of_mem lt hswo v e (bt.maxVal x0) bt hord hv
    have hrepsub := Rep.subAt_rep lt v _ none hw.2.1
    rw [hsub] at hrepsub
    have hndsub := Shape.subAt_nodup lt v _ hw.2.2.1
    rw [hsub] at hndsub
    obtain ⟨hca, hrl, hrr⟩ := hrepsub
    have hfind : erase_find lt v h.fuel h t.root none =
        .ok (some a, ((bt.attach e (bt.maxVal x0)).locate lt v none).2) := by
      rw [hw.1, erase_find_rep lt v _ none none h.fuel hw.2.1 (by simp only [Heap.fuel]; omega)]
      have := Shape.locate_fst lt v (bt.attach e (bt.maxVal x0)) none
      rw [hsub, Shape.ptr_node] at this
      rw [← this]
    refine ⟨a, _, hfind, hca, rfl, ?_⟩
    intro hleft hright
    simp only at hleft hright
    have hsr : sr ≠ .nil := fun h0' => hright (by rw [h0']; rfl)
    have hchain := Comb.subAt_attach lt v e (bt.maxVal x0) bt hcomb hsub hsr
    cases sl with
    | nil => exact absurd rfl hleft
    | node sll p y slr =>
      obtain ⟨hslr, -⟩ := hchain
      subst hslr
      obtain ⟨hcp, hrll, -⟩ := hrl
      obtain ⟨rgt, hrgt⟩ : ∃ rgt, sr.ptr = some rgt := by
        cases sr with
        | nil => exact absurd rfl hsr
        | node _ rgt _ _ => exact ⟨rgt, rfl⟩
      simp only [Shape.addrs_node, Shape.addrs_nil, List.nil_append] at hndsub
      have hanl : a ∉ sll.addrs ++ [p] := fun hm =>
        (List.nodup_append.1 hndsub).2.2 hm (List.mem_cons_self _ _)
      have hpnl : p ∉ sll.addrs := fun hm =>
        (List.nodup_append.1 (List.nodup_append.1 hndsub).1).2.2 hm (List.mem_singleton_self p)
      have hap : a ≠ p := fun he => hanl (by simp [he])
      have hlp : ∀ w, sll.ptr = some w → w ≠ a ∧ w ≠ p ∧ ∃ cw, h.cells w = some cw := by
        intro w hwp
        have hwm := Shape.ptr_mem hwp
        exact ⟨fun he => hanl (by rw [← he]; simp [hwm]), fun he => hpnl (he ▸ hwm),
          hrll.live hwm⟩
      rw [hrgt] at hca
      obtain ⟨h', hrun', hca', hcp', hw', hframe, -⟩ :=
        erase_found_left_child h t a p rgt ((bt.attach e (bt.maxVal x0)).locate lt v none).2 _
          sll.ptr v y hca hcp hap hlp
      have herase : erase lt h t v = .ok (h', t) := by
        rw [erase_eq_bind, hfind]
        simpa using hrun'
      obtain ⟨h2, t2, herase2, htrav2⟩ := erase_attach_traverse lt hswo v hw hord hv
      rw [herase] at herase2
      simp only [Res.ok.injEq, Prod.mk.injEq] at herase2
      obtain ⟨rfl, rfl⟩ := herase2
      obtain ⟨pre, post, hvals⟩ := Shape.subAt_vals lt v (bt.attach e (bt.maxVal x0))
      rw [hsub, Shape.vals_attach] at hvals
      simp only [Shape.vals_node, Shape.vals_nil, List.append_assoc, List.cons_append,
        List.nil_append] at hvals
      have hrest : sr.vals ++ post ≠ [] := by
        cases sr with
        | nil => exact absurd rfl hsr
        | node _ _ _ _ => simp
      have hvals' : bt.vals ++ [bt.maxVal x0] = (pre ++ (sll.vals ++ [y, v])) ++ (sr.vals ++ post) := by
        rw [hvals]; simp
      have hsplit := List.eq_of_append_singleton_eq hrest hvals'
      have hsplit' : bt.vals = (pre ++ sll.vals) ++ y :: v :: (sr.vals ++ post).dropLast := by
        rw [hsplit]; simp
      have hnodup : bt.vals.Nodup := by
        refine (hord.pairwise hswo.trans).imp ?_
        intro a b hab he
        rw [he, hswo.irrefl] at hab
        exact absurd hab (by simp)
      have hnd2 := hnodup
      rw [hsplit'] at hnd2
      have hv1 : v ∉ pre ++ sll.vals := fun hm =>
        (List.nodup_append.1 hnd2).2.2 hm (by simp)
      have hyv : y ≠ v := by
        have := (List.nodup_cons.1 (List.nodup_append.1 hnd2).2.1).1
        intro he
        exact this (by simp [he])
      refine ⟨p, _, h', rfl, hcp, ?_, ⟨pre ++ sll.vals, (sr.vals ++ post).dropLast, hsplit', ?_⟩,
        herase, ?_, hcp', hw', hframe, ?_⟩
      · simp [rightmost, Heap.fuel, Heap.load, hcp]
      · rw [htrav2, hsplit', List.erase_append_right _ hv1,
          List.erase_cons_tail (by simpa using hyv), List.erase_cons_head]
      · rw [hca', hrgt]
      · simp [deref, Heap.load, hca']

theorem c25_witness :
    StrictWeakOrder intLess ∧
      insertAll intLess Heap.empty BinarySearchTree.empty [3, 2, 11, 13, 5, 17] =
        .ok (built intLess [3, 2, 11, 13, 5, 17]) ∧
      traverse (built intLess [3, 2, 11, 13, 5, 17]).1 (built intLess [3, 2, 11, 13, 5, 17]).2 =
        .ok [2, 3, 5, 11, 13, 17] ∧
      (11 : Int) ∈ ([2, 3, 5, 11, 13, 17] : List Int) ∧
      ∃ a c, erase_find intLess 11 (built intLess [3, 2, 11, 13, 5, 17]).1.fuel
          (built intLess [3, 2, 11, 13, 5, 17]).1 (built intLess [3, 2, 11, 13, 5, 17]).2.root
          none = .ok (some a, c.parent) ∧
        (built intLess [3, 2, 11, 13, 5, 17]).1.cells a = some c ∧ c.data = 11 ∧
        (c.left ≠ none → c.right ≠ none →
          ∃ p cp h', c.left = some p ∧
            (built intLess [3, 2, 11, 13, 5, 17]).1.cells p = some cp ∧
            rightmost (built intLess [3, 2, 11, 13, 5, 17]).1.fuel
              (built intLess [3, 2, 11, 13, 5, 17]).1 c.left = .ok (some p) ∧
            (∃ l1 l2, ([2, 3, 5, 11, 13, 17] : List Int) = l1 ++ cp.data :: 11 :: l2 ∧
              traverse h' (built intLess [3, 2, 11, 13, 5, 17]).2 =
                .ok (l1 ++ cp.data :: l2)) ∧
            erase intLess (built intLess [3, 2, 11, 13, 5, 17]).1
              (built intLess [3, 2, 11, 13, 5, 17]).2 11 =
                .ok (h', (built intLess [3, 2, 11, 13, 5, 17]).2) ∧
            h'.cells a = some ⟨cp.data, cp.left, c.right, c.parent⟩ ∧ h'.cells p = none ∧
            (∀ w cw, cp.left = some w →
              (built intLess [3, 2, 11, 13, 5, 17]).1.cells w = some cw →
              h'.cells w = some { cw with parent := some a }) ∧
            (∀ b, b ≠ a → b ≠ p → cp.left ≠ some b →
              h'.cells b = (built intLess [3, 2, 11, 13, 5, 17]).1.cells b) ∧
            deref h' (some a) = .ok cp.data) :=
  ⟨intLess_strictWeakOrder, rfl, by decide, by decide,
    c25_erase_both_links_set intLess intLess_strictWeakOrder Heap.empty
      (built intLess [3, 2, 11, 13, 5, 17]).1 (built intLess [3, 2, 11, 13, 5, 17]).2
      [3, 2, 11, 13, 5, 17] [2, 3, 5, 11, 13, 17] 11 rfl (by decide) (by decide)⟩

/-- C26, evaluation at the failing input: after insert 5, erase 5 on a fresh tree, `root`
is the end node, which still caches 5.  Then `insert(5)` returns without storing anything
(the loop yields nothing), and `insert(7)` follows the null right link of the end node. -/
theorem c26_insert_after_emptying :
    runOps intLess intLess Heap.empty BinarySearchTree.empty [.ins 5, .del 5] =
        .ok (reached intLess intLess [.ins 5, .del 5]) ∧
      (reached intLess intLess [.ins 5, .del 5]).2.root =
        (reached intLess intLess [.ins 5, .del 5]).2.endNode ∧
      (insert intLess (reached intLess intLess [.ins 5, .del 5]).1
          (reached intLess intLess [.ins 5, .del 5]).2 5 >>= fun p => traverse p.1 p.2) =
        .ok [] ∧
      insert intLess (reached intLess intLess [.ins 5, .del 5]).1
          (reached intLess intLess [.ins 5, .del 5]).2 7 = .fault .nullDeref :=
  ⟨rfl, by decide, by decide, rfl⟩

/-- C27: let a non-empty run of inserts into an empty tree return, under a strict weak
ordering, and let the pointer graph of the tree be `bt` with the end node `e` (caching `m`)
below its rightmost node.  The copy constructor is the run of `insert` calls with the
values of that graph in pre-order; all of them return; the new tree object is a tree `bt2`
with its own end node `e2` below its rightmost node, `bt2` having the same value as `bt` at
every position of the link structure and `e2` caching `m`; no node is shared, and the
source is as it was. -/
theorem c27_copy_has_same_shape (isless : T → T → Bool) (hswo : StrictWeakOrder isless)
    (junk : Option Nat) (h0 h : Heap T) (t : BinarySearchTree) (x : T) (rest : List T)
    (hrun : insertAll isless h0 BinarySearchTree.empty (x :: rest) = .ok (h, t)) :
    ∃ (bt : Shape T) (e : Nat) (m : T), bt ≠ .nil ∧ Wf h t (bt.attach e m) ∧
      copy_construct isless junk h t =
        insertAll isless h ⟨none, junk⟩ (bt.attach e m).preorder ∧
      ∃ (h2 : Heap T) (t2 : BinarySearchTree) (bt2 : Shape T) (e2 : Nat),
        copy_construct isless junk h t = .ok (h2, t2) ∧ Wf h2 t2 (bt2.attach e2 m) ∧
        bt2.forget = bt.forget ∧ (∀ a ∈ (bt2.attach e2 m).addrs, a ∉ (bt.attach e m).addrs) ∧
        Wf h2 t (bt.attach e m) := by
  obtain ⟨bt, e, hbt, hw, hord, hcomb⟩ := built_comb isless h0 h t x rest hrun
  have hlen := hw.length_le
  obtain ⟨hroot, hrep, hnd, hlt, hend⟩ := hw
  have htg : Target h.next h ⟨none, junk⟩ := ⟨le_refl _, Or.inl rfl⟩
  have hcopy : copy_construct isless junk h t =
      insertAll isless h ⟨none, junk⟩ (bt.attach e (bt.maxVal x)).preorder := by
    rw [copy_construct, hroot]
    exact copy_helper_eq isless h.next _ h.fuel h _ none hrep hlt htg
      (by simp only [Heap.fuel]; omega)
  refine ⟨bt, e, bt.maxVal x, hbt, ⟨hroot, hrep, hnd, hlt, hend⟩, hcopy, ?_⟩
  cases bt with
  | nil => exact absurd rfl hbt
  | node l a y r =>
    obtain ⟨hcl, hcr⟩ := hcomb
    obtain ⟨ho1, ho2, hol, hor⟩ := hord
    obtain ⟨h1, hins, hw1, hnext1, -⟩ := insert_first_wf isless h ⟨none, junk⟩ y rfl
    obtain ⟨l', r', hpure, hfl, hfr, haddr⟩ := Shape.insAll_comb isless hswo (h.next + 1) r hcr hor
      l y h.next (h.next + 2) hcl hol ho1 ho2 (by omega)
    have hforget : (Shape.node l' h.next y r').forget = (Shape.node l a y r).forget := by
      simp [Shape.forget, hfl, hfr]
    have hmax : (Shape.node l' h.next y r').maxVal x = (Shape.node l a y r).maxVal x := by
      rw [← Shape.maxVal_forget, hforget, Shape.maxVal_forget]
    have hord1 : Ordered isless (Shape.node l' h.next y r') := by
      rw [← Ordered.forget_iff, hforget, Ordered.forget_iff]
      exact ⟨ho1, ho2, hol, hor⟩
    have he1 : h.next + 1 ∉ (Shape.node l' h.next y r').addrs := by
      simp only [Shape.addrs_node, List.mem_append, List.mem_cons, not_or]
      refine ⟨fun hm => ?_, by omega, fun hm => ?_⟩
      · have := haddr _ (List.mem_append.2 (Or.inl hm)); omega
      · have := haddr _ (List.mem_append.2 (Or.inr hm)); omega
    have hdup := Shape.ins_dup_attach isless hswo.trans (h.next + 1)
      (h.next + 2 + (l.preorder ++ r.preorder).length) ((Shape.node l' h.next y r').maxVal x)
      ((Shape.node l' h.next y r').maxVal x) _ hord1 he1
      ⟨_, Shape.maxVal_mem x (by simp), hswo.irrefl _, hswo.irrefl _⟩
    have hpure2 : Shape.insAll isless (some (h.next + 1)) h1.next
        ((l.preorder ++ r.preorder) ++ [(Shape.node l a y r).maxVal x])
        ((Shape.node Shape.nil h.next y Shape.nil).attach (h.next + 1) y) =
        .ok ((Shape.node l' h.next y r').attach (h.next + 1)
          ((Shape.node l' h.next y r').maxVal x)) := by
      rw [hnext1, Shape.insAll_append]
      have : (Shape.node Shape.nil h.next y Shape.nil).attach (h.next + 1) y =
          Shape.node .nil h.next y (.node .nil (h.next + 1) y .nil) := rfl
      rw [this, hpure, Res.ok_bind, Shape.insAll_cons, ← hmax]
      have h2 : (Shape.node l' h.next y (r'.attach (h.next + 1) (r'.maxVal y))) =
          (Shape.node l' h.next y r').attach (h.next + 1)
            ((Shape.node l' h.next y r').maxVal x) := rfl
      rw [h2, hdup]
      rfl
    obtain ⟨h2, hall, hw2⟩ := insertAll_of_insAll isless _ h1 _ (.node .nil h.next y .nil)
      (h.next + 1) y _ (by simp) hw1 hpure2
    have hrun2 : insertAll isless h ⟨none, junk⟩
        ((Shape.node l a y r).attach e ((Shape.node l a y r).maxVal x)).preorder =
        .ok (h2, ⟨some h.next, some (h.next + 1)⟩) := by
      rw [Shape.preorder_attach, Shape.preorder, List.cons_append, insertAll_cons, hins,
        Res.ok_bind]
      exact hall
    obtain ⟨htg2, hframe⟩ := insertAll_target isless _ h h2 _ _ htg hrun2
    refine ⟨h2, _, .node l' h.next y r', h.next + 1, by rw [hcopy, hrun2], ?_, hforget, ?_,
      ⟨hroot, hrep.frame (fun b hb => hframe b (hlt b hb)), hnd,
        fun b hb => lt_of_lt_of_le (hlt b hb) htg2.1, hend⟩⟩
    · rw [← hmax]; exact hw2
    · intro b hb hb'
      have hb1 := hlt b hb'
      rw [Shape.addrs_attach] at hb
      simp only [Shape.addrs_node, List.mem_append, List.mem_cons, List.mem_singleton,
        List.not_mem_nil, or_false] at hb
      rcases hb with (hb | hb | hb) | hb
      · have := haddr _ (List.mem_append.2 (Or.inl hb)); omega
      · omega
      · have := haddr _ (List.mem_append.2 (Or.inr hb)); omega
      · omega

theorem c27_witness :
    StrictWeakOrder intLess ∧
      insertAll intLess Heap.empty BinarySearchTree.empty [3, 2, 11, 13, 5, 17] =
        .ok (built intLess [3, 2, 11, 13, 5, 17]) ∧
      ∃ (bt : Shape Int) (e : Nat) (m : Int), bt ≠ .nil ∧
        Wf (built intLess [3, 2, 11, 13, 5, 17]).1 (built intLess [3, 2, 11, 13, 5, 17]).2
          (bt.attach e m) ∧
        copy_construct intLess none (built intLess [3, 2, 11, 13, 5, 17]).1
            (built intLess [3, 2, 11, 13, 5, 17]).2 =
          insertAll intLess (built intLess [3, 2, 11, 13, 5, 17]).1 ⟨none, none⟩
            (bt.attach e m).preorder ∧
        ∃ (h2 : Heap Int) (t2 : BinarySearchTree) (bt2 : Shape Int) (e2 : Nat),
          copy_construct intLess none (built intLess [3, 2, 11, 13, 5, 17]).1
            (built intLess [3, 2, 11, 13, 5, 17]).2 = .ok (h2, t2) ∧
          Wf h2 t2 (bt2.attach e2 m) ∧ bt2.forget = bt.forget ∧
          (∀ a ∈ (bt2.attach e2 m).addrs, a ∉ (bt.attach e m).addrs) ∧
          Wf h2 (built intLess [3, 2, 11, 13, 5, 17]).2 (bt.attach e m) :=
  ⟨intLess_strictWeakOrder, rfl,
    c27_copy_has_same_shape intLess intLess_strictWeakOrder none Heap.empty
      (built intLess [3, 2, 11, 13, 5, 17]).1 (built intLess [3, 2, 11, 13, 5, 17]).2
      3 [2, 11, 13, 5, 17] rfl⟩

end Hw8
